import Mathlib

/-!
Verification of the jsmn JSON tokenizer (src/jsmn.h).

The development is a shallow embedding of the C source.  The embedded
configuration is the strict (RFC 8259) dialect with parent links enabled
(JSMN_PERMISSIVE undefined, JSMN_PARENT_LINKS defined, JSMN_NEXT_SIBLING
undefined); a second embedding of the permissive dialect (JSMN_PERMISSIVE and
JSMN_PARENT_LINKS defined) appears further down, used by the claims that
quantify over both dialects.

Modelling conventions:
* jsmnint_t index fields that use the JSMN_NEG sentinel (toksuper, parent,
  start, end) are modelled as Option Nat, with none standing for JSMN_NEG.
* The byte buffer is a List Char read through byteAt; positions at or past the
  buffer length read as the NUL byte, matching the null-terminator checks of
  the C loops (the C caller guarantees the buffer holds at least len bytes).
* The token pool is the list of slots written so far; writeTok writes slot i
  in place, extending the list when i is the next fresh slot, which is how the
  C code uses the caller's preallocated array.
* The C scan loops are modelled with an explicit fuel argument; every loop
  advances the scan position by at least one per iteration, so fuel len + 1
  is always sufficient, and fuel-irrelevance lemmas are proved below.
-/

namespace Jsmn

/-- jsmntype_t constants (bit masks), from the C enum. -/
def JSMN_UNDEFINED : Nat := 0x00
def JSMN_OBJECT : Nat := 0x01
def JSMN_ARRAY : Nat := 0x02
def JSMN_STRING : Nat := 0x04
def JSMN_PRIMITIVE : Nat := 0x08
def JSMN_KEY : Nat := 0x10
def JSMN_VALUE : Nat := 0x20
def JSMN_CLOSE : Nat := 0x40
def JSMN_DELIMITER : Nat := 0x80
def JSMN_CONTAINER : Nat := JSMN_OBJECT ||| JSMN_ARRAY
def JSMN_ANY_TYPE : Nat := JSMN_OBJECT ||| JSMN_ARRAY ||| JSMN_STRING ||| JSMN_PRIMITIVE

/-- enum jsmnerr error codes (JSMN_SUCCESS is the ok case of Except). -/
inductive jsmnerr where
  | NOMEM
  | INVAL
  | PART
deriving DecidableEq, Repr

/-- struct jsmntok_t with JSMN_PARENT_LINKS: type, start, end, size, parent.
end is a reserved word in Lean, so the field is named end_. -/
structure jsmntok_t where
  type : Nat
  start : Option Nat
  end_ : Option Nat
  size : Nat
  parent : Option Nat
deriving DecidableEq, Repr

instance : Inhabited jsmntok_t := ⟨⟨0, none, none, 0, none⟩⟩

/-- struct jsmn_parser: pos, toknext, toksuper, expected. -/
structure jsmn_parser_t where
  pos : Nat
  toknext : Nat
  toksuper : Option Nat
  expected : Nat
deriving DecidableEq, Repr

/-- Read byte i of the buffer; past the end this reads as NUL, which every

C scan loop treats as end of input. -/
def byteAt (js : List Char) (i : Nat) : Char := js.getD i (Char.ofNat 0)

/-- Read token slot i (indices read by the C code are always allocated). -/
def getTok (toks : List jsmntok_t) (i : Nat) : jsmntok_t := toks.getD i default

/-- tokens[parser->toksuper]; with toksuper == JSMN_NEG the C code would read

out of bounds, which is unreachable from the driver, so the model returns the

default token there. -/
def getSuperTok (toks : List jsmntok_t) (osup : Option Nat) : jsmntok_t :=
  match osup with
  | none => default
  | some s => getTok toks s

/-- Write token slot i, extending the pool when i is the next fresh slot. -/
def writeTok (toks : List jsmntok_t) (i : Nat) (t : jsmntok_t) : List jsmntok_t :=
  if i < toks.length then toks.set i t else toks ++ [t]

/-- jsmnint_t value n - 1 where n - 1 == JSMN_NEG when n == 0 (unsigned wrap),
as in parser->toknext - 1. -/
def decIdx (n : Nat) : Option Nat :=
  if n = 0 then none else some (n - 1)

/-- jsmn_is_type: bitwise containment test on a token's type mask. -/
def jsmn_is_type (t : jsmntok_t) (ty : Nat) : Nat := t.type &&& ty

/-- jsmn_is_expected: bitwise containment test on the expected mask. -/
def jsmn_is_expected (p : jsmn_parser_t) (ty : Nat) : Nat := p.expected &&& ty

/-- Characters that terminate a primitive in the strict dialect
(the case labels of the switch in jsmn_parse_primitive). -/
def isPrimTerm (c : Char) : Bool :=
  c == ' ' || c == '\t' || c == '\n' || c == '\r' || c == ',' || c == ']' || c == '}'

/-- The characters that dispatch to jsmn_parse_primitive in the strict driver:
the case labels - 0 1 2 3 4 5 6 7 8 9 t f n of the switch in jsmn_parse. -/
def isPrimStart (c : Char) : Bool :=
  c == '-' || c == '0' || c == '1' || c == '2' || c == '3' || c == '4' || c == '5' ||
    c == '6' || c == '7' || c == '8' || c == '9' || c == 't' || c == 'f' || c == 'n'

/-- Hex digit test of the u escape: 0-9, A-F, a-f by character code. -/
def isHexDigit (c : Char) : Bool :=
  (48 ≤ c.toNat && c.toNat ≤ 57) || (65 ≤ c.toNat && c.toNat ≤ 70) ||
    (97 ≤ c.toNat && c.toNat ≤ 102)

/-- The scan loop of jsmn_parse_primitive (strict): from pos, find the
terminating character, rejecting bytes outside 32..126; reaching len or a NUL
byte yields PART.  Returns the terminator position. -/
def jsmn_prim_scan (js : List Char) (len : Nat) : Nat → Nat → Except jsmnerr Nat
  | 0, _ => Except.error jsmnerr.PART
  | fuel + 1, pos =>
    if pos < len ∧ byteAt js pos ≠ Char.ofNat 0 then
      let c := byteAt js pos
      if isPrimTerm c then Except.ok pos
      else if c.toNat < 32 ∨ 127 ≤ c.toNat then Except.error jsmnerr.INVAL
      else jsmn_prim_scan js len fuel (pos + 1)
    else Except.error jsmnerr.PART

/-- The hex-digit loop of the u escape: consume up to four hex digits
starting at pos, stopping early at len or NUL; a non-hex byte is INVAL.
Returns the position one past the last digit consumed. -/
def jsmn_hex_scan (js : List Char) (len : Nat) : Nat → Nat → Except jsmnerr Nat
  | 0, pos => Except.ok pos
  | i + 1, pos =>
    if pos < len ∧ byteAt js pos ≠ Char.ofNat 0 then
      if isHexDigit (byteAt js pos) then jsmn_hex_scan js len i (pos + 1)
      else Except.error jsmnerr.INVAL
    else Except.ok pos

/-- The scan loop of jsmn_parse_string: from pos (one past the opening quote),
find the closing quote, validating escapes; reaching len or a NUL byte is
PART.  Returns the closing quote position. -/
def jsmn_str_scan (js : List Char) (len : Nat) : Nat → Nat → Except jsmnerr Nat
  | 0, _ => Except.error jsmnerr.PART
  | fuel + 1, pos =>
    if pos < len ∧ byteAt js pos ≠ Char.ofNat 0 then
      let c := byteAt js pos
      if c = '"' then Except.ok pos
      else if c = '\\' ∧ pos + 1 < len then
        let e := byteAt js (pos + 1)
        if e = '"' ∨ e = '\\' ∨ e = '/' ∨ e = 'b' ∨ e = 'f' ∨ e = 'n' ∨ e = 'r' ∨ e = 't' then
          jsmn_str_scan js len fuel (pos + 2)
        else if e = 'u' then
          match jsmn_hex_scan js len 4 (pos + 2) with
          | Except.error err => Except.error err
          | Except.ok pos2 => jsmn_str_scan js len fuel pos2
        else Except.error jsmnerr.INVAL
      else jsmn_str_scan js len fuel (pos + 1)
    else Except.error jsmnerr.PART

/-- jsmn_parse_primitive (strict dialect, parent links).  On any error the C
code rewinds parser->pos to the start of the literal, which is the entry
position, so errors return the entry state unchanged. -/
def jsmn_parse_primitive (p : jsmn_parser_t) (js : List Char) (len : Nat)
    (otoks : Option (List jsmntok_t)) (cap : Nat) :
    jsmn_parser_t × Option (List jsmntok_t) × Except jsmnerr Unit :=
  if otoks.isSome ∧ jsmn_is_expected p JSMN_PRIMITIVE = 0 then
    (p, otoks, Except.error jsmnerr.INVAL)
  else
    match jsmn_prim_scan js len (len + 1) p.pos with
    | Except.error e => (p, otoks, Except.error e)
    | Except.ok term =>
      match otoks with
      | none => ({ p with pos := term - 1 }, none, Except.ok ())
      | some toks =>
        if p.toknext < cap then
          let tok : jsmntok_t :=
            { type := JSMN_PRIMITIVE ||| JSMN_VALUE, start := some p.pos,
              end_ := some term, size := 0, parent := p.toksuper }
          ({ p with pos := term - 1, toknext := p.toknext + 1,
                    expected := JSMN_DELIMITER ||| JSMN_CLOSE },
           some (writeTok toks p.toknext tok), Except.ok ())
        else (p, some toks, Except.error jsmnerr.NOMEM)

/-- jsmn_parse_string (strict dialect, parent links).  The token is a KEY when
the current super token is an OBJECT and the previous token is an OBJECT or a
VALUE (tokens[toknext - 2] after allocation, which is toknext - 1 before);
otherwise it is a VALUE.  Errors rewind parser->pos to the opening quote, the
entry position, so errors return the entry state unchanged. -/
def jsmn_parse_string (p : jsmn_parser_t) (js : List Char) (len : Nat)
    (otoks : Option (List jsmntok_t)) (cap : Nat) :
    jsmn_parser_t × Option (List jsmntok_t) × Except jsmnerr Unit :=
  if otoks.isSome ∧ jsmn_is_expected p JSMN_STRING = 0 then
    (p, otoks, Except.error jsmnerr.INVAL)
  else
    match jsmn_str_scan js len (len + 1) (p.pos + 1) with
    | Except.error e => (p, otoks, Except.error e)
    | Except.ok q =>
      match otoks with
      | none => ({ p with pos := q }, none, Except.ok ())
      | some toks =>
        if p.toknext < cap then
          if jsmn_is_type (getSuperTok toks p.toksuper) JSMN_OBJECT ≠ 0 ∧
             jsmn_is_type (getTok toks (p.toknext - 1)) (JSMN_OBJECT ||| JSMN_VALUE) ≠ 0 then
            let tok : jsmntok_t :=
              { type := JSMN_STRING ||| JSMN_KEY, start := some (p.pos + 1),
                end_ := some q, size := 0, parent := p.toksuper }
            ({ p with pos := q, toknext := p.toknext + 1, expected := JSMN_DELIMITER },
             some (writeTok toks p.toknext tok), Except.ok ())
          else
            let tok : jsmntok_t :=
              { type := JSMN_STRING ||| JSMN_VALUE, start := some (p.pos + 1),
                end_ := some q, size := 0, parent := p.toksuper }
            ({ p with pos := q, toknext := p.toknext + 1,
                      expected := JSMN_DELIMITER ||| JSMN_CLOSE },
             some (writeTok toks p.toknext tok), Except.ok ())
        else (p, some toks, Except.error jsmnerr.NOMEM)

/-- The closing-bracket walk of jsmn_parse (JSMN_PARENT_LINKS variant): from
token toknext - 1 follow parent links; the first token that is started but not
ended must match the bracket type and receives end := pos + 1, and toksuper
becomes its parent.  A closed root (parent none) must match the type and
requires toksuper not none, and leaves the pool and toksuper unchanged.  The
fuel is toknext, sufficient because parent indices decrease strictly in every
reachable pool (the C loop has no fuel and would cycle on a cyclic pool). -/
def jsmn_close_walk (toks : List jsmntok_t) (ty : Nat) (pos : Nat)
    (tsuper : Option Nat) : Nat → Nat → Except jsmnerr (List jsmntok_t × Option Nat)
  | 0, _ => Except.error jsmnerr.INVAL
  | fuel + 1, i =>
    let t := getTok toks i
    if t.start ≠ none ∧ t.end_ = none then
      if jsmn_is_type t ty = 0 then Except.error jsmnerr.INVAL
      else Except.ok (writeTok toks i { t with end_ := some (pos + 1) }, t.parent)
    else
      match t.parent with
      | none =>
        if jsmn_is_type t ty = 0 ∨ tsuper = none then Except.error jsmnerr.INVAL
        else Except.ok (toks, tsuper)
      | some par => jsmn_close_walk toks ty pos tsuper fuel par

/-- The end-of-input check of jsmn_parse: is some token in slots 0..n-1
started but not ended? -/
def hasOpenTok (toks : List jsmntok_t) : Nat → Bool
  | 0 => false
  | i + 1 =>
    ((getTok toks i).start.isSome && (getTok toks i).end_.isNone) || hasOpenTok toks i

/-- What jsmn_parse does after its scan loop: with a pool, PART when a token
is still open, otherwise the token count. -/
def jsmn_parse_fin (p : jsmn_parser_t) (otoks : Option (List jsmntok_t)) (count : Nat) :
    jsmn_parser_t × Option (List jsmntok_t) × Except jsmnerr Nat :=
  match otoks with
  | none => (p, none, Except.ok count)
  | some toks =>
    if hasOpenTok toks p.toknext then (p, some toks, Except.error jsmnerr.PART)
    else (p, some toks, Except.ok count)

/-- Result of one driver dispatch: continue scanning from a new state, or
return an error. -/
inductive StepRes where
  | next (p : jsmn_parser_t) (otoks : Option (List jsmntok_t)) (count : Nat)
  | stop (p : jsmn_parser_t) (otoks : Option (List jsmntok_t)) (e : jsmnerr)
deriving DecidableEq, Repr

/-- One iteration of the scan loop of jsmn_parse (strict dialect, parent
links): dispatch on the byte at parser->pos, assuming parser->pos < len and
the byte is not NUL.  The final pos + 1 of the C for loop is folded into each
continuing branch. -/
def jsmn_parse_step (js : List Char) (len cap : Nat) (p : jsmn_parser_t)
    (otoks : Option (List jsmntok_t)) (count : Nat) : StepRes :=
  let c := byteAt js p.pos
  if c = '{' ∨ c = '[' then
    match otoks with
    | none => StepRes.next { p with pos := p.pos + 1 } none (count + 1)
    | some toks =>
      if p.toknext < cap then
        let ty := if c = '{' then JSMN_OBJECT else JSMN_ARRAY
        if jsmn_is_expected p ty = 0 then
          StepRes.stop { p with toknext := p.toknext + 1 }
            (some (writeTok toks p.toknext
              { type := ty, start := none, end_ := none, size := 0, parent := none }))
            jsmnerr.INVAL
        else
          let expected1 :=
            if ty &&& JSMN_OBJECT ≠ 0 then JSMN_STRING ||| JSMN_CLOSE
            else JSMN_ANY_TYPE ||| JSMN_CLOSE
          match p.toksuper with
          | some s =>
            let toks1 := writeTok toks s
              { getTok toks s with size := (getTok toks s).size + 1 }
            StepRes.next
              { p with pos := p.pos + 1, toknext := p.toknext + 1,
                       toksuper := some p.toknext, expected := expected1 }
              (some (writeTok toks1 p.toknext
                { type := ty ||| JSMN_VALUE, start := some p.pos, end_ := none,
                  size := 0, parent := some s }))
              (count + 1)
          | none =>
            StepRes.next
              { p with pos := p.pos + 1, toknext := p.toknext + 1,
                       toksuper := some p.toknext, expected := expected1 }
              (some (writeTok toks p.toknext
                { type := ty ||| JSMN_VALUE, start := some p.pos, end_ := none,
                  size := 0, parent := none }))
              (count + 1)
      else StepRes.stop p (some toks) jsmnerr.NOMEM
  else if c = '}' ∨ c = ']' then
    match otoks with
    | none => StepRes.next { p with pos := p.pos + 1 } none count
    | some toks =>
      if jsmn_is_expected p JSMN_CLOSE = 0 then StepRes.stop p (some toks) jsmnerr.INVAL
      else
        let ty := if c = '}' then JSMN_OBJECT else JSMN_ARRAY
        if p.toknext < 1 then StepRes.stop p (some toks) jsmnerr.INVAL
        else
          match jsmn_close_walk toks ty p.pos p.toksuper p.toknext (p.toknext - 1) with
          | Except.error e => StepRes.stop p (some toks) e
          | Except.ok (toks1, super1) =>
            let expected1 :=
              if super1 = none then JSMN_CONTAINER else JSMN_DELIMITER ||| JSMN_CLOSE
            StepRes.next
              { p with pos := p.pos + 1, toksuper := super1, expected := expected1 }
              (some toks1) count
  else if c = '"' then
    match jsmn_parse_string p js len otoks cap with
    | (p1, otoks1, Except.error e) => StepRes.stop p1 otoks1 e
    | (p1, otoks1, Except.ok _) =>
      match otoks1, p1.toksuper with
      | some toks, some s =>
        StepRes.next { p1 with pos := p1.pos + 1 }
          (some (writeTok toks s { getTok toks s with size := (getTok toks s).size + 1 }))
          (count + 1)
      | otoks1, _ => StepRes.next { p1 with pos := p1.pos + 1 } otoks1 (count + 1)
  else if c = ' ' ∨ c = '\t' ∨ c = '\n' ∨ c = '\r' then
    StepRes.next { p with pos := p.pos + 1 } otoks count
  else if c = ':' then
    if jsmn_is_expected p JSMN_DELIMITER = 0 then StepRes.stop p otoks jsmnerr.INVAL
    else
      match otoks with
      | some toks =>
        if p.toksuper = none ∨ jsmn_is_type (getTok toks (p.toknext - 1)) JSMN_KEY = 0 then
          StepRes.stop p (some toks) jsmnerr.INVAL
        else
          StepRes.next
            { p with pos := p.pos + 1, expected := JSMN_ANY_TYPE,
                     toksuper := decIdx p.toknext }
            (some toks) count
      | none =>
        StepRes.next
          { p with pos := p.pos + 1, expected := JSMN_ANY_TYPE,
                   toksuper := decIdx p.toknext }
          none count
  else if c = ',' then
    match otoks with
    | some toks =>
      if p.toksuper ≠ none then
        if jsmn_is_expected p JSMN_DELIMITER = 0 then
          StepRes.stop p (some toks) jsmnerr.INVAL
        else if jsmn_is_type (getTok toks (p.toknext - 1)) JSMN_KEY ≠ 0 then
          StepRes.stop p (some toks) jsmnerr.INVAL
        else
          let expected1 :=
            if jsmn_is_type (getSuperTok toks p.toksuper) JSMN_OBJECT ≠ 0 then JSMN_STRING
            else JSMN_ANY_TYPE
          let super1 :=
            if jsmn_is_type (getSuperTok toks p.toksuper) JSMN_CONTAINER = 0 then
              (getSuperTok toks p.toksuper).parent
            else p.toksuper
          StepRes.next
            { p with pos := p.pos + 1, expected := expected1, toksuper := super1 }
            (some toks) count
      else StepRes.next { p with pos := p.pos + 1 } (some toks) count
    | none => StepRes.next { p with pos := p.pos + 1 } none count
  else if isPrimStart c then
    match jsmn_parse_primitive p js len otoks cap with
    | (p1, otoks1, Except.error e) => StepRes.stop p1 otoks1 e
    | (p1, otoks1, Except.ok _) =>
      match otoks1, p1.toksuper with
      | some toks, some s =>
        StepRes.next { p1 with pos := p1.pos + 1 }
          (some (writeTok toks s { getTok toks s with size := (getTok toks s).size + 1 }))
          (count + 1)
      | otoks1, _ => StepRes.next { p1 with pos := p1.pos + 1 } otoks1 (count + 1)
  else StepRes.stop p otoks jsmnerr.INVAL

/-- The scan loop of jsmn_parse (strict dialect, parent links), one step per
driver dispatch.  Fuel len + 1 is always sufficient since every iteration
advances parser->pos by at least one. -/
def jsmn_parse_loop (js : List Char) (len cap : Nat) :
    Nat → jsmn_parser_t → Option (List jsmntok_t) → Nat →
    jsmn_parser_t × Option (List jsmntok_t) × Except jsmnerr Nat
  | 0, p, otoks, count => jsmn_parse_fin p otoks count
  | fuel + 1, p, otoks, count =>
    if p.pos < len ∧ byteAt js p.pos ≠ Char.ofNat 0 then
      match jsmn_parse_step js len cap p otoks count with
      | StepRes.next p1 otoks1 count1 => jsmn_parse_loop js len cap fuel p1 otoks1 count1
      | StepRes.stop p1 otoks1 e => (p1, otoks1, Except.error e)
    else jsmn_parse_fin p otoks count

/-- jsmn_parse (strict dialect, parent links): run the scan loop from the
given parser state with count starting at parser->toknext. -/
def jsmn_parse (p : jsmn_parser_t) (js : List Char) (len : Nat)
    (otoks : Option (List jsmntok_t)) (cap : Nat) :
    jsmn_parser_t × Option (List jsmntok_t) × Except jsmnerr Nat :=
  jsmn_parse_loop js len cap (len + 1) p otoks p.toknext

/-- jsmn_init (strict dialect): pos 0, toknext 0, toksuper none,
expected JSMN_CONTAINER. -/
def jsmn_init : jsmn_parser_t :=
  { pos := 0, toknext := 0, toksuper := none, expected := JSMN_CONTAINER }

instance {ε α : Type} [DecidableEq ε] [DecidableEq α] : DecidableEq (Except ε α) := fun x y =>
  match x, y with
  | Except.ok a, Except.ok b =>
    if h : a = b then Decidable.isTrue (by rw [h]) else Decidable.isFalse (by simp [h])
  | Except.error a, Except.error b =>
    if h : a = b then Decidable.isTrue (by rw [h]) else Decidable.isFalse (by simp [h])
  | Except.ok _, Except.error _ => Decidable.isFalse (by simp)
  | Except.error _, Except.ok _ => Decidable.isFalse (by simp)

/-! The permissive dialect (JSMN_PERMISSIVE and JSMN_PARENT_LINKS defined).
Definitions mirror the strict ones above; only the ifdef JSMN_PERMISSIVE
differences of jsmn.h change. -/

/-- Characters that terminate a primitive in the permissive dialect: the
strict set plus the colon. -/
def isPrimTermP (c : Char) : Bool :=
  c == ':' || c == ' ' || c == '\t' || c == '\n' || c == '\r' || c == ',' ||
    c == ']' || c == '}'

/-- The scan loop of jsmn_parse_primitive (permissive): like the strict scan,
except that reaching len or a NUL byte falls through to found (the literal
ends at the buffer end) instead of PART. -/
def jsmn_prim_scan_p (js : List Char) (len : Nat) : Nat → Nat → Except jsmnerr Nat
  | 0, pos => Except.ok pos
  | fuel + 1, pos =>
    if pos < len ∧ byteAt js pos ≠ Char.ofNat 0 then
      let c := byteAt js pos
      if isPrimTermP c then Except.ok pos
      else if c.toNat < 32 ∨ 127 ≤ c.toNat then Except.error jsmnerr.INVAL
      else jsmn_prim_scan_p js len fuel (pos + 1)
    else Except.ok pos

/-- The toksuper fix-up block shared by the permissive scanners: when a
DELIMITER was also expected and the token before the last is a KEY, a comma
did not separate the previous pair from this token, and toksuper is moved to
tokens[toksuper].parent. -/
def jsmn_fix_super_p (p : jsmn_parser_t) (otoks : Option (List jsmntok_t)) : jsmn_parser_t :=
  if otoks.isSome ∧ 2 ≤ p.toknext ∧ jsmn_is_expected p JSMN_DELIMITER ≠ 0 ∧
      jsmn_is_type (getTok (otoks.getD []) (p.toknext - 2)) JSMN_KEY ≠ 0 then
    { p with toksuper := (getSuperTok (otoks.getD []) p.toksuper).parent }
  else p

/-- jsmn_parse_primitive (permissive dialect, parent links). -/
def jsmn_parse_primitive_p (p0 : jsmn_parser_t) (js : List Char) (len : Nat)
    (otoks : Option (List jsmntok_t)) (cap : Nat) :
    jsmn_parser_t × Option (List jsmntok_t) × Except jsmnerr Unit :=
  if otoks.isSome ∧ jsmn_is_expected p0 JSMN_PRIMITIVE = 0 then
    (p0, otoks, Except.error jsmnerr.INVAL)
  else
    let p := jsmn_fix_super_p p0 otoks
    match jsmn_prim_scan_p js len (len + 1) p.pos with
    | Except.error e => (p, otoks, Except.error e)
    | Except.ok term =>
      match otoks with
      | none => ({ p with pos := term - 1 }, none, Except.ok ())
      | some toks =>
        if p.toknext < cap then
          let ty :=
            if p.toksuper ≠ none ∧ jsmn_is_type (getSuperTok toks p.toksuper) JSMN_KEY ≠ 0
            then JSMN_PRIMITIVE ||| JSMN_VALUE else JSMN_PRIMITIVE
          let exp :=
            if p.toksuper ≠ none ∧ (getSuperTok toks p.toksuper).parent = none
            then JSMN_DELIMITER ||| JSMN_CLOSE ||| JSMN_ANY_TYPE
            else JSMN_DELIMITER ||| JSMN_CLOSE
          ({ p with pos := term - 1, toknext := p.toknext + 1, expected := exp },
           some (writeTok toks p.toknext
             { type := ty, start := some p.pos, end_ := some term, size := 0,
               parent := p.toksuper }),
           Except.ok ())
        else (p, some toks, Except.error jsmnerr.NOMEM)

/-- jsmn_parse_string (permissive dialect, parent links): same scan loop as
the strict dialect; the token is a VALUE when the previous token is a KEY,
and expected becomes ANY_TYPE or DELIMITER or CLOSE. -/
def jsmn_parse_string_p (p0 : jsmn_parser_t) (js : List Char) (len : Nat)
    (otoks : Option (List jsmntok_t)) (cap : Nat) :
    jsmn_parser_t × Option (List jsmntok_t) × Except jsmnerr Unit :=
  if otoks.isSome ∧ jsmn_is_expected p0 JSMN_STRING = 0 then
    (p0, otoks, Except.error jsmnerr.INVAL)
  else
    let p := jsmn_fix_super_p p0 otoks
    match jsmn_str_scan js len (len + 1) (p.pos + 1) with
    | Except.error e => (p, otoks, Except.error e)
    | Except.ok q =>
      match otoks with
      | none => ({ p with pos := q }, none, Except.ok ())
      | some toks =>
        if p.toknext < cap then
          let ty :=
            if 1 ≤ p.toknext ∧ jsmn_is_type (getTok toks (p.toknext - 1)) JSMN_KEY ≠ 0
            then JSMN_STRING ||| JSMN_VALUE else JSMN_STRING
          ({ p with pos := q, toknext := p.toknext + 1,
                    expected := JSMN_ANY_TYPE ||| JSMN_DELIMITER ||| JSMN_CLOSE },
           some (writeTok toks p.toknext
             { type := ty, start := some (p.pos + 1), end_ := some q, size := 0,
               parent := p.toksuper }),
           Except.ok ())
        else (p, some toks, Except.error jsmnerr.NOMEM)

/-- One iteration of the scan loop of jsmn_parse (permissive dialect, parent
links).  In the colon case the C code writes tokens[toknext - 1].type |= KEY
without a tokens != NULL guard; with a NULL pool that write is undefined
behaviour in C, so the model performs the parser-state updates and skips the
write. -/
def jsmn_parse_step_p (js : List Char) (len cap : Nat) (p : jsmn_parser_t)
    (otoks : Option (List jsmntok_t)) (count : Nat) : StepRes :=
  let c := byteAt js p.pos
  if c = '{' ∨ c = '[' then
    match otoks with
    | none => StepRes.next { p with pos := p.pos + 1 } none (count + 1)
    | some toks =>
      if p.toknext < cap then
        let ty := if c = '{' then JSMN_OBJECT else JSMN_ARRAY
        if jsmn_is_expected p ty = 0 then
          StepRes.stop { p with toknext := p.toknext + 1 }
            (some (writeTok toks p.toknext
              { type := ty, start := none, end_ := none, size := 0, parent := none }))
            jsmnerr.INVAL
        else
          match p.toksuper with
          | some s =>
            let toks1 := writeTok toks s
              { getTok toks s with size := (getTok toks s).size + 1 }
            StepRes.next
              { p with pos := p.pos + 1, toknext := p.toknext + 1,
                       toksuper := some p.toknext,
                       expected := JSMN_ANY_TYPE ||| JSMN_CLOSE }
              (some (writeTok toks1 p.toknext
                { type := ty ||| JSMN_VALUE, start := some p.pos, end_ := none,
                  size := 0, parent := some s }))
              (count + 1)
          | none =>
            StepRes.next
              { p with pos := p.pos + 1, toknext := p.toknext + 1,
                       toksuper := some p.toknext,
                       expected := JSMN_ANY_TYPE ||| JSMN_CLOSE }
              (some (writeTok toks p.toknext
                { type := ty ||| JSMN_VALUE, start := some p.pos, end_ := none,
                  size := 0, parent := none }))
              (count + 1)
      else StepRes.stop p (some toks) jsmnerr.NOMEM
  else if c = '}' ∨ c = ']' then
    match otoks with
    | none => StepRes.next { p with pos := p.pos + 1 } none count
    | some toks =>
      if jsmn_is_expected p JSMN_CLOSE = 0 then StepRes.stop p (some toks) jsmnerr.INVAL
      else
        let ty := if c = '}' then JSMN_OBJECT else JSMN_ARRAY
        if p.toknext < 1 then StepRes.stop p (some toks) jsmnerr.INVAL
        else
          match jsmn_close_walk toks ty p.pos p.toksuper p.toknext (p.toknext - 1) with
          | Except.error e => StepRes.stop p (some toks) e
          | Except.ok (toks1, super1) =>
            match super1 with
            | none =>
              let toks2 := writeTok toks1 (p.toknext - 1)
                { getTok toks1 (p.toknext - 1) with
                  type := (getTok toks1 (p.toknext - 1)).type ||| JSMN_VALUE }
              StepRes.next
                { p with pos := p.pos + 1, toksuper := none, expected := JSMN_ANY_TYPE }
                (some toks2) count
            | some s =>
              StepRes.next
                { p with pos := p.pos + 1, toksuper := some s,
                         expected := JSMN_DELIMITER ||| JSMN_CLOSE }
                (some toks1) count
  else if c = '"' then
    match jsmn_parse_string_p p js len otoks cap with
    | (p1, otoks1, Except.error e) => StepRes.stop p1 otoks1 e
    | (p1, otoks1, Except.ok _) =>
      match otoks1, p1.toksuper with
      | some toks, some s =>
        StepRes.next { p1 with pos := p1.pos + 1 }
          (some (writeTok toks s { getTok toks s with size := (getTok toks s).size + 1 }))
          (count + 1)
      | otoks1, _ => StepRes.next { p1 with pos := p1.pos + 1 } otoks1 (count + 1)
  else if c = ' ' ∨ c = '\t' ∨ c = '\n' ∨ c = '\r' then
    StepRes.next { p with pos := p.pos + 1 } otoks count
  else if c = ':' then
    if jsmn_is_expected p JSMN_DELIMITER = 0 then StepRes.stop p otoks jsmnerr.INVAL
    else
      match otoks with
      | some toks =>
        let toks1 := writeTok toks (p.toknext - 1)
          { getTok toks (p.toknext - 1) with
            type := (getTok toks (p.toknext - 1)).type ||| JSMN_KEY }
        StepRes.next
          { p with pos := p.pos + 1, expected := JSMN_ANY_TYPE,
                   toksuper := decIdx p.toknext }
          (some toks1) count
      | none =>
        StepRes.next
          { p with pos := p.pos + 1, expected := JSMN_ANY_TYPE,
                   toksuper := decIdx p.toknext }
          none count
  else if c = ',' then
    match otoks with
    | some toks =>
      if p.toksuper ≠ none then
        if jsmn_is_expected p JSMN_DELIMITER = 0 then
          StepRes.stop p (some toks) jsmnerr.INVAL
        else
          let toks1 := writeTok toks (p.toknext - 1)
            { getTok toks (p.toknext - 1) with
              type := (getTok toks (p.toknext - 1)).type ||| JSMN_VALUE }
          let super1 :=
            if jsmn_is_type (getSuperTok toks1 p.toksuper) JSMN_CONTAINER = 0 then
              (getSuperTok toks1 p.toksuper).parent
            else p.toksuper
          StepRes.next
            { p with pos := p.pos + 1, expected := JSMN_ANY_TYPE, toksuper := super1 }
            (some toks1) count
      else StepRes.next { p with pos := p.pos + 1 } (some toks) count
    | none => StepRes.next { p with pos := p.pos + 1 } none count
  else
    match jsmn_parse_primitive_p p js len otoks cap with
    | (p1, otoks1, Except.error e) => StepRes.stop p1 otoks1 e
    | (p1, otoks1, Except.ok _) =>
      match otoks1, p1.toksuper with
      | some toks, some s =>
        StepRes.next { p1 with pos := p1.pos + 1 }
          (some (writeTok toks s { getTok toks s with size := (getTok toks s).size + 1 }))
          (count + 1)
      | otoks1, _ => StepRes.next { p1 with pos := p1.pos + 1 } otoks1 (count + 1)

/-- The scan loop of jsmn_parse (permissive dialect, parent links). -/
def jsmn_parse_loop_p (js : List Char) (len cap : Nat) :
    Nat → jsmn_parser_t → Option (List jsmntok_t) → Nat →
    jsmn_parser_t × Option (List jsmntok_t) × Except jsmnerr Nat
  | 0, p, otoks, count => jsmn_parse_fin p otoks count
  | fuel + 1, p, otoks, count =>
    if p.pos < len ∧ byteAt js p.pos ≠ Char.ofNat 0 then
      match jsmn_parse_step_p js len cap p otoks count with
      | StepRes.next p1 otoks1 count1 => jsmn_parse_loop_p js len cap fuel p1 otoks1 count1
      | StepRes.stop p1 otoks1 e => (p1, otoks1, Except.error e)
    else jsmn_parse_fin p otoks count

/-- jsmn_parse (permissive dialect, parent links). -/
def jsmn_parse_p (p : jsmn_parser_t) (js : List Char) (len : Nat)
    (otoks : Option (List jsmntok_t)) (cap : Nat) :
    jsmn_parser_t × Option (List jsmntok_t) × Except jsmnerr Nat :=
  jsmn_parse_loop_p js len cap (len + 1) p otoks p.toknext

/-- jsmn_init (permissive dialect): expected is JSMN_ANY_TYPE. -/
def jsmn_init_p : jsmn_parser_t :=
  { pos := 0, toknext := 0, toksuper := none, expected := JSMN_ANY_TYPE }

/-! Parent-chain notions used to state the parent-link claim. -/

/-- Number of parent-link steps from token i to a token with no parent,
computed with explicit fuel; fuel i + 1 suffices whenever parent indices
strictly decrease. -/
def parentDepth (toks : List jsmntok_t) : Nat → Nat → Nat
  | 0, _ => 0
  | f + 1, i =>
    match (getTok toks i).parent with
    | none => 0
    | some j => parentDepth toks f j + 1

/-- Iterate the parent link k times from token i, staying put at a token
with no parent. -/
def chainIter (toks : List jsmntok_t) : Nat → Nat → Nat
  | 0, i => i
  | k + 1, i =>
    match (getTok toks i).parent with
    | none => i
    | some j => chainIter toks k j

/-- Every parent link points to a strictly smaller token index. -/
def ParentsDec (toks : List jsmntok_t) : Prop :=
  ∀ i, i < toks.length → ∀ j, (getTok toks i).parent = some j → j < i

/-- The parser state carried by a step result. -/
def StepRes.parser : StepRes → jsmn_parser_t
  | StepRes.next p _ _ => p
  | StepRes.stop p _ _ => p

/-- Invariant of the driver's pool runs: the pool holds exactly the allocated
slots, parent links point strictly downward, and toksuper indexes an
allocated slot. -/
def PoolInv (toks : List jsmntok_t) (p : jsmn_parser_t) : Prop :=
  toks.length = p.toknext ∧ ParentsDec toks ∧ ∀ s, p.toksuper = some s → s < p.toknext

/-- Number of tokens before index i whose parent field is a: the children of
a among tokens 0..i-1. -/
def childrenBefore (toks : List jsmntok_t) (a i : Nat) : Nat :=
  List.countP (fun c => decide ((getTok toks c).parent = some a)) (List.range i)

/-- The parent chain of token x as a list (parent first, root last), with
explicit fuel; fuel x suffices whenever parent indices strictly decrease. -/
def chainL (toks : List jsmntok_t) : Nat → Nat → List Nat
  | 0, _ => []
  | f + 1, x =>
    match (getTok toks x).parent with
    | none => []
    | some j => j :: chainL toks f j

/-- Pop phase of the caller-stack tree reconstruction: while the top entry
has no children left to complete, pop it and record the completed subtree by
decrementing the next counter (fuel = stack length suffices). -/
def popZeros : Nat → List (Nat × Nat) → List (Nat × Nat)
  | 0, st => st
  | f + 1, st =>
    match st with
    | [] => []
    | (a, r) :: rest =>
      if r = 0 then
        match rest with
        | [] => []
        | (b, rb) :: rest2 => popZeros f ((b, rb - 1) :: rest2)
      else (a, r) :: rest

/-- Process token i of the flat sequence in the caller-stack reconstruction:
push it with its size as its remaining-children count, then pop completed
subtrees. -/
def nestStep (toks : List jsmntok_t) (i : Nat) (st : List (Nat × Nat)) :
    List (Nat × Nat) :=
  popZeros (st.length + 1) ((i, (getTok toks i).size) :: st)

/-- The stack of open ancestors (innermost first, each with its
remaining-children count) just before token i is processed, reconstructed
from token order and size fields alone: the caller-maintained stack of the
spec's tree-builder, entirely independent of the parent fields. -/
def nestStackAt (toks : List jsmntok_t) : Nat → List (Nat × Nat)
  | 0 => []
  | i + 1 => nestStep toks i (nestStackAt toks i)

/-- Structural nesting depth of token i: how many ancestors are open on the
reconstruction stack when i is reached. -/
def nestingDepth (toks : List jsmntok_t) (i : Nat) : Nat :=
  (nestStackAt toks i).length

/-- Structural parent of token i: the innermost open ancestor on the
reconstruction stack when i is reached, if any. -/
def nestingParent (toks : List jsmntok_t) (i : Nat) : Option Nat :=
  match nestStackAt toks i with
  | [] => none
  | (a, _) :: _ => some a

/-- The top-level token of the tree containing token i: the bottom of the
reconstruction stack when i is reached, or i itself when the stack is
empty. -/
def nestingRoot (toks : List jsmntok_t) (i : Nat) : Nat :=
  match (nestStackAt toks i).getLast? with
  | none => i
  | some (a, _) => a

/-- The expected reconstruction stack before token i, phrased through the
parent chain: each open ancestor paired with its remaining-children count
(children not yet begun); the innermost ancestor has its open child i still
uncounted. -/
def chainStack (toks : List jsmntok_t) (i : Nat) : List (Nat × Nat) :=
  match chainL toks (i + 1) i with
  | [] => []
  | a :: rest =>
    (a, (getTok toks a).size - childrenBefore toks a i) ::
      rest.map (fun b => (b, (getTok toks b).size - childrenBefore toks b i + 1))

/-- Full invariant of the driver on the success path: PoolInv, sizes equal to
child counts among the already allocated tokens, preorder discipline (an
ancestor stays on the parent chain of every later token up to its last child),
and the super spine: the current toksuper and all its ancestors lie on the
parent chain of every strictly later allocated token, also anchored at the
most recent token. -/
def TreeInv (toks : List jsmntok_t) (p : jsmn_parser_t) : Prop :=
  PoolInv toks p ∧
  (∀ a, a < p.toknext → (getTok toks a).size = childrenBefore toks a p.toknext) ∧
  (∀ c a, c < p.toknext → (getTok toks c).parent = some a →
    ∀ k, a < k → k < c → a ∈ chainL toks (k + 1) k) ∧
  (∀ a s, p.toksuper = some s → (a = s ∨ a ∈ chainL toks (s + 1) s) →
    ∀ k, a < k → k < p.toknext → a ∈ chainL toks (k + 1) k) ∧
  (∀ a, 0 < p.toknext →
    (a = p.toknext - 1 ∨ a ∈ chainL toks (p.toknext - 1 + 1) (p.toknext - 1)) →
    ∀ k, a < k → k < p.toknext → a ∈ chainL toks (k + 1) k)

/-! ## END OF DEFINITIONS -/

/-! ## Auxiliary lemmas -/

theorem jsmn_parse_primitive_err {p : jsmn_parser_t} {js : List Char} {len cap : Nat}
    {otoks : Option (List jsmntok_t)} {p1 : jsmn_parser_t}
    {o1 : Option (List jsmntok_t)} {e : jsmnerr}
    (hyp : jsmn_parse_primitive p js len otoks cap = (p1, o1, Except.error e)) :
    p1 = p ∧ o1 = otoks := by
  by_cases h1 : otoks.isSome ∧ jsmn_is_expected p JSMN_PRIMITIVE = 0
  · simp only [jsmn_parse_primitive, if_pos h1, Prod.mk.injEq] at hyp
    exact ⟨hyp.1.symm, hyp.2.1.symm⟩
  · simp only [jsmn_parse_primitive, if_neg h1] at hyp
    cases hscan : jsmn_prim_scan js len (len + 1) p.pos with
    | error e2 =>
      rw [hscan] at hyp
      simp only [Prod.mk.injEq] at hyp
      exact ⟨hyp.1.symm, hyp.2.1.symm⟩
    | ok term =>
      rw [hscan] at hyp
      cases otoks with
      | none => simp at hyp
      | some toks =>
        by_cases h2 : p.toknext < cap
        · simp only [if_pos h2] at hyp
          simp at hyp
        · simp only [if_neg h2, Prod.mk.injEq] at hyp
          exact ⟨hyp.1.symm, hyp.2.1.symm⟩

theorem jsmn_parse_string_err {p : jsmn_parser_t} {js : List Char} {len cap : Nat}
    {otoks : Option (List jsmntok_t)} {p1 : jsmn_parser_t}
    {o1 : Option (List jsmntok_t)} {e : jsmnerr}
    (hyp : jsmn_parse_string p js len otoks cap = (p1, o1, Except.error e)) :
    p1 = p ∧ o1 = otoks := by
  by_cases h1 : otoks.isSome ∧ jsmn_is_expected p JSMN_STRING = 0
  · simp only [jsmn_parse_string, if_pos h1, Prod.mk.injEq] at hyp
    exact ⟨hyp.1.symm, hyp.2.1.symm⟩
  · simp only [jsmn_parse_string, if_neg h1] at hyp
    cases hscan : jsmn_str_scan js len (len + 1) (p.pos + 1) with
    | error e2 =>
      rw [hscan] at hyp
      simp only [Prod.mk.injEq] at hyp
      exact ⟨hyp.1.symm, hyp.2.1.symm⟩
    | ok q =>
      rw [hscan] at hyp
      cases otoks with
      | none => simp at hyp
      | some toks =>
        by_cases h2 : p.toknext < cap
        · simp only [if_pos h2] at hyp
          by_cases h3 : jsmn_is_type (getSuperTok toks p.toksuper) JSMN_OBJECT ≠ 0 ∧
              jsmn_is_type (getTok toks (p.toknext - 1)) (JSMN_OBJECT ||| JSMN_VALUE) ≠ 0
          · simp only [if_pos h3] at hyp
            simp at hyp
          · simp only [if_neg h3] at hyp
            simp at hyp
        · simp only [if_neg h2, Prod.mk.injEq] at hyp
          exact ⟨hyp.1.symm, hyp.2.1.symm⟩

theorem jsmn_parse_step_err {js : List Char} {len cap : Nat} {p : jsmn_parser_t}
    {otoks : Option (List jsmntok_t)} {count : Nat} {p1 : jsmn_parser_t}
    {o1 : Option (List jsmntok_t)} {e : jsmnerr} (he : e ≠ jsmnerr.INVAL)
    (hyp : jsmn_parse_step js len cap p otoks count = StepRes.stop p1 o1 e) :
    p1 = p ∧ o1 = otoks := by
  unfold jsmn_parse_step at hyp
  by_cases hbr : byteAt js p.pos = '{' ∨ byteAt js p.pos = '['
  · simp only [if_pos hbr] at hyp
    cases otoks with
    | none => simp at hyp
    | some toks =>
      by_cases hcap : p.toknext < cap
      · simp only [if_pos hcap] at hyp
        by_cases hexp :
            jsmn_is_expected p (if byteAt js p.pos = '{' then JSMN_OBJECT else JSMN_ARRAY) = 0
        · simp only [if_pos hexp, StepRes.stop.injEq] at hyp
          exact absurd hyp.2.2.symm he
        · simp only [if_neg hexp] at hyp
          cases hsup : p.toksuper <;> simp [hsup] at hyp
      · simp only [if_neg hcap, StepRes.stop.injEq] at hyp
        exact ⟨hyp.1.symm, hyp.2.1.symm⟩
  · simp only [if_neg hbr] at hyp
    by_cases hbr2 : byteAt js p.pos = '}' ∨ byteAt js p.pos = ']'
    · simp only [if_pos hbr2] at hyp
      cases otoks with
      | none => simp at hyp
      | some toks =>
        by_cases hce : jsmn_is_expected p JSMN_CLOSE = 0
        · simp only [if_pos hce, StepRes.stop.injEq] at hyp
          exact ⟨hyp.1.symm, hyp.2.1.symm⟩
        · simp only [if_neg hce] at hyp
          by_cases hk1 : p.toknext < 1
          · simp only [if_pos hk1, StepRes.stop.injEq] at hyp
            exact ⟨hyp.1.symm, hyp.2.1.symm⟩
          · simp only [if_neg hk1] at hyp
            cases hw : jsmn_close_walk toks
                (if byteAt js p.pos = '}' then JSMN_OBJECT else JSMN_ARRAY) p.pos
                p.toksuper p.toknext (p.toknext - 1) with
            | error e2 =>
              rw [hw] at hyp
              simp only [StepRes.stop.injEq] at hyp
              exact ⟨hyp.1.symm, hyp.2.1.symm⟩
            | ok pr =>
              rw [hw] at hyp
              cases pr with
              | mk toks1 super1 => simp at hyp
    · simp only [if_neg hbr2] at hyp
      by_cases hq : byteAt js p.pos = '"'
      · simp only [if_pos hq] at hyp
        cases hstr : jsmn_parse_string p js len otoks cap with
        | mk p2 rest =>
          cases rest with
          | mk o2 r2 =>
            rw [hstr] at hyp
            cases r2 with
            | error e2 =>
              simp only [StepRes.stop.injEq] at hyp
              obtain ⟨hp2, ho2, he2⟩ := hyp
              have := jsmn_parse_string_err hstr
              exact ⟨hp2.symm.trans this.1, ho2.symm.trans this.2⟩
            | ok u =>
              cases o2 with
              | none => simp at hyp
              | some toks2 => cases hs2 : p2.toksuper <;> simp [hs2] at hyp
      · simp only [if_neg hq] at hyp
        by_cases hws : byteAt js p.pos = ' ' ∨ byteAt js p.pos = '\t' ∨
            byteAt js p.pos = '\n' ∨ byteAt js p.pos = '\r'
        · simp only [if_pos hws] at hyp
          simp at hyp
        · simp only [if_neg hws] at hyp
          by_cases hco : byteAt js p.pos = ':'
          · simp only [if_pos hco] at hyp
            by_cases hde : jsmn_is_expected p JSMN_DELIMITER = 0
            · simp only [if_pos hde, StepRes.stop.injEq] at hyp
              exact ⟨hyp.1.symm, hyp.2.1.symm⟩
            · simp only [if_neg hde] at hyp
              cases otoks with
              | none => simp at hyp
              | some toks =>
                by_cases hkey : p.toksuper = none ∨
                    jsmn_is_type (getTok toks (p.toknext - 1)) JSMN_KEY = 0
                · simp only [if_pos hkey, StepRes.stop.injEq] at hyp
                  exact ⟨hyp.1.symm, hyp.2.1.symm⟩
                · simp only [if_neg hkey] at hyp
                  simp at hyp
          · simp only [if_neg hco] at hyp
            by_cases hcm : byteAt js p.pos = ','
            · simp only [if_pos hcm] at hyp
              cases otoks with
              | none => simp at hyp
              | some toks =>
                by_cases hsup : p.toksuper ≠ none
                · simp only [if_pos hsup] at hyp
                  by_cases hde : jsmn_is_expected p JSMN_DELIMITER = 0
                  · simp only [if_pos hde, StepRes.stop.injEq] at hyp
                    exact ⟨hyp.1.symm, hyp.2.1.symm⟩
                  · simp only [if_neg hde] at hyp
                    by_cases hkey : jsmn_is_type (getTok toks (p.toknext - 1)) JSMN_KEY ≠ 0
                    · simp only [if_pos hkey, StepRes.stop.injEq] at hyp
                      exact ⟨hyp.1.symm, hyp.2.1.symm⟩
                    · simp only [if_neg hkey] at hyp
                      simp at hyp
                · simp only [if_neg hsup] at hyp
                  simp at hyp
            · simp only [if_neg hcm] at hyp
              by_cases hpr : isPrimStart (byteAt js p.pos) = true
              · simp only [if_pos hpr] at hyp
                cases hpm : jsmn_parse_primitive p js len otoks cap with
                | mk p2 rest =>
                  cases rest with
                  | mk o2 r2 =>
                    rw [hpm] at hyp
                    cases r2 with
                    | error e2 =>
                      simp only [StepRes.stop.injEq] at hyp
                      obtain ⟨hp2, ho2, he2⟩ := hyp
                      have := jsmn_parse_primitive_err hpm
                      exact ⟨hp2.symm.trans this.1, ho2.symm.trans this.2⟩
                    | ok u =>
                      cases o2 with
                      | none => simp at hyp
                      | some toks2 => cases hs2 : p2.toksuper <;> simp [hs2] at hyp
              · simp only [if_neg hpr] at hyp
                simp only [StepRes.stop.injEq] at hyp
                exact ⟨hyp.1.symm, hyp.2.1.symm⟩



theorem jsmn_parse_primitive_cap {p : jsmn_parser_t} {js : List Char} {len cap cap' : Nat}
    {otoks : Option (List jsmntok_t)} (hc : cap ≤ cap')
    (h : (jsmn_parse_primitive p js len otoks cap).2.2 ≠ Except.error jsmnerr.NOMEM) :
    jsmn_parse_primitive p js len otoks cap' = jsmn_parse_primitive p js len otoks cap := by
  by_cases h1 : otoks.isSome ∧ jsmn_is_expected p JSMN_PRIMITIVE = 0
  · simp only [jsmn_parse_primitive, if_pos h1]
  · simp only [jsmn_parse_primitive, if_neg h1] at h ⊢
    generalize hscan : jsmn_prim_scan js len (len + 1) p.pos = r at h ⊢
    cases r with
    | error e2 => rfl
    | ok term =>
      cases otoks with
      | none => rfl
      | some toks =>
        by_cases h2 : p.toknext < cap
        · simp only [if_pos h2, if_pos (lt_of_lt_of_le h2 hc)]
        · exfalso
          apply h
          simp only [if_neg h2]

theorem jsmn_parse_string_cap {p : jsmn_parser_t} {js : List Char} {len cap cap' : Nat}
    {otoks : Option (List jsmntok_t)} (hc : cap ≤ cap')
    (h : (jsmn_parse_string p js len otoks cap).2.2 ≠ Except.error jsmnerr.NOMEM) :
    jsmn_parse_string p js len otoks cap' = jsmn_parse_string p js len otoks cap := by
  by_cases h1 : otoks.isSome ∧ jsmn_is_expected p JSMN_STRING = 0
  · simp only [jsmn_parse_string, if_pos h1]
  · simp only [jsmn_parse_string, if_neg h1] at h ⊢
    generalize hscan : jsmn_str_scan js len (len + 1) (p.pos + 1) = r at h ⊢
    cases r with
    | error e2 => rfl
    | ok q =>
      cases otoks with
      | none => rfl
      | some toks =>
        by_cases h2 : p.toknext < cap
        · simp only [if_pos h2, if_pos (lt_of_lt_of_le h2 hc)]
        · exfalso
          apply h
          simp only [if_neg h2]

theorem jsmn_parse_step_cap_mono {js : List Char} {len cap cap' : Nat} {p : jsmn_parser_t}
    {otoks : Option (List jsmntok_t)} {count : Nat} {r : StepRes} (hc : cap ≤ cap')
    (h : jsmn_parse_step js len cap p otoks count = r)
    (hr : ∀ p1 o1, r ≠ StepRes.stop p1 o1 jsmnerr.NOMEM) :
    jsmn_parse_step js len cap' p otoks count = r := by
  unfold jsmn_parse_step at h ⊢
  by_cases hbr : byteAt js p.pos = '{' ∨ byteAt js p.pos = '['
  · simp only [if_pos hbr] at h ⊢
    cases otoks with
    | none => exact h
    | some toks =>
      by_cases hcap : p.toknext < cap
      · simp only [if_pos hcap] at h
        simp only [if_pos (lt_of_lt_of_le hcap hc)]
        exact h
      · simp only [if_neg hcap] at h
        exact absurd h.symm (hr _ _)
  · simp only [if_neg hbr] at h ⊢
    by_cases hbr2 : byteAt js p.pos = '}' ∨ byteAt js p.pos = ']'
    · simp only [if_pos hbr2] at h ⊢
      exact h
    · simp only [if_neg hbr2] at h ⊢
      by_cases hq : byteAt js p.pos = '"'
      · simp only [if_pos hq] at h ⊢
        generalize hstr : jsmn_parse_string p js len otoks cap = y at h
        obtain ⟨p2, o2, r2⟩ := y
        by_cases hnm2 : r2 = Except.error jsmnerr.NOMEM
        · subst hnm2
          exact absurd h.symm (hr _ _)
        · have hnm : (jsmn_parse_string p js len otoks cap).2.2 ≠
              Except.error jsmnerr.NOMEM := by
            rw [hstr]; exact hnm2
          rw [jsmn_parse_string_cap hc hnm, hstr]
          exact h
      · simp only [if_neg hq] at h ⊢
        by_cases hws : byteAt js p.pos = ' ' ∨ byteAt js p.pos = '\t' ∨
            byteAt js p.pos = '\n' ∨ byteAt js p.pos = '\r'
        · simp only [if_pos hws] at h ⊢
          exact h
        · simp only [if_neg hws] at h ⊢
          by_cases hco : byteAt js p.pos = ':'
          · simp only [if_pos hco] at h ⊢
            exact h
          · simp only [if_neg hco] at h ⊢
            by_cases hcm : byteAt js p.pos = ','
            · simp only [if_pos hcm] at h ⊢
              exact h
            · simp only [if_neg hcm] at h ⊢
              by_cases hpr : isPrimStart (byteAt js p.pos) = true
              · simp only [if_pos hpr] at h ⊢
                generalize hpm : jsmn_parse_primitive p js len otoks cap = y at h
                obtain ⟨p2, o2, r2⟩ := y
                by_cases hnm2 : r2 = Except.error jsmnerr.NOMEM
                · subst hnm2
                  exact absurd h.symm (hr _ _)
                · have hnm : (jsmn_parse_primitive p js len otoks cap).2.2 ≠
                      Except.error jsmnerr.NOMEM := by
                    rw [hpm]; exact hnm2
                  rw [jsmn_parse_primitive_cap hc hnm, hpm]
                  exact h
              · simp only [if_neg hpr] at h ⊢
                exact h

theorem jsmn_parse_loop_cap_mono {js : List Char} {len cap cap' : Nat} (hc : cap ≤ cap') :
    ∀ (f : Nat) (p : jsmn_parser_t) (otoks : Option (List jsmntok_t)) (count : Nat)
      {S : jsmn_parser_t} {T : Option (List jsmntok_t)} {n : Nat},
    jsmn_parse_loop js len cap f p otoks count = (S, T, Except.ok n) →
    jsmn_parse_loop js len cap' f p otoks count = (S, T, Except.ok n) := by
  intro f
  induction f with
  | zero => intro p otoks count S T n h; exact h
  | succ f ih =>
    intro p otoks count S T n h
    rw [jsmn_parse_loop] at h ⊢
    by_cases hcond : p.pos < len ∧ byteAt js p.pos ≠ Char.ofNat 0
    · rw [if_pos hcond] at h ⊢
      generalize hstep : jsmn_parse_step js len cap p otoks count = r at h
      cases r with
      | next p1 o1 c1 =>
        rw [jsmn_parse_step_cap_mono hc hstep (fun _ _ hx => StepRes.noConfusion hx)]
        exact ih p1 o1 c1 h
      | stop p1 o1 e =>
        simp at h
    · rw [if_neg hcond] at h ⊢
      exact h

theorem jsmn_parse_cap_mono {p : jsmn_parser_t} {js : List Char} {len cap cap' : Nat}
    {otoks : Option (List jsmntok_t)} {S : jsmn_parser_t}
    {T : Option (List jsmntok_t)} {n : Nat} (hc : cap ≤ cap')
    (h : jsmn_parse p js len otoks cap = (S, T, Except.ok n)) :
    jsmn_parse p js len otoks cap' = (S, T, Except.ok n) :=
  jsmn_parse_loop_cap_mono hc (len + 1) p otoks p.toknext h

/-! ## Claim theorems (first group) -/

/-- Claim C1: in the strict dialect, jsmn_parse on a fresh parser over
the bytes of the string consisting of a brace, a quoted letter a, a colon, the
digit 1 and a closing brace, with pool capacity at least 3, returns 3, and the
pool holds exactly an OBJECT VALUE token of size 1, a STRING KEY token whose
start-end slice of the buffer is the letter a, and a PRIMITIVE VALUE token
whose slice is the digit 1. -/
theorem c1_strict_object_tokens (cap : Nat) (hcap : 3 ≤ cap) :
    jsmn_parse jsmn_init ['{', '"', 'a', '"', ':', '1', '}'] 7 (some []) cap =
      ({ pos := 7, toknext := 3, toksuper := none, expected := JSMN_CONTAINER },
       some [{ type := JSMN_OBJECT ||| JSMN_VALUE, start := some 0, end_ := some 7,
               size := 1, parent := none },
             { type := JSMN_STRING ||| JSMN_KEY, start := some 2, end_ := some 3,
               size := 1, parent := some 0 },
             { type := JSMN_PRIMITIVE ||| JSMN_VALUE, start := some 5, end_ := some 6,
               size := 0, parent := some 1 }],
       Except.ok 3) ∧
    List.take (3 - 2) (List.drop 2 ['{', '"', 'a', '"', ':', '1', '}']) = ['a'] ∧
    List.take (6 - 5) (List.drop 5 ['{', '"', 'a', '"', ':', '1', '}']) = ['1'] :=
  ⟨jsmn_parse_cap_mono hcap rfl, rfl, rfl⟩

theorem c1_strict_object_tokens_witness :
    jsmn_parse jsmn_init ['{', '"', 'a', '"', ':', '1', '}'] 7 (some []) 3 =
      ({ pos := 7, toknext := 3, toksuper := none, expected := JSMN_CONTAINER },
       some [{ type := JSMN_OBJECT ||| JSMN_VALUE, start := some 0, end_ := some 7,
               size := 1, parent := none },
             { type := JSMN_STRING ||| JSMN_KEY, start := some 2, end_ := some 3,
               size := 1, parent := some 0 },
             { type := JSMN_PRIMITIVE ||| JSMN_VALUE, start := some 5, end_ := some 6,
               size := 0, parent := some 1 }],
       Except.ok 3) ∧
    List.take (3 - 2) (List.drop 2 ['{', '"', 'a', '"', ':', '1', '}']) = ['a'] ∧
    List.take (6 - 5) (List.drop 5 ['{', '"', 'a', '"', ':', '1', '}']) = ['1'] :=
  c1_strict_object_tokens 3 (by decide)

/-- Claim C2 (refuting instance): the claim says a dry run over a well-formed
document returns the same count as a real run.  In fact the dry run over the
well-formed document of claim C1 stops with INVAL at the colon (position 4),
because the colon handler checks the expected mask without a pool guard while
dry runs never update that mask; the real run over the same bytes returns 3. -/
theorem c2_dry_run_diverges_on_colon :
    (jsmn_parse jsmn_init ['{', '"', 'a', '"', ':', '1', '}'] 7 none 0).2.2 =
      Except.error jsmnerr.INVAL ∧
    (jsmn_parse jsmn_init ['{', '"', 'a', '"', ':', '1', '}'] 7 none 0).1.pos = 4 ∧
    (jsmn_parse jsmn_init ['{', '"', 'a', '"', ':', '1', '}'] 7 (some []) 3).2.2 =
      Except.ok 3 :=
  ⟨rfl, rfl, rfl⟩

/-- Claim C3 (refuting instance): the claim says that after a comma inside an
OBJECT the expected mask becomes exactly STRING.  In fact the comma handler
tests the stale toksuper (the preceding KEY, not the object) before the
container fix-up, so the expected mask becomes ANY_TYPE after a comma in an
object as well as in an array, and the malformed document with a bare 2 after
the comma is accepted with 4 tokens. -/
theorem c3_comma_in_object_bug :
    (jsmn_parse jsmn_init ['{', '"', 'a', '"', ':', '1', ',', '2', '}'] 9 (some []) 10).2.2 =
      Except.ok 4 ∧
    (jsmn_parse jsmn_init ['{', '"', 'a', '"', ':', '1', ','] 7 (some []) 10).1.expected =
      JSMN_ANY_TYPE ∧
    (jsmn_parse jsmn_init ['[', '1', ','] 3 (some []) 10).1.expected = JSMN_ANY_TYPE :=
  ⟨rfl, rfl, rfl⟩

/-- Claim C7 (refuting instance): the claim says dry runs enforce the
bracket-matching structural checks.  In fact a dry run over a single
unmatched opening bracket returns success with count 1, where a real run
fails with PART. -/
theorem c7_dry_run_unmatched_open_succeeds :
    jsmn_parse jsmn_init ['['] 1 none 0 =
      ({ pos := 1, toknext := 0, toksuper := none, expected := JSMN_CONTAINER }, none,
       Except.ok 1) :=
  rfl

/-- Claim C7 (amended): in dry-run mode character-level validation still
applies exactly as in a real run, and the bracket-matching structural checks
are skipped entirely.  Universally: the end-of-input open-token check is a
no-op without a pool, so any input whose scan completes returns its count as
success regardless of unmatched opens; every closing bracket is ignored
(cursor advance only, no matching, no expected check) without a pool; a dry
primitive or string dispatch fails with exactly the errors of the underlying
character scanners, and the same scanner INVAL surfaces in a real run
whenever the grammar admits the token; plus the concrete instances of the
amended claim. -/
theorem c7_dry_run_checks :
    (∀ (p : jsmn_parser_t) (count : Nat),
      jsmn_parse_fin p none count = (p, none, Except.ok count)) ∧
    (∀ (js : List Char) (len cap : Nat) (p : jsmn_parser_t) (count : Nat),
      byteAt js p.pos = '}' ∨ byteAt js p.pos = ']' →
      jsmn_parse_step js len cap p none count =
        StepRes.next { p with pos := p.pos + 1 } none count) ∧
    (∀ (p : jsmn_parser_t) (js : List Char) (len cap : Nat) (e : jsmnerr),
      (jsmn_parse_primitive p js len none cap).2.2 = Except.error e ↔
      jsmn_prim_scan js len (len + 1) p.pos = Except.error e) ∧
    (∀ (p : jsmn_parser_t) (js : List Char) (len cap : Nat) (e : jsmnerr),
      (jsmn_parse_string p js len none cap).2.2 = Except.error e ↔
      jsmn_str_scan js len (len + 1) (p.pos + 1) = Except.error e) ∧
    (∀ (p : jsmn_parser_t) (js : List Char) (len cap : Nat) (toks : List jsmntok_t),
      jsmn_prim_scan js len (len + 1) p.pos = Except.error jsmnerr.INVAL →
      ¬jsmn_is_expected p JSMN_PRIMITIVE = 0 →
      (jsmn_parse_primitive p js len (some toks) cap).2.2 = Except.error jsmnerr.INVAL) ∧
    (∀ (p : jsmn_parser_t) (js : List Char) (len cap : Nat) (toks : List jsmntok_t),
      jsmn_str_scan js len (len + 1) (p.pos + 1) = Except.error jsmnerr.INVAL →
      ¬jsmn_is_expected p JSMN_STRING = 0 →
      (jsmn_parse_string p js len (some toks) cap).2.2 = Except.error jsmnerr.INVAL) ∧
    (jsmn_parse jsmn_init ['['] 1 none 0).2.2 = Except.ok 1 ∧
    (jsmn_parse jsmn_init ['['] 1 (some []) 5).2.2 = Except.error jsmnerr.PART ∧
    (jsmn_parse jsmn_init [']'] 1 none 0).2.2 = Except.ok 0 ∧
    (jsmn_parse jsmn_init [']'] 1 (some []) 5).2.2 = Except.error jsmnerr.INVAL ∧
    (jsmn_parse jsmn_init ['[', '1', Char.ofNat 1, ']'] 4 none 0).2.2 =
      Except.error jsmnerr.INVAL ∧
    (jsmn_parse jsmn_init ['[', '"', '\\', 'q', '"', ']'] 6 none 0).2.2 =
      Except.error jsmnerr.INVAL := by
  refine ⟨?_, ?_, ?_, ?_, ?_, ?_, rfl, rfl, rfl, rfl, rfl, rfl⟩
  · intro p count
    rfl
  · intro js len cap p count h
    have h1 : ¬(byteAt js p.pos = '{' ∨ byteAt js p.pos = '[') := by
      rcases h with h | h <;> rw [h] <;> decide
    simp only [jsmn_parse_step]
    rw [if_neg h1, if_pos h]
  · intro p js len cap e
    have hg : ¬((none : Option (List jsmntok_t)).isSome ∧
        jsmn_is_expected p JSMN_PRIMITIVE = 0) := by simp
    constructor
    · intro h
      unfold jsmn_parse_primitive at h
      rw [if_neg hg] at h
      split at h
      · rename_i e2 heq
        have h2 : (Except.error e2 : Except jsmnerr Unit) = Except.error e := h
        injection h2 with h3
        rw [← h3]
        exact heq
      · exact Except.noConfusion h
    · intro h
      unfold jsmn_parse_primitive
      rw [if_neg hg, h]
  · intro p js len cap e
    have hg : ¬((none : Option (List jsmntok_t)).isSome ∧
        jsmn_is_expected p JSMN_STRING = 0) := by simp
    constructor
    · intro h
      unfold jsmn_parse_string at h
      rw [if_neg hg] at h
      split at h
      · rename_i e2 heq
        have h2 : (Except.error e2 : Except jsmnerr Unit) = Except.error e := h
        injection h2 with h3
        rw [← h3]
        exact heq
      · exact Except.noConfusion h
    · intro h
      unfold jsmn_parse_string
      rw [if_neg hg, h]
  · intro p js len cap toks hscan hexp
    have hg : ¬((some toks).isSome ∧ jsmn_is_expected p JSMN_PRIMITIVE = 0) := by
      intro hx
      exact hexp hx.2
    unfold jsmn_parse_primitive
    rw [if_neg hg, hscan]
  · intro p js len cap toks hscan hexp
    have hg : ¬((some toks).isSome ∧ jsmn_is_expected p JSMN_STRING = 0) := by
      intro hx
      exact hexp hx.2
    unfold jsmn_parse_string
    rw [if_neg hg, hscan]

theorem c7_dry_run_checks_witness :
    jsmn_parse_fin jsmn_init none 2 = (jsmn_init, none, Except.ok 2) ∧
    jsmn_parse_step [']'] 1 0 jsmn_init none 0 =
      StepRes.next { jsmn_init with pos := jsmn_init.pos + 1 } none 0 ∧
    ((jsmn_parse_primitive (⟨0, 0, none, JSMN_ANY_TYPE⟩ : jsmn_parser_t) ['1', Char.ofNat 1] 2 none 0).2.2 =
        Except.error jsmnerr.INVAL ↔
      jsmn_prim_scan ['1', Char.ofNat 1] 2 3 0 = Except.error jsmnerr.INVAL) ∧
    ((jsmn_parse_string (⟨0, 0, none, JSMN_ANY_TYPE⟩ : jsmn_parser_t) ['"', '\\', 'q', '"'] 4 none 0).2.2 =
        Except.error jsmnerr.INVAL ↔
      jsmn_str_scan ['"', '\\', 'q', '"'] 4 5 1 = Except.error jsmnerr.INVAL) ∧
    (jsmn_parse_primitive (⟨0, 0, none, JSMN_ANY_TYPE⟩ : jsmn_parser_t) ['1', Char.ofNat 1] 2 (some []) 9).2.2 =
      Except.error jsmnerr.INVAL ∧
    (jsmn_parse_string (⟨0, 0, none, JSMN_ANY_TYPE⟩ : jsmn_parser_t) ['"', '\\', 'q', '"'] 4 (some []) 9).2.2 =
      Except.error jsmnerr.INVAL :=
  ⟨c7_dry_run_checks.1 jsmn_init 2,
   c7_dry_run_checks.2.1 [']'] 1 0 jsmn_init 0 (Or.inr rfl),
   c7_dry_run_checks.2.2.1 (⟨0, 0, none, JSMN_ANY_TYPE⟩ : jsmn_parser_t) ['1', Char.ofNat 1] 2 0 jsmnerr.INVAL,
   c7_dry_run_checks.2.2.2.1 (⟨0, 0, none, JSMN_ANY_TYPE⟩ : jsmn_parser_t) ['"', '\\', 'q', '"'] 4 0 jsmnerr.INVAL,
   c7_dry_run_checks.2.2.2.2.1 (⟨0, 0, none, JSMN_ANY_TYPE⟩ : jsmn_parser_t) ['1', Char.ofNat 1] 2 0 [] rfl (by decide),
   c7_dry_run_checks.2.2.2.2.2.1 (⟨0, 0, none, JSMN_ANY_TYPE⟩ : jsmn_parser_t) ['"', '\\', 'q', '"'] 4 0 [] rfl (by decide)⟩

/-- Claim C10: jsmn_parse on a freshly initialized parser over an empty input
(length 0, or a buffer whose first byte is NUL) returns 0 as success, with
the parser and pool unchanged, even though the strict dialect admits no empty
document. -/
theorem c10_empty_input_returns_zero (js : List Char) (len cap : Nat)
    (otoks : Option (List jsmntok_t))
    (h : len = 0 ∨ byteAt js 0 = Char.ofNat 0) :
    jsmn_parse jsmn_init js len otoks cap = (jsmn_init, otoks, Except.ok 0) := by
  have hcond : ¬(jsmn_init.pos < len ∧ byteAt js jsmn_init.pos ≠ Char.ofNat 0) := by
    cases h with
    | inl h0 =>
      intro hx
      rw [h0] at hx
      exact Nat.not_lt_zero _ hx.1
    | inr hnull =>
      intro hx
      exact hx.2 hnull
  unfold jsmn_parse
  rw [jsmn_parse_loop, if_neg hcond]
  cases otoks with
  | none => rfl
  | some toks => rfl

theorem c10_empty_input_returns_zero_witness :
    jsmn_parse jsmn_init [] 0 (some []) 5 = (jsmn_init, some [], Except.ok 0) ∧
    jsmn_parse jsmn_init [Char.ofNat 0, 'x'] 2 none 0 = (jsmn_init, none, Except.ok 0) :=
  ⟨c10_empty_input_returns_zero [] 0 5 (some []) (Or.inl rfl),
   c10_empty_input_returns_zero [Char.ofNat 0, 'x'] 2 0 none (Or.inr rfl)⟩

theorem isPrimStart_cases {c : Char} (h : isPrimStart c = true) :
    c = '-' ∨ c = '0' ∨ c = '1' ∨ c = '2' ∨ c = '3' ∨ c = '4' ∨ c = '5' ∨
    c = '6' ∨ c = '7' ∨ c = '8' ∨ c = '9' ∨ c = 't' ∨ c = 'f' ∨ c = 'n' := by
  simp only [isPrimStart, Bool.or_eq_true, beq_iff_eq] at h
  tauto

theorem isPrimStart_ne {c : Char} (h : isPrimStart c = true) :
    c ≠ '{' ∧ c ≠ '[' ∧ c ≠ '}' ∧ c ≠ ']' ∧ c ≠ '"' ∧ c ≠ ' ' ∧ c ≠ '\t' ∧
    c ≠ '\n' ∧ c ≠ '\r' ∧ c ≠ ':' ∧ c ≠ ',' := by
  rcases isPrimStart_cases h with rfl | rfl | rfl | rfl | rfl | rfl | rfl | rfl |
    rfl | rfl | rfl | rfl | rfl | rfl <;> decide

theorem isPrimStart_not_term {c : Char} (h : isPrimStart c = true) :
    isPrimTerm c = false := by
  rcases isPrimStart_cases h with rfl | rfl | rfl | rfl | rfl | rfl | rfl | rfl |
    rfl | rfl | rfl | rfl | rfl | rfl <;> decide

/-- Claim C4: whenever jsmn_parse returns NOMEM, the parser state and the
pool are exactly as they were at the start of the token that failed to
allocate, for each failing token kind: a container open with the pool full,
a string whose allocation fails, and a primitive whose allocation fails all
return the entry parser and pool with the NOMEM error. -/
theorem c4_nomem_preserves_state :
    (∀ (p : jsmn_parser_t) (js : List Char) (len cap : Nat) (toks : List jsmntok_t),
      p.pos < len → byteAt js p.pos ≠ Char.ofNat 0 →
      (byteAt js p.pos = '{' ∨ byteAt js p.pos = '[') → cap ≤ p.toknext →
      jsmn_parse p js len (some toks) cap = (p, some toks, Except.error jsmnerr.NOMEM)) ∧
    (∀ (p : jsmn_parser_t) (js : List Char) (len cap : Nat) (toks : List jsmntok_t),
      p.pos < len → byteAt js p.pos ≠ Char.ofNat 0 → byteAt js p.pos = '"' →
      (jsmn_parse_string p js len (some toks) cap).2.2 = Except.error jsmnerr.NOMEM →
      jsmn_parse p js len (some toks) cap = (p, some toks, Except.error jsmnerr.NOMEM)) ∧
    (∀ (p : jsmn_parser_t) (js : List Char) (len cap : Nat) (toks : List jsmntok_t),
      p.pos < len → byteAt js p.pos ≠ Char.ofNat 0 → isPrimStart (byteAt js p.pos) = true →
      (jsmn_parse_primitive p js len (some toks) cap).2.2 = Except.error jsmnerr.NOMEM →
      jsmn_parse p js len (some toks) cap = (p, some toks, Except.error jsmnerr.NOMEM)) := by
  refine ⟨?_, ?_, ?_⟩
  · intro p js len cap toks hpos hbyte hbr hcap
    have hstep : jsmn_parse_step js len cap p (some toks) p.toknext =
        StepRes.stop p (some toks) jsmnerr.NOMEM := by
      unfold jsmn_parse_step
      simp only [if_pos hbr, if_neg (Nat.not_lt.mpr hcap)]
    unfold jsmn_parse
    rw [jsmn_parse_loop, if_pos ⟨hpos, hbyte⟩, hstep]
  · intro p js len cap toks hpos hbyte hq hNM
    generalize hstr : jsmn_parse_string p js len (some toks) cap = y at hNM
    obtain ⟨p2, o2, r2⟩ := y
    have hr2 : r2 = Except.error jsmnerr.NOMEM := hNM
    rw [hr2] at hstr
    obtain ⟨hp2, ho2⟩ := jsmn_parse_string_err hstr
    have hne1 : ¬(byteAt js p.pos = '{' ∨ byteAt js p.pos = '[') := by
      rw [hq]; decide
    have hne2 : ¬(byteAt js p.pos = '}' ∨ byteAt js p.pos = ']') := by
      rw [hq]; decide
    have hstep : jsmn_parse_step js len cap p (some toks) p.toknext =
        StepRes.stop p2 o2 jsmnerr.NOMEM := by
      unfold jsmn_parse_step
      simp only [if_neg hne1, if_neg hne2, if_pos hq, hstr]
    unfold jsmn_parse
    rw [jsmn_parse_loop, if_pos ⟨hpos, hbyte⟩, hstep, hp2, ho2]
  · intro p js len cap toks hpos hbyte hpr hNM
    generalize hpm : jsmn_parse_primitive p js len (some toks) cap = y at hNM
    obtain ⟨p2, o2, r2⟩ := y
    have hr2 : r2 = Except.error jsmnerr.NOMEM := hNM
    rw [hr2] at hpm
    obtain ⟨hp2, ho2⟩ := jsmn_parse_primitive_err hpm
    obtain ⟨n1, n2, n3, n4, n5, n6, n7, n8, n9, n10, n11⟩ := isPrimStart_ne hpr
    have hne1 : ¬(byteAt js p.pos = '{' ∨ byteAt js p.pos = '[') := by
      intro hx; rcases hx with hx | hx
      · exact n1 hx
      · exact n2 hx
    have hne2 : ¬(byteAt js p.pos = '}' ∨ byteAt js p.pos = ']') := by
      intro hx; rcases hx with hx | hx
      · exact n3 hx
      · exact n4 hx
    have hne4 : ¬(byteAt js p.pos = ' ' ∨ byteAt js p.pos = '\t' ∨
        byteAt js p.pos = '\n' ∨ byteAt js p.pos = '\r') := by
      intro hx; rcases hx with hx | hx | hx | hx
      · exact n6 hx
      · exact n7 hx
      · exact n8 hx
      · exact n9 hx
    have hstep : jsmn_parse_step js len cap p (some toks) p.toknext =
        StepRes.stop p2 o2 jsmnerr.NOMEM := by
      unfold jsmn_parse_step
      simp only [if_neg hne1, if_neg hne2, if_neg n5, if_neg hne4, if_neg n10,
        if_neg n11, if_pos hpr, hpm]
    unfold jsmn_parse
    rw [jsmn_parse_loop, if_pos ⟨hpos, hbyte⟩, hstep, hp2, ho2]

theorem c4_nomem_preserves_state_witness :
    jsmn_parse jsmn_init ['['] 1 (some []) 0 =
      (jsmn_init, some [], Except.error jsmnerr.NOMEM) ∧
    jsmn_parse { pos := 1, toknext := 1, toksuper := some 0,
                 expected := JSMN_STRING ||| JSMN_CLOSE }
      ['{', '"', 'a', '"', ':', '1', '}'] 7
      (some [{ type := JSMN_OBJECT ||| JSMN_VALUE, start := some 0, end_ := none,
               size := 0, parent := none }]) 1 =
      ({ pos := 1, toknext := 1, toksuper := some 0,
          expected := JSMN_STRING ||| JSMN_CLOSE },
       some [{ type := JSMN_OBJECT ||| JSMN_VALUE, start := some 0, end_ := none,
               size := 0, parent := none }],
       Except.error jsmnerr.NOMEM) ∧
    jsmn_parse { pos := 1, toknext := 1, toksuper := some 0,
                 expected := JSMN_ANY_TYPE ||| JSMN_CLOSE }
      ['[', '1', ']'] 3
      (some [{ type := JSMN_ARRAY ||| JSMN_VALUE, start := some 0, end_ := none,
               size := 0, parent := none }]) 1 =
      ({ pos := 1, toknext := 1, toksuper := some 0,
          expected := JSMN_ANY_TYPE ||| JSMN_CLOSE },
       some [{ type := JSMN_ARRAY ||| JSMN_VALUE, start := some 0, end_ := none,
               size := 0, parent := none }],
       Except.error jsmnerr.NOMEM) :=
  ⟨c4_nomem_preserves_state.1 jsmn_init ['['] 1 0 [] (by decide) (by decide)
     (by decide) (by decide),
   c4_nomem_preserves_state.2.1 _ ['{', '"', 'a', '"', ':', '1', '}'] 7 1 _
     (by decide) (by decide) (by decide) (by decide),
   c4_nomem_preserves_state.2.2 _ ['[', '1', ']'] 3 1 _
     (by decide) (by decide) (by decide) (by decide)⟩

theorem hasOpenTok_eq_false {toks : List jsmntok_t} :
    ∀ n, hasOpenTok toks n = false →
    ∀ i, i < n → ¬((getTok toks i).start.isSome ∧ (getTok toks i).end_.isNone) := by
  intro n
  induction n with
  | zero => intro _ i hi; exact absurd hi (Nat.not_lt_zero i)
  | succ n ih =>
    intro h i hi
    rw [hasOpenTok, Bool.or_eq_false_iff] at h
    rcases Nat.lt_succ_iff_lt_or_eq.mp hi with hlt | rfl
    · exact ih h.2 i hlt
    · intro hx
      rw [Bool.and_eq_false_iff] at h
      rcases h.1 with h1 | h1
      · simp [hx.1] at h1
      · simp [hx.2] at h1

theorem jsmn_parse_fin_closed {p : jsmn_parser_t} {otoks : Option (List jsmntok_t)}
    {count : Nat} {S : jsmn_parser_t} {T : List jsmntok_t} {n : Nat}
    (h : jsmn_parse_fin p otoks count = (S, some T, Except.ok n)) :
    hasOpenTok T S.toknext = false := by
  cases otoks with
  | none => simp [jsmn_parse_fin] at h
  | some toks =>
    by_cases hop : hasOpenTok toks p.toknext = true
    · simp [jsmn_parse_fin, hop] at h
    · simp only [jsmn_parse_fin, if_neg hop, Prod.mk.injEq] at h
      obtain ⟨hS, hT, -⟩ := h
      subst hS
      rw [← Option.some.inj hT]
      simpa using hop

theorem jsmn_parse_loop_ok_closed {js : List Char} {len cap : Nat} :
    ∀ (f : Nat) (p : jsmn_parser_t) (otoks : Option (List jsmntok_t)) (count : Nat)
      {S : jsmn_parser_t} {T : List jsmntok_t} {n : Nat},
    jsmn_parse_loop js len cap f p otoks count = (S, some T, Except.ok n) →
    hasOpenTok T S.toknext = false := by
  intro f
  induction f with
  | zero => intro p otoks count S T n h; exact jsmn_parse_fin_closed h
  | succ f ih =>
    intro p otoks count S T n h
    rw [jsmn_parse_loop] at h
    by_cases hcond : p.pos < len ∧ byteAt js p.pos ≠ Char.ofNat 0
    · rw [if_pos hcond] at h
      generalize hstep : jsmn_parse_step js len cap p otoks count = r at h
      cases r with
      | next p1 o1 c1 => exact ih p1 o1 c1 h
      | stop p1 o1 e => simp at h
    · rw [if_neg hcond] at h
      exact jsmn_parse_fin_closed h

/-- Claim C6: whenever jsmn_parse with a pool returns success, no allocated
token is still open (started but not ended); and concretely an object missing
its closing brace fails with PART, as does an unterminated string, the latter
with the cursor rewound to the string's opening quote. -/
theorem c6_success_has_no_open_tokens :
    (∀ (p : jsmn_parser_t) (js : List Char) (len cap : Nat) (toks : List jsmntok_t)
       (S : jsmn_parser_t) (T : List jsmntok_t) (n : Nat),
      jsmn_parse p js len (some toks) cap = (S, some T, Except.ok n) →
      ∀ i, i < S.toknext →
        ¬((getTok T i).start.isSome ∧ (getTok T i).end_.isNone)) ∧
    (jsmn_parse jsmn_init ['{', '"', 'a', '"', ':', '1'] 6 (some []) 10).2.2 =
      Except.error jsmnerr.PART ∧
    (jsmn_parse jsmn_init ['{', '"', 'a'] 3 (some []) 10).2.2 =
      Except.error jsmnerr.PART ∧
    (jsmn_parse jsmn_init ['{', '"', 'a'] 3 (some []) 10).1.pos = 1 :=
  ⟨fun _ _ _ _ _ _ _ _ h i hi => hasOpenTok_eq_false _ (jsmn_parse_loop_ok_closed _ _ _ _ h) i hi,
   rfl, rfl, rfl⟩

theorem c6_success_has_no_open_tokens_witness :
    ¬((getTok [{ type := JSMN_ARRAY ||| JSMN_VALUE, start := some 0, end_ := some 2,
                 size := 0, parent := none }] 0).start.isSome ∧
      (getTok [{ type := JSMN_ARRAY ||| JSMN_VALUE, start := some 0, end_ := some 2,
                 size := 0, parent := none }] 0).end_.isNone) :=
  c6_success_has_no_open_tokens.1 jsmn_init ['[', ']'] 2 5 []
    { pos := 2, toknext := 1, toksuper := none, expected := JSMN_CONTAINER }
    [{ type := JSMN_ARRAY ||| JSMN_VALUE, start := some 0, end_ := some 2,
       size := 0, parent := none }] 1 rfl 0 (by decide)

theorem jsmn_prim_scan_le {js : List Char} {len : Nat} :
    ∀ (f pos t : Nat), jsmn_prim_scan js len f pos = Except.ok t → pos ≤ t := by
  intro f
  induction f with
  | zero => intro pos t h; simp [jsmn_prim_scan] at h
  | succ f ih =>
    intro pos t h
    simp only [jsmn_prim_scan] at h
    by_cases hc : pos < len ∧ byteAt js pos ≠ Char.ofNat 0
    · rw [if_pos hc] at h
      by_cases ht : isPrimTerm (byteAt js pos) = true
      · rw [if_pos ht] at h
        exact le_of_eq (Except.ok.inj h)
      · rw [if_neg ht] at h
        by_cases hr : (byteAt js pos).toNat < 32 ∨ 127 ≤ (byteAt js pos).toNat
        · rw [if_pos hr] at h; cases h
        · rw [if_neg hr] at h
          exact Nat.le_of_succ_le (ih (pos + 1) t h)
    · rw [if_neg hc] at h; cases h

theorem jsmn_prim_scan_term {js : List Char} {len : Nat} :
    ∀ (f pos t : Nat), jsmn_prim_scan js len f pos = Except.ok t →
      isPrimTerm (byteAt js t) = true := by
  intro f
  induction f with
  | zero => intro pos t h; simp [jsmn_prim_scan] at h
  | succ f ih =>
    intro pos t h
    simp only [jsmn_prim_scan] at h
    by_cases hc : pos < len ∧ byteAt js pos ≠ Char.ofNat 0
    · rw [if_pos hc] at h
      by_cases ht : isPrimTerm (byteAt js pos) = true
      · rw [if_pos ht] at h
        rw [← Except.ok.inj h]
        exact ht
      · rw [if_neg ht] at h
        by_cases hr : (byteAt js pos).toNat < 32 ∨ 127 ≤ (byteAt js pos).toNat
        · rw [if_pos hr] at h; cases h
        · rw [if_neg hr] at h
          exact ih (pos + 1) t h
    · rw [if_neg hc] at h; cases h

theorem jsmn_hex_scan_le {js : List Char} {len : Nat} :
    ∀ (k pos t : Nat), jsmn_hex_scan js len k pos = Except.ok t → pos ≤ t := by
  intro k
  induction k with
  | zero =>
    intro pos t h
    exact le_of_eq (Except.ok.inj h)
  | succ k ih =>
    intro pos t h
    simp only [jsmn_hex_scan] at h
    by_cases hc : pos < len ∧ byteAt js pos ≠ Char.ofNat 0
    · rw [if_pos hc] at h
      by_cases hh : isHexDigit (byteAt js pos) = true
      · rw [if_pos hh] at h
        exact Nat.le_of_succ_le (ih (pos + 1) t h)
      · rw [if_neg hh] at h; cases h
    · rw [if_neg hc] at h
      exact le_of_eq (Except.ok.inj h)

theorem jsmn_str_scan_le {js : List Char} {len : Nat} :
    ∀ (f pos q : Nat), jsmn_str_scan js len f pos = Except.ok q → pos ≤ q := by
  intro f
  induction f with
  | zero => intro pos q h; simp [jsmn_str_scan] at h
  | succ f ih =>
    intro pos q h
    simp only [jsmn_str_scan] at h
    by_cases hc : pos < len ∧ byteAt js pos ≠ Char.ofNat 0
    · rw [if_pos hc] at h
      by_cases hq : byteAt js pos = '"'
      · rw [if_pos hq] at h
        exact le_of_eq (Except.ok.inj h)
      · rw [if_neg hq] at h
        by_cases hb : byteAt js pos = '\\' ∧ pos + 1 < len
        · rw [if_pos hb] at h
          by_cases he : byteAt js (pos + 1) = '"' ∨ byteAt js (pos + 1) = '\\' ∨
              byteAt js (pos + 1) = '/' ∨ byteAt js (pos + 1) = 'b' ∨
              byteAt js (pos + 1) = 'f' ∨ byteAt js (pos + 1) = 'n' ∨
              byteAt js (pos + 1) = 'r' ∨ byteAt js (pos + 1) = 't'
          · rw [if_pos he] at h
            calc pos ≤ pos + 2 := by omega
            _ ≤ q := ih (pos + 2) q h
          · rw [if_neg he] at h
            by_cases hu : byteAt js (pos + 1) = 'u'
            · rw [if_pos hu] at h
              generalize hhex : jsmn_hex_scan js len 4 (pos + 2) = r at h
              cases r with
              | error e2 => cases h
              | ok pos2 =>
                have h1 : pos + 2 ≤ pos2 := jsmn_hex_scan_le 4 (pos + 2) pos2 hhex
                have h2 : pos2 ≤ q := ih pos2 q h
                omega
            · rw [if_neg hu] at h; cases h
        · rw [if_neg hb] at h
          exact Nat.le_of_succ_le (ih (pos + 1) q h)
    · rw [if_neg hc] at h; cases h

theorem jsmn_str_scan_ge {js : List Char} {len pos : Nat} (hge : ¬pos < len) :
    ∀ f, jsmn_str_scan js len f pos = Except.error jsmnerr.PART := by
  intro f
  cases f with
  | zero => rfl
  | succ f =>
    rw [jsmn_str_scan, if_neg]
    intro hx
    exact hge hx.1

theorem jsmn_hex_scan_len {js : List Char} {len len' : Nat} (hl : len ≤ len') :
    ∀ (k pos t : Nat), jsmn_hex_scan js len k pos = Except.ok t →
      jsmn_hex_scan js len' k pos = Except.ok t ∨ ¬t < len := by
  intro k
  induction k with
  | zero =>
    intro pos t h
    exact Or.inl h
  | succ k ih =>
    intro pos t h
    simp only [jsmn_hex_scan] at h ⊢
    by_cases hc : pos < len ∧ byteAt js pos ≠ Char.ofNat 0
    · rw [if_pos hc] at h
      by_cases hh : isHexDigit (byteAt js pos) = true
      · rw [if_pos hh] at h
        rcases ih (pos + 1) t h with hok | hout
        · left
          rw [if_pos ⟨lt_of_lt_of_le hc.1 hl, hc.2⟩, if_pos hh]
          exact hok
        · right; exact hout
      · rw [if_neg hh] at h; cases h
    · rw [if_neg hc] at h
      by_cases hlt : pos < len
      · have hz : byteAt js pos = Char.ofNat 0 := by
          by_contra hnz
          exact hc ⟨hlt, hnz⟩
        left
        rw [if_neg (by intro hx; exact hx.2 hz)]
        exact h
      · right
        rw [← Except.ok.inj h]
        exact hlt

theorem jsmn_str_scan_len {js : List Char} {len len' : Nat} (hl : len ≤ len') :
    ∀ (f pos q : Nat), jsmn_str_scan js len f pos = Except.ok q →
    ∀ f', f ≤ f' → jsmn_str_scan js len' f' pos = Except.ok q := by
  intro f
  induction f with
  | zero => intro pos q h; simp [jsmn_str_scan] at h
  | succ f ih =>
    intro pos q h f' hf
    obtain ⟨f'', rfl⟩ : ∃ f'', f' = f'' + 1 := by
      cases f' with
      | zero => omega
      | succ f'' => exact ⟨f'', rfl⟩
    have hf'' : f ≤ f'' := by omega
    simp only [jsmn_str_scan] at h ⊢
    by_cases hc : pos < len ∧ byteAt js pos ≠ Char.ofNat 0
    · rw [if_pos hc] at h
      rw [if_pos ⟨lt_of_lt_of_le hc.1 hl, hc.2⟩]
      by_cases hq : byteAt js pos = '"'
      · rw [if_pos hq] at h
        rw [if_pos hq]
        exact h
      · rw [if_neg hq] at h
        rw [if_neg hq]
        by_cases hb : byteAt js pos = '\\' ∧ pos + 1 < len
        · rw [if_pos hb] at h
          rw [if_pos ⟨hb.1, lt_of_lt_of_le hb.2 hl⟩]
          by_cases he : byteAt js (pos + 1) = '"' ∨ byteAt js (pos + 1) = '\\' ∨
              byteAt js (pos + 1) = '/' ∨ byteAt js (pos + 1) = 'b' ∨
              byteAt js (pos + 1) = 'f' ∨ byteAt js (pos + 1) = 'n' ∨
              byteAt js (pos + 1) = 'r' ∨ byteAt js (pos + 1) = 't'
          · rw [if_pos he] at h
            rw [if_pos he]
            exact ih (pos + 2) q h f'' hf''
          · rw [if_neg he] at h
            rw [if_neg he]
            by_cases hu : byteAt js (pos + 1) = 'u'
            · rw [if_pos hu] at h
              rw [if_pos hu]
              generalize hhex : jsmn_hex_scan js len 4 (pos + 2) = r at h
              cases r with
              | error e2 => cases h
              | ok pos2 =>
                rcases jsmn_hex_scan_len hl 4 (pos + 2) pos2 hhex with hok | hout
                · rw [hok]
                  exact ih pos2 q h f'' hf''
                · have h2 : jsmn_str_scan js len f pos2 = Except.ok q := h
                  rw [jsmn_str_scan_ge hout f] at h2
                  cases h2
            · rw [if_neg hu] at h; cases h
        · rw [if_neg hb] at h
          by_cases hb2 : byteAt js pos = '\\' ∧ pos + 1 < len'
          · exfalso
            have hge : ¬pos + 1 < len := by
              intro hx
              exact hb ⟨hb2.1, hx⟩
            rw [jsmn_str_scan_ge hge f] at h
            cases h
          · rw [if_neg hb2]
            exact ih (pos + 1) q h f'' hf''
    · rw [if_neg hc] at h; cases h

theorem jsmn_prim_scan_len {js : List Char} {len len' : Nat} (hl : len ≤ len') :
    ∀ (f pos t : Nat), jsmn_prim_scan js len f pos = Except.ok t →
    ∀ f', f ≤ f' → jsmn_prim_scan js len' f' pos = Except.ok t := by
  intro f
  induction f with
  | zero => intro pos t h; simp [jsmn_prim_scan] at h
  | succ f ih =>
    intro pos t h f' hf
    obtain ⟨f'', rfl⟩ : ∃ f'', f' = f'' + 1 := by
      cases f' with
      | zero => omega
      | succ f'' => exact ⟨f'', rfl⟩
    have hf'' : f ≤ f'' := by omega
    simp only [jsmn_prim_scan] at h ⊢
    by_cases hc : pos < len ∧ byteAt js pos ≠ Char.ofNat 0
    · rw [if_pos hc] at h
      rw [if_pos ⟨lt_of_lt_of_le hc.1 hl, hc.2⟩]
      by_cases ht : isPrimTerm (byteAt js pos) = true
      · rw [if_pos ht] at h
        rw [if_pos ht]
        exact h
      · rw [if_neg ht] at h
        rw [if_neg ht]
        by_cases hr : (byteAt js pos).toNat < 32 ∨ 127 ≤ (byteAt js pos).toNat
        · rw [if_pos hr] at h; cases h
        · rw [if_neg hr] at h
          rw [if_neg hr]
          exact ih (pos + 1) t h f'' hf''
    · rw [if_neg hc] at h; cases h

theorem jsmn_parse_string_ext {p : jsmn_parser_t} {js : List Char} {len len' cap cap' : Nat}
    {otoks : Option (List jsmntok_t)} {p1 : jsmn_parser_t} {o1 : Option (List jsmntok_t)}
    {u : Unit} (hl : len ≤ len') (hc : cap ≤ cap')
    (h : jsmn_parse_string p js len otoks cap = (p1, o1, Except.ok u)) :
    jsmn_parse_string p js len' otoks cap' = (p1, o1, Except.ok u) := by
  by_cases h1 : otoks.isSome ∧ jsmn_is_expected p JSMN_STRING = 0
  · simp only [jsmn_parse_string, if_pos h1, Prod.mk.injEq] at h
    simp at h
  · simp only [jsmn_parse_string, if_neg h1] at h ⊢
    generalize hscan : jsmn_str_scan js len (len + 1) (p.pos + 1) = r at h
    cases r with
    | error e2 => simp at h
    | ok q =>
      rw [jsmn_str_scan_len hl (len + 1) (p.pos + 1) q hscan (len' + 1) (by omega)]
      cases otoks with
      | none => exact h
      | some toks =>
        by_cases h2 : p.toknext < cap
        · simp only [if_pos h2] at h
          simp only [if_pos (lt_of_lt_of_le h2 hc)]
          exact h
        · simp only [if_neg h2] at h
          simp at h

theorem jsmn_parse_primitive_ext {p : jsmn_parser_t} {js : List Char} {len len' cap cap' : Nat}
    {otoks : Option (List jsmntok_t)} {p1 : jsmn_parser_t} {o1 : Option (List jsmntok_t)}
    {u : Unit} (hl : len ≤ len') (hc : cap ≤ cap')
    (h : jsmn_parse_primitive p js len otoks cap = (p1, o1, Except.ok u)) :
    jsmn_parse_primitive p js len' otoks cap' = (p1, o1, Except.ok u) := by
  by_cases h1 : otoks.isSome ∧ jsmn_is_expected p JSMN_PRIMITIVE = 0
  · simp only [jsmn_parse_primitive, if_pos h1, Prod.mk.injEq] at h
    simp at h
  · simp only [jsmn_parse_primitive, if_neg h1] at h ⊢
    generalize hscan : jsmn_prim_scan js len (len + 1) p.pos = r at h
    cases r with
    | error e2 => simp at h
    | ok term =>
      rw [jsmn_prim_scan_len hl (len + 1) p.pos term hscan (len' + 1) (by omega)]
      cases otoks with
      | none => exact h
      | some toks =>
        by_cases h2 : p.toknext < cap
        · simp only [if_pos h2] at h
          simp only [if_pos (lt_of_lt_of_le h2 hc)]
          exact h
        · simp only [if_neg h2] at h
          simp at h

theorem jsmn_parse_string_ok_pos {p : jsmn_parser_t} {js : List Char} {len cap : Nat}
    {otoks : Option (List jsmntok_t)} {p1 : jsmn_parser_t} {o1 : Option (List jsmntok_t)}
    {u : Unit} (h : jsmn_parse_string p js len otoks cap = (p1, o1, Except.ok u)) :
    p.pos < p1.pos := by
  by_cases h1 : otoks.isSome ∧ jsmn_is_expected p JSMN_STRING = 0
  · simp only [jsmn_parse_string, if_pos h1, Prod.mk.injEq] at h
    simp at h
  · simp only [jsmn_parse_string, if_neg h1] at h
    generalize hscan : jsmn_str_scan js len (len + 1) (p.pos + 1) = r at h
    cases r with
    | error e2 => simp at h
    | ok q =>
      have hq : p.pos + 1 ≤ q := jsmn_str_scan_le (len + 1) (p.pos + 1) q hscan
      cases otoks with
      | none =>
        simp only [Prod.mk.injEq] at h
        have hp : p1.pos = q := by rw [← h.1]
        omega
      | some toks =>
        by_cases h2 : p.toknext < cap
        · simp only [if_pos h2] at h
          by_cases h3 : jsmn_is_type (getSuperTok toks p.toksuper) JSMN_OBJECT ≠ 0 ∧
              jsmn_is_type (getTok toks (p.toknext - 1)) (JSMN_OBJECT ||| JSMN_VALUE) ≠ 0
          · simp only [if_pos h3, Prod.mk.injEq] at h
            have hp : p1.pos = q := by rw [← h.1]
            omega
          · simp only [if_neg h3, Prod.mk.injEq] at h
            have hp : p1.pos = q := by rw [← h.1]
            omega
        · simp only [if_neg h2] at h
          simp at h

theorem jsmn_parse_string_ok_pool {p : jsmn_parser_t} {js : List Char} {len cap : Nat}
    {toks : List jsmntok_t} {p1 : jsmn_parser_t} {o1 : Option (List jsmntok_t)}
    {u : Unit} (h : jsmn_parse_string p js len (some toks) cap = (p1, o1, Except.ok u)) :
    p1.toknext = p.toknext + 1 ∧ ∃ t1, o1 = some t1 := by
  by_cases h1 : (some toks).isSome ∧ jsmn_is_expected p JSMN_STRING = 0
  · simp only [jsmn_parse_string, if_pos h1, Prod.mk.injEq] at h
    simp at h
  · simp only [jsmn_parse_string, if_neg h1] at h
    generalize hscan : jsmn_str_scan js len (len + 1) (p.pos + 1) = r at h
    cases r with
    | error e2 => simp at h
    | ok q =>
      by_cases h2 : p.toknext < cap
      · simp only [if_pos h2] at h
        by_cases h3 : jsmn_is_type (getSuperTok toks p.toksuper) JSMN_OBJECT ≠ 0 ∧
            jsmn_is_type (getTok toks (p.toknext - 1)) (JSMN_OBJECT ||| JSMN_VALUE) ≠ 0
        · simp only [if_pos h3, Prod.mk.injEq] at h
          exact ⟨by rw [← h.1], ⟨_, h.2.1.symm⟩⟩
        · simp only [if_neg h3, Prod.mk.injEq] at h
          exact ⟨by rw [← h.1], ⟨_, h.2.1.symm⟩⟩
      · simp only [if_neg h2] at h
        simp at h

theorem jsmn_parse_primitive_ok_pos {p : jsmn_parser_t} {js : List Char} {len cap : Nat}
    {otoks : Option (List jsmntok_t)} {p1 : jsmn_parser_t} {o1 : Option (List jsmntok_t)}
    {u : Unit} (h : jsmn_parse_primitive p js len otoks cap = (p1, o1, Except.ok u))
    (hnt : isPrimTerm (byteAt js p.pos) = false) :
    p.pos ≤ p1.pos ∧ p.pos < p1.pos + 1 := by
  by_cases h1 : otoks.isSome ∧ jsmn_is_expected p JSMN_PRIMITIVE = 0
  · simp only [jsmn_parse_primitive, if_pos h1, Prod.mk.injEq] at h
    simp at h
  · simp only [jsmn_parse_primitive, if_neg h1] at h
    generalize hscan : jsmn_prim_scan js len (len + 1) p.pos = r at h
    cases r with
    | error e2 => simp at h
    | ok term =>
      have hle : p.pos ≤ term := jsmn_prim_scan_le (len + 1) p.pos term hscan
      have hterm : isPrimTerm (byteAt js term) = true :=
        jsmn_prim_scan_term (len + 1) p.pos term hscan
      have hne : term ≠ p.pos := by
        intro hx
        rw [hx] at hterm
        rw [hnt] at hterm
        cases hterm
      have hlt : p.pos + 1 ≤ term := by omega
      cases otoks with
      | none =>
        simp only [Prod.mk.injEq] at h
        have hp : p1.pos = term - 1 := by rw [← h.1]
        constructor <;> omega
      | some toks =>
        by_cases h2 : p.toknext < cap
        · simp only [if_pos h2, Prod.mk.injEq] at h
          have hp : p1.pos = term - 1 := by rw [← h.1]
          constructor <;> omega
        · simp only [if_neg h2] at h
          simp at h

theorem jsmn_parse_primitive_ok_pool {p : jsmn_parser_t} {js : List Char} {len cap : Nat}
    {toks : List jsmntok_t} {p1 : jsmn_parser_t} {o1 : Option (List jsmntok_t)}
    {u : Unit} (h : jsmn_parse_primitive p js len (some toks) cap = (p1, o1, Except.ok u)) :
    p1.toknext = p.toknext + 1 ∧ ∃ t1, o1 = some t1 := by
  by_cases h1 : (some toks).isSome ∧ jsmn_is_expected p JSMN_PRIMITIVE = 0
  · simp only [jsmn_parse_primitive, if_pos h1, Prod.mk.injEq] at h
    simp at h
  · simp only [jsmn_parse_primitive, if_neg h1] at h
    generalize hscan : jsmn_prim_scan js len (len + 1) p.pos = r at h
    cases r with
    | error e2 => simp at h
    | ok term =>
      by_cases h2 : p.toknext < cap
      · simp only [if_pos h2, Prod.mk.injEq] at h
        exact ⟨by rw [← h.1], ⟨_, h.2.1.symm⟩⟩
      · simp only [if_neg h2] at h
        simp at h

theorem jsmn_parse_step_pos {js : List Char} {len cap : Nat} {p : jsmn_parser_t}
    {otoks : Option (List jsmntok_t)} {count : Nat} {p1 : jsmn_parser_t}
    {o1 : Option (List jsmntok_t)} {c1 : Nat}
    (h : jsmn_parse_step js len cap p otoks count = StepRes.next p1 o1 c1) :
    p.pos < p1.pos := by
  unfold jsmn_parse_step at h
  by_cases hbr : byteAt js p.pos = '{' ∨ byteAt js p.pos = '['
  · simp only [if_pos hbr] at h
    cases otoks with
    | none =>
      simp only [StepRes.next.injEq] at h
      have hp : p1.pos = p.pos + 1 := by rw [← h.1]
      omega
    | some toks =>
      by_cases hcap : p.toknext < cap
      · simp only [if_pos hcap] at h
        by_cases hexp : jsmn_is_expected p
            (if byteAt js p.pos = '{' then JSMN_OBJECT else JSMN_ARRAY) = 0
        · simp only [if_pos hexp] at h
          simp at h
        · simp only [if_neg hexp] at h
          generalize hsup : p.toksuper = os at h
          cases os with
          | some s =>
            simp only [StepRes.next.injEq] at h
            have hp : p1.pos = p.pos + 1 := by rw [← h.1]
            omega
          | none =>
            simp only [StepRes.next.injEq] at h
            have hp : p1.pos = p.pos + 1 := by rw [← h.1]
            omega
      · simp only [if_neg hcap] at h
        simp at h
  · simp only [if_neg hbr] at h
    by_cases hbr2 : byteAt js p.pos = '}' ∨ byteAt js p.pos = ']'
    · simp only [if_pos hbr2] at h
      cases otoks with
      | none =>
        simp only [StepRes.next.injEq] at h
        have hp : p1.pos = p.pos + 1 := by rw [← h.1]
        omega
      | some toks =>
        by_cases hce : jsmn_is_expected p JSMN_CLOSE = 0
        · simp only [if_pos hce] at h
          simp at h
        · simp only [if_neg hce] at h
          by_cases hk1 : p.toknext < 1
          · simp only [if_pos hk1] at h
            simp at h
          · simp only [if_neg hk1] at h
            generalize hw : jsmn_close_walk toks
                (if byteAt js p.pos = '}' then JSMN_OBJECT else JSMN_ARRAY) p.pos
                p.toksuper p.toknext (p.toknext - 1) = w at h
            cases w with
            | error e2 => simp at h
            | ok pr =>
              obtain ⟨toks1, super1⟩ := pr
              simp only [StepRes.next.injEq] at h
              have hp : p1.pos = p.pos + 1 := by rw [← h.1]
              omega
    · simp only [if_neg hbr2] at h
      by_cases hq : byteAt js p.pos = '"'
      · simp only [if_pos hq] at h
        split at h
        · simp at h
        · rename_i pe oe ue heq
          have hpos2 : p.pos < pe.pos := jsmn_parse_string_ok_pos heq
          split at h <;>
          · injection h with h1 h2 h3
            have hp : p1.pos = pe.pos + 1 := by rw [← h1]
            omega
      · simp only [if_neg hq] at h
        by_cases hws : byteAt js p.pos = ' ' ∨ byteAt js p.pos = '\t' ∨
            byteAt js p.pos = '\n' ∨ byteAt js p.pos = '\r'
        · simp only [if_pos hws] at h
          simp only [StepRes.next.injEq] at h
          have hp : p1.pos = p.pos + 1 := by rw [← h.1]
          omega
        · simp only [if_neg hws] at h
          by_cases hco : byteAt js p.pos = ':'
          · simp only [if_pos hco] at h
            by_cases hde : jsmn_is_expected p JSMN_DELIMITER = 0
            · simp only [if_pos hde] at h
              simp at h
            · simp only [if_neg hde] at h
              cases otoks with
              | some toks =>
                by_cases hkey : p.toksuper = none ∨
                    jsmn_is_type (getTok toks (p.toknext - 1)) JSMN_KEY = 0
                · simp only [if_pos hkey] at h
                  simp at h
                · simp only [if_neg hkey] at h
                  simp only [StepRes.next.injEq] at h
                  have hp : p1.pos = p.pos + 1 := by rw [← h.1]
                  omega
              | none =>
                simp only [StepRes.next.injEq] at h
                have hp : p1.pos = p.pos + 1 := by rw [← h.1]
                omega
          · simp only [if_neg hco] at h
            by_cases hcm : byteAt js p.pos = ','
            · simp only [if_pos hcm] at h
              cases otoks with
              | some toks =>
                by_cases hsup : p.toksuper ≠ none
                · simp only [if_pos hsup] at h
                  by_cases hde : jsmn_is_expected p JSMN_DELIMITER = 0
                  · simp only [if_pos hde] at h
                    simp at h
                  · simp only [if_neg hde] at h
                    by_cases hkey : jsmn_is_type (getTok toks (p.toknext - 1)) JSMN_KEY ≠ 0
                    · simp only [if_pos hkey] at h
                      simp at h
                    · simp only [if_neg hkey] at h
                      simp only [StepRes.next.injEq] at h
                      have hp : p1.pos = p.pos + 1 := by rw [← h.1]
                      omega
                · simp only [if_neg hsup] at h
                  simp only [StepRes.next.injEq] at h
                  have hp : p1.pos = p.pos + 1 := by rw [← h.1]
                  omega
              | none =>
                simp only [StepRes.next.injEq] at h
                have hp : p1.pos = p.pos + 1 := by rw [← h.1]
                omega
            · simp only [if_neg hcm] at h
              by_cases hpr : isPrimStart (byteAt js p.pos) = true
              · simp only [if_pos hpr] at h
                split at h
                · simp at h
                · rename_i pe oe ue heq
                  have hpos2 := jsmn_parse_primitive_ok_pos heq (isPrimStart_not_term hpr)
                  split at h <;>
                  · injection h with h1 h2 h3
                    have hp : p1.pos = pe.pos + 1 := by rw [← h1]
                    omega
              · simp only [if_neg hpr] at h
                simp at h

theorem jsmn_parse_step_ext {js : List Char} {len len' cap cap' : Nat} {p : jsmn_parser_t}
    {otoks : Option (List jsmntok_t)} {count : Nat} {p1 : jsmn_parser_t}
    {o1 : Option (List jsmntok_t)} {c1 : Nat} (hl : len ≤ len') (hc : cap ≤ cap')
    (h : jsmn_parse_step js len cap p otoks count = StepRes.next p1 o1 c1) :
    jsmn_parse_step js len' cap' p otoks count = StepRes.next p1 o1 c1 := by
  unfold jsmn_parse_step at h ⊢
  by_cases hbr : byteAt js p.pos = '{' ∨ byteAt js p.pos = '['
  · simp only [if_pos hbr] at h ⊢
    cases otoks with
    | none => exact h
    | some toks =>
      by_cases hcap : p.toknext < cap
      · simp only [if_pos hcap] at h
        simp only [if_pos (lt_of_lt_of_le hcap hc)]
        exact h
      · simp only [if_neg hcap] at h
        simp at h
  · simp only [if_neg hbr] at h ⊢
    by_cases hbr2 : byteAt js p.pos = '}' ∨ byteAt js p.pos = ']'
    · simp only [if_pos hbr2] at h ⊢
      exact h
    · simp only [if_neg hbr2] at h ⊢
      by_cases hq : byteAt js p.pos = '"'
      · simp only [if_pos hq] at h ⊢
        split at h
        · simp at h
        · rename_i pe oe ue heq
          rw [jsmn_parse_string_ext hl hc heq]
          exact h
      · simp only [if_neg hq] at h ⊢
        by_cases hws : byteAt js p.pos = ' ' ∨ byteAt js p.pos = '\t' ∨
            byteAt js p.pos = '\n' ∨ byteAt js p.pos = '\r'
        · simp only [if_pos hws] at h ⊢
          exact h
        · simp only [if_neg hws] at h ⊢
          by_cases hco : byteAt js p.pos = ':'
          · simp only [if_pos hco] at h ⊢
            exact h
          · simp only [if_neg hco] at h ⊢
            by_cases hcm : byteAt js p.pos = ','
            · simp only [if_pos hcm] at h ⊢
              exact h
            · simp only [if_neg hcm] at h ⊢
              by_cases hpr : isPrimStart (byteAt js p.pos) = true
              · simp only [if_pos hpr] at h ⊢
                split at h
                · simp at h
                · rename_i pe oe ue heq
                  rw [jsmn_parse_primitive_ext hl hc heq]
                  exact h
              · simp only [if_neg hpr] at h ⊢
                simp at h

theorem jsmn_parse_step_next_count {js : List Char} {len cap : Nat} {p : jsmn_parser_t}
    {toks : List jsmntok_t} {p1 : jsmn_parser_t} {o1 : Option (List jsmntok_t)} {c1 : Nat}
    (h : jsmn_parse_step js len cap p (some toks) p.toknext = StepRes.next p1 o1 c1) :
    (∃ t1, o1 = some t1) ∧ c1 = p1.toknext := by
  unfold jsmn_parse_step at h
  by_cases hbr : byteAt js p.pos = '{' ∨ byteAt js p.pos = '['
  · simp only [if_pos hbr] at h
    by_cases hcap : p.toknext < cap
    · simp only [if_pos hcap] at h
      by_cases hexp : jsmn_is_expected p
          (if byteAt js p.pos = '{' then JSMN_OBJECT else JSMN_ARRAY) = 0
      · simp only [if_pos hexp] at h
        simp at h
      · simp only [if_neg hexp] at h
        split at h <;>
        · injection h with h1 h2 h3
          exact ⟨⟨_, h2.symm⟩, by rw [← h3, ← h1]⟩
    · simp only [if_neg hcap] at h
      simp at h
  · simp only [if_neg hbr] at h
    by_cases hbr2 : byteAt js p.pos = '}' ∨ byteAt js p.pos = ']'
    · simp only [if_pos hbr2] at h
      by_cases hce : jsmn_is_expected p JSMN_CLOSE = 0
      · simp only [if_pos hce] at h
        simp at h
      · simp only [if_neg hce] at h
        by_cases hk1 : p.toknext < 1
        · simp only [if_pos hk1] at h
          simp at h
        · simp only [if_neg hk1] at h
          split at h
          · simp at h
          · injection h with h1 h2 h3
            exact ⟨⟨_, h2.symm⟩, by rw [← h3, ← h1]⟩
    · simp only [if_neg hbr2] at h
      by_cases hq : byteAt js p.pos = '"'
      · simp only [if_pos hq] at h
        split at h
        · simp at h
        · rename_i pe oe ue heq
          have hpool := jsmn_parse_string_ok_pool heq
          split at h
          · injection h with h1 h2 h3
            refine ⟨⟨_, h2.symm⟩, ?_⟩
            rw [← h3, ← h1]
            exact congrArg (fun n => n + 1) rfl |>.trans hpool.1.symm
          · injection h with h1 h2 h3
            obtain ⟨t1, ht1⟩ := hpool.2
            refine ⟨⟨t1, by rw [← h2, ht1]⟩, ?_⟩
            rw [← h3, ← h1]
            exact hpool.1.symm
      · simp only [if_neg hq] at h
        by_cases hws : byteAt js p.pos = ' ' ∨ byteAt js p.pos = '\t' ∨
            byteAt js p.pos = '\n' ∨ byteAt js p.pos = '\r'
        · simp only [if_pos hws] at h
          injection h with h1 h2 h3
          exact ⟨⟨_, h2.symm⟩, by rw [← h3, ← h1]⟩
        · simp only [if_neg hws] at h
          by_cases hco : byteAt js p.pos = ':'
          · simp only [if_pos hco] at h
            by_cases hde : jsmn_is_expected p JSMN_DELIMITER = 0
            · simp only [if_pos hde] at h
              simp at h
            · simp only [if_neg hde] at h
              by_cases hkey : p.toksuper = none ∨
                  jsmn_is_type (getTok toks (p.toknext - 1)) JSMN_KEY = 0
              · simp only [if_pos hkey] at h
                simp at h
              · simp only [if_neg hkey] at h
                injection h with h1 h2 h3
                exact ⟨⟨_, h2.symm⟩, by rw [← h3, ← h1]⟩
          · simp only [if_neg hco] at h
            by_cases hcm : byteAt js p.pos = ','
            · simp only [if_pos hcm] at h
              by_cases hsup : p.toksuper ≠ none
              · simp only [if_pos hsup] at h
                by_cases hde : jsmn_is_expected p JSMN_DELIMITER = 0
                · simp only [if_pos hde] at h
                  simp at h
                · simp only [if_neg hde] at h
                  by_cases hkey : jsmn_is_type (getTok toks (p.toknext - 1)) JSMN_KEY ≠ 0
                  · simp only [if_pos hkey] at h
                    simp at h
                  · simp only [if_neg hkey] at h
                    injection h with h1 h2 h3
                    exact ⟨⟨_, h2.symm⟩, by rw [← h3, ← h1]⟩
              · simp only [if_neg hsup] at h
                injection h with h1 h2 h3
                exact ⟨⟨_, h2.symm⟩, by rw [← h3, ← h1]⟩
            · simp only [if_neg hcm] at h
              by_cases hpr : isPrimStart (byteAt js p.pos) = true
              · simp only [if_pos hpr] at h
                split at h
                · simp at h
                · rename_i pe oe ue heq
                  have hpool := jsmn_parse_primitive_ok_pool heq
                  split at h
                  · injection h with h1 h2 h3
                    refine ⟨⟨_, h2.symm⟩, ?_⟩
                    rw [← h3, ← h1]
                    exact hpool.1.symm
                  · injection h with h1 h2 h3
                    obtain ⟨t1, ht1⟩ := hpool.2
                    refine ⟨⟨t1, by rw [← h2, ht1]⟩, ?_⟩
                    rw [← h3, ← h1]
                    exact hpool.1.symm
              · simp only [if_neg hpr] at h
                simp at h

theorem jsmn_parse_loop_fuel_succ {js : List Char} {len cap : Nat} :
    ∀ (f : Nat) (p : jsmn_parser_t) (otoks : Option (List jsmntok_t)) (count : Nat),
    len ≤ p.pos + f →
    jsmn_parse_loop js len cap (f + 1) p otoks count =
      jsmn_parse_loop js len cap f p otoks count := by
  intro f
  induction f with
  | zero =>
    intro p otoks count hf
    conv_lhs => rw [jsmn_parse_loop]
    rw [if_neg (fun hx => absurd hx.1 (by omega))]
    rfl
  | succ f ih =>
    intro p otoks count hf
    rw [jsmn_parse_loop]
    conv_rhs => rw [jsmn_parse_loop]
    by_cases hcond : p.pos < len ∧ byteAt js p.pos ≠ Char.ofNat 0
    · rw [if_pos hcond, if_pos hcond]
      generalize hstep : jsmn_parse_step js len cap p otoks count = r
      cases r with
      | next p1 o1 c1 =>
        have hpos := jsmn_parse_step_pos hstep
        exact ih p1 o1 c1 (by omega)
      | stop p1 o1 e => rfl
    · rw [if_neg hcond, if_neg hcond]

theorem jsmn_parse_loop_fuel_add {js : List Char} {len cap : Nat} :
    ∀ (k f : Nat) (p : jsmn_parser_t) (otoks : Option (List jsmntok_t)) (count : Nat),
    len ≤ p.pos + f →
    jsmn_parse_loop js len cap (f + k) p otoks count =
      jsmn_parse_loop js len cap f p otoks count := by
  intro k
  induction k with
  | zero => intro f p otoks count _; rfl
  | succ k ih =>
    intro f p otoks count hf
    have hfk : f + (k + 1) = (f + k) + 1 := by omega
    rw [hfk, jsmn_parse_loop_fuel_succ (f + k) p otoks count (by omega)]
    exact ih f p otoks count hf

theorem jsmn_parse_fin_err {p : jsmn_parser_t} {toks : List jsmntok_t} {count : Nat}
    {S : jsmn_parser_t} {T : List jsmntok_t} {e : jsmnerr}
    (h : jsmn_parse_fin p (some toks) count = (S, some T, Except.error e)) :
    S = p ∧ T = toks ∧ e = jsmnerr.PART := by
  by_cases hop : hasOpenTok toks p.toknext = true
  · simp only [jsmn_parse_fin, if_pos hop, Prod.mk.injEq] at h
    exact ⟨h.1.symm, (Option.some.inj h.2.1).symm, (Except.error.inj h.2.2).symm⟩
  · simp only [jsmn_parse_fin, if_neg hop, Prod.mk.injEq] at h
    exact absurd h.2.2 (by simp)

theorem jsmn_parse_loop_resume {js : List Char} {len len' cap cap' : Nat}
    (hl : len ≤ len') (hc : cap ≤ cap') :
    ∀ (f : Nat) (p : jsmn_parser_t) (toks : List jsmntok_t) {S : jsmn_parser_t}
      {T : List jsmntok_t} {e : jsmnerr}, e ≠ jsmnerr.INVAL →
    jsmn_parse_loop js len cap f p (some toks) p.toknext = (S, some T, Except.error e) →
    jsmn_parse_loop js len' cap' (len' + 1) S (some T) S.toknext =
      jsmn_parse_loop js len' cap' (len' + 1) p (some toks) p.toknext := by
  intro f
  induction f with
  | zero =>
    intro p toks S T e he h
    obtain ⟨hS, hT, -⟩ := jsmn_parse_fin_err h
    subst hS
    subst hT
    rfl
  | succ f ih =>
    intro p toks S T e he h
    rw [jsmn_parse_loop] at h
    by_cases hcond : p.pos < len ∧ byteAt js p.pos ≠ Char.ofNat 0
    · rw [if_pos hcond] at h
      generalize hstep : jsmn_parse_step js len cap p (some toks) p.toknext = r at h
      cases r with
      | next p1 o1 c1 =>
        obtain ⟨⟨toks1, rfl⟩, hcnt⟩ := jsmn_parse_step_next_count hstep
        rw [hcnt] at h
        have ihres := ih p1 toks1 he h
        have hcond' : p.pos < len' ∧ byteAt js p.pos ≠ Char.ofNat 0 :=
          ⟨lt_of_lt_of_le hcond.1 hl, hcond.2⟩
        have hbig : jsmn_parse_loop js len' cap' (len' + 1) p (some toks) p.toknext =
            jsmn_parse_loop js len' cap' len' p1 (some toks1) p1.toknext := by
          rw [jsmn_parse_loop, if_pos hcond', jsmn_parse_step_ext hl hc hstep, ← hcnt]
        calc jsmn_parse_loop js len' cap' (len' + 1) S (some T) S.toknext
            = jsmn_parse_loop js len' cap' (len' + 1) p1 (some toks1) p1.toknext := ihres
          _ = jsmn_parse_loop js len' cap' len' p1 (some toks1) p1.toknext :=
              jsmn_parse_loop_fuel_add 1 len' p1 (some toks1) p1.toknext (by omega)
          _ = jsmn_parse_loop js len' cap' (len' + 1) p (some toks) p.toknext := hbig.symm
      | stop p1 o1 e1 =>
        simp only [Prod.mk.injEq] at h
        obtain ⟨hp1S, ho1T, hee⟩ := h
        have hee' : e1 = e := Except.error.inj hee
        obtain ⟨hp1p, ho1⟩ := jsmn_parse_step_err (by rw [hee']; exact he) hstep
        subst hp1S
        rw [← hp1p]
        rw [ho1] at ho1T
        rw [← Option.some.inj ho1T]
    · rw [if_neg hcond] at h
      obtain ⟨hS, hT, -⟩ := jsmn_parse_fin_err h
      subst hS
      subst hT
      rfl

/-- Claim C5: resumption equivalence.  If a parse from a fresh parser over a
prefix (length len, capacity cap) stops with NOMEM or PART, and the full
parse (length len' at least len, capacity cap' at least cap) from a fresh
parser succeeds, then re-invoking jsmn_parse with the retained parser state
and pool on the full input and larger capacity produces exactly the full
parse's final parser, token sequence and count. -/
theorem c5_resume_equivalence {js : List Char} {len len' cap cap' : Nat}
    {S0 S1 : jsmn_parser_t} {T0 : List jsmntok_t} {T1 : Option (List jsmntok_t)}
    {n : Nat} {e : jsmnerr}
    (hl : len ≤ len') (hc : cap ≤ cap')
    (hfull : jsmn_parse jsmn_init js len' (some []) cap' = (S1, T1, Except.ok n))
    (hpart : jsmn_parse jsmn_init js len (some []) cap = (S0, some T0, Except.error e))
    (he : e = jsmnerr.NOMEM ∨ e = jsmnerr.PART) :
    jsmn_parse S0 js len' (some T0) cap' = (S1, T1, Except.ok n) := by
  have he' : e ≠ jsmnerr.INVAL := by
    rcases he with rfl | rfl <;> intro hx <;> cases hx
  have hres := jsmn_parse_loop_resume hl hc (len + 1) jsmn_init [] he' hpart
  exact hres.trans hfull

theorem c5_resume_equivalence_witness :
    jsmn_parse { pos := 5, toknext := 2, toksuper := some 1, expected := JSMN_ANY_TYPE }
      ['{', '"', 'a', '"', ':', '1', '}'] 7
      (some [{ type := JSMN_OBJECT ||| JSMN_VALUE, start := some 0, end_ := none,
               size := 1, parent := none },
             { type := JSMN_STRING ||| JSMN_KEY, start := some 2, end_ := some 3,
               size := 0, parent := some 0 }]) 3 =
      ({ pos := 7, toknext := 3, toksuper := none, expected := JSMN_CONTAINER },
       some [{ type := JSMN_OBJECT ||| JSMN_VALUE, start := some 0, end_ := some 7,
               size := 1, parent := none },
             { type := JSMN_STRING ||| JSMN_KEY, start := some 2, end_ := some 3,
               size := 1, parent := some 0 },
             { type := JSMN_PRIMITIVE ||| JSMN_VALUE, start := some 5, end_ := some 6,
               size := 0, parent := some 1 }],
       Except.ok 3) := by
  have hpart : jsmn_parse jsmn_init ['{', '"', 'a', '"', ':', '1', '}'] 5 (some []) 3 =
      ({ pos := 5, toknext := 2, toksuper := some 1, expected := JSMN_ANY_TYPE },
       some [{ type := JSMN_OBJECT ||| JSMN_VALUE, start := some 0, end_ := none,
               size := 1, parent := none },
             { type := JSMN_STRING ||| JSMN_KEY, start := some 2, end_ := some 3,
               size := 0, parent := some 0 }],
       Except.error jsmnerr.PART) := rfl
  have hfull : jsmn_parse jsmn_init ['{', '"', 'a', '"', ':', '1', '}'] 7 (some []) 3 =
      ({ pos := 7, toknext := 3, toksuper := none, expected := JSMN_CONTAINER },
       some [{ type := JSMN_OBJECT ||| JSMN_VALUE, start := some 0, end_ := some 7,
               size := 1, parent := none },
             { type := JSMN_STRING ||| JSMN_KEY, start := some 2, end_ := some 3,
               size := 1, parent := some 0 },
             { type := JSMN_PRIMITIVE ||| JSMN_VALUE, start := some 5, end_ := some 6,
               size := 0, parent := some 1 }],
       Except.ok 3) := rfl
  exact c5_resume_equivalence (by decide) (by decide) hfull hpart (Or.inr rfl)

theorem jsmn_parse_fin_state {p : jsmn_parser_t} {otoks : Option (List jsmntok_t)}
    {count : Nat} : (jsmn_parse_fin p otoks count).1 = p := by
  cases otoks with
  | none => rfl
  | some toks =>
    by_cases hop : hasOpenTok toks p.toknext = true
    · simp [jsmn_parse_fin, hop]
    · simp [jsmn_parse_fin, hop]

theorem jsmn_fix_super_p_expected {p : jsmn_parser_t} {otoks : Option (List jsmntok_t)} :
    (jsmn_fix_super_p p otoks).expected = p.expected := by
  unfold jsmn_fix_super_p
  split <;> rfl

theorem jsmn_parse_primitive_expected {p : jsmn_parser_t} {js : List Char} {len cap : Nat}
    {otoks : Option (List jsmntok_t)} (h : p.expected ≠ 0) :
    ((jsmn_parse_primitive p js len otoks cap).1).expected ≠ 0 := by
  by_cases h1 : otoks.isSome ∧ jsmn_is_expected p JSMN_PRIMITIVE = 0
  · simp only [jsmn_parse_primitive, if_pos h1]
    exact h
  · simp only [jsmn_parse_primitive, if_neg h1]
    generalize hscan : jsmn_prim_scan js len (len + 1) p.pos = r
    cases r with
    | error e2 => exact h
    | ok term =>
      cases otoks with
      | none => exact h
      | some toks =>
        by_cases h2 : p.toknext < cap
        · simp only [if_pos h2]
          decide
        · simp only [if_neg h2]
          exact h

theorem jsmn_parse_string_expected {p : jsmn_parser_t} {js : List Char} {len cap : Nat}
    {otoks : Option (List jsmntok_t)} (h : p.expected ≠ 0) :
    ((jsmn_parse_string p js len otoks cap).1).expected ≠ 0 := by
  by_cases h1 : otoks.isSome ∧ jsmn_is_expected p JSMN_STRING = 0
  · simp only [jsmn_parse_string, if_pos h1]
    exact h
  · simp only [jsmn_parse_string, if_neg h1]
    generalize hscan : jsmn_str_scan js len (len + 1) (p.pos + 1) = r
    cases r with
    | error e2 => exact h
    | ok q =>
      cases otoks with
      | none => exact h
      | some toks =>
        by_cases h2 : p.toknext < cap
        · simp only [if_pos h2]
          by_cases h3 : jsmn_is_type (getSuperTok toks p.toksuper) JSMN_OBJECT ≠ 0 ∧
              jsmn_is_type (getTok toks (p.toknext - 1)) (JSMN_OBJECT ||| JSMN_VALUE) ≠ 0
          · simp only [if_pos h3]
            decide
          · simp only [if_neg h3]
            decide
        · simp only [if_neg h2]
          exact h

theorem jsmn_parse_primitive_p_expected {p : jsmn_parser_t} {js : List Char} {len cap : Nat}
    {otoks : Option (List jsmntok_t)} (h : p.expected ≠ 0) :
    ((jsmn_parse_primitive_p p js len otoks cap).1).expected ≠ 0 := by
  have hfix : (jsmn_fix_super_p p otoks).expected = p.expected := jsmn_fix_super_p_expected
  by_cases h1 : otoks.isSome ∧ jsmn_is_expected p JSMN_PRIMITIVE = 0
  · simp only [jsmn_parse_primitive_p, if_pos h1]
    exact h
  · simp only [jsmn_parse_primitive_p, if_neg h1]
    generalize hscan : jsmn_prim_scan_p js len (len + 1) (jsmn_fix_super_p p otoks).pos = r
    cases r with
    | error e2 =>
      show (jsmn_fix_super_p p otoks).expected ≠ 0
      rw [hfix]
      exact h
    | ok term =>
      cases otoks with
      | none =>
        show (jsmn_fix_super_p p none).expected ≠ 0
        rw [jsmn_fix_super_p_expected]
        exact h
      | some toks =>
        by_cases h2 : (jsmn_fix_super_p p (some toks)).toknext < cap
        · simp only [if_pos h2]
          by_cases h4 : (jsmn_fix_super_p p (some toks)).toksuper ≠ none ∧
              (getSuperTok toks (jsmn_fix_super_p p (some toks)).toksuper).parent = none
          · simp only [if_pos h4]
            decide
          · simp only [if_neg h4]
            decide
        · simp only [if_neg h2]
          show (jsmn_fix_super_p p (some toks)).expected ≠ 0
          rw [jsmn_fix_super_p_expected]
          exact h

theorem jsmn_parse_string_p_expected {p : jsmn_parser_t} {js : List Char} {len cap : Nat}
    {otoks : Option (List jsmntok_t)} (h : p.expected ≠ 0) :
    ((jsmn_parse_string_p p js len otoks cap).1).expected ≠ 0 := by
  by_cases h1 : otoks.isSome ∧ jsmn_is_expected p JSMN_STRING = 0
  · simp only [jsmn_parse_string_p, if_pos h1]
    exact h
  · simp only [jsmn_parse_string_p, if_neg h1]
    generalize hscan : jsmn_str_scan js len (len + 1) ((jsmn_fix_super_p p otoks).pos + 1) = r
    cases r with
    | error e2 =>
      show (jsmn_fix_super_p p otoks).expected ≠ 0
      rw [jsmn_fix_super_p_expected]
      exact h
    | ok q =>
      cases otoks with
      | none =>
        show (jsmn_fix_super_p p none).expected ≠ 0
        rw [jsmn_fix_super_p_expected]
        exact h
      | some toks =>
        by_cases h2 : (jsmn_fix_super_p p (some toks)).toknext < cap
        · simp only [if_pos h2]
          decide
        · simp only [if_neg h2]
          show (jsmn_fix_super_p p (some toks)).expected ≠ 0
          rw [jsmn_fix_super_p_expected]
          exact h

theorem jsmn_parse_step_expected {js : List Char} {len cap : Nat} {p : jsmn_parser_t}
    {otoks : Option (List jsmntok_t)} {count : Nat} (h : p.expected ≠ 0) :
    ((jsmn_parse_step js len cap p otoks count).parser).expected ≠ 0 := by
  unfold jsmn_parse_step
  by_cases hbr : byteAt js p.pos = '{' ∨ byteAt js p.pos = '['
  · simp only [if_pos hbr]
    cases otoks with
    | none => exact h
    | some toks =>
      by_cases hcap : p.toknext < cap
      · simp only [if_pos hcap]
        by_cases hexp : jsmn_is_expected p
            (if byteAt js p.pos = '{' then JSMN_OBJECT else JSMN_ARRAY) = 0
        · simp only [if_pos hexp]
          exact h
        · simp only [if_neg hexp]
          by_cases hty : (if byteAt js p.pos = '{' then JSMN_OBJECT else JSMN_ARRAY) &&&
              JSMN_OBJECT ≠ 0
          · simp only [if_pos hty]
            generalize hts : p.toksuper = ts
            cases ts <;> · simp only [StepRes.parser]; decide
          · simp only [if_neg hty]
            generalize hts : p.toksuper = ts
            cases ts <;> · simp only [StepRes.parser]; decide
      · simp only [if_neg hcap]
        exact h
  · simp only [if_neg hbr]
    by_cases hbr2 : byteAt js p.pos = '}' ∨ byteAt js p.pos = ']'
    · simp only [if_pos hbr2]
      cases otoks with
      | none => exact h
      | some toks =>
        by_cases hce : jsmn_is_expected p JSMN_CLOSE = 0
        · simp only [if_pos hce]
          exact h
        · simp only [if_neg hce]
          by_cases hk1 : p.toknext < 1
          · simp only [if_pos hk1]
            exact h
          · simp only [if_neg hk1]
            generalize hw : jsmn_close_walk toks
                (if byteAt js p.pos = '}' then JSMN_OBJECT else JSMN_ARRAY) p.pos
                p.toksuper p.toknext (p.toknext - 1) = w
            cases w with
            | error e2 => exact h
            | ok pr =>
              obtain ⟨toks1, super1⟩ := pr
              by_cases hsup : super1 = none
              · simp only [if_pos hsup]
                simp only [StepRes.parser]
                decide
              · simp only [if_neg hsup]
                simp only [StepRes.parser]
                decide
    · simp only [if_neg hbr2]
      by_cases hq : byteAt js p.pos = '"'
      · simp only [if_pos hq]
        have hstrx := @jsmn_parse_string_expected p js len cap otoks h
        generalize hstr : jsmn_parse_string p js len otoks cap = y at hstrx ⊢
        obtain ⟨p2, o2, r2⟩ := y
        cases r2 with
        | error e2 => exact hstrx
        | ok u =>
          obtain ⟨q1, q2, q3, q4⟩ := p2
          cases o2 <;> cases q3 <;> exact hstrx
      · simp only [if_neg hq]
        by_cases hws : byteAt js p.pos = ' ' ∨ byteAt js p.pos = '\t' ∨
            byteAt js p.pos = '\n' ∨ byteAt js p.pos = '\r'
        · simp only [if_pos hws]
          exact h
        · simp only [if_neg hws]
          by_cases hco : byteAt js p.pos = ':'
          · simp only [if_pos hco]
            by_cases hde : jsmn_is_expected p JSMN_DELIMITER = 0
            · simp only [if_pos hde]
              exact h
            · simp only [if_neg hde]
              cases otoks with
              | some toks =>
                by_cases hkey : p.toksuper = none ∨
                    jsmn_is_type (getTok toks (p.toknext - 1)) JSMN_KEY = 0
                · simp only [if_pos hkey]
                  exact h
                · simp only [if_neg hkey]
                  simp only [StepRes.parser]
                  decide
              | none => simp only [StepRes.parser]; decide
          · simp only [if_neg hco]
            by_cases hcm : byteAt js p.pos = ','
            · simp only [if_pos hcm]
              cases otoks with
              | some toks =>
                by_cases hsup : p.toksuper ≠ none
                · simp only [if_pos hsup]
                  by_cases hde : jsmn_is_expected p JSMN_DELIMITER = 0
                  · simp only [if_pos hde]
                    exact h
                  · simp only [if_neg hde]
                    by_cases hkey : jsmn_is_type (getTok toks (p.toknext - 1)) JSMN_KEY ≠ 0
                    · simp only [if_pos hkey]
                      exact h
                    · simp only [if_neg hkey]
                      by_cases hcon : jsmn_is_type (getSuperTok toks p.toksuper)
                          JSMN_OBJECT ≠ 0
                      · simp only [if_pos hcon]
                        simp only [StepRes.parser]
                        decide
                      · simp only [if_neg hcon]
                        simp only [StepRes.parser]
                        decide
                · simp only [if_neg hsup]
                  exact h
              | none => exact h
            · simp only [if_neg hcm]
              by_cases hpr : isPrimStart (byteAt js p.pos) = true
              · simp only [if_pos hpr]
                have hpmx := @jsmn_parse_primitive_expected p js len cap otoks h
                generalize hpm : jsmn_parse_primitive p js len otoks cap = y at hpmx ⊢
                obtain ⟨p2, o2, r2⟩ := y
                cases r2 with
                | error e2 => exact hpmx
                | ok u =>
                  obtain ⟨q1, q2, q3, q4⟩ := p2
                  cases o2 <;> cases q3 <;> exact hpmx
              · simp only [if_neg hpr]
                exact h

theorem jsmn_parse_step_p_expected {js : List Char} {len cap : Nat} {p : jsmn_parser_t}
    {otoks : Option (List jsmntok_t)} {count : Nat} (h : p.expected ≠ 0) :
    ((jsmn_parse_step_p js len cap p otoks count).parser).expected ≠ 0 := by
  unfold jsmn_parse_step_p
  by_cases hbr : byteAt js p.pos = '{' ∨ byteAt js p.pos = '['
  · simp only [if_pos hbr]
    cases otoks with
    | none => exact h
    | some toks =>
      by_cases hcap : p.toknext < cap
      · simp only [if_pos hcap]
        by_cases hexp : jsmn_is_expected p
            (if byteAt js p.pos = '{' then JSMN_OBJECT else JSMN_ARRAY) = 0
        · simp only [if_pos hexp]
          exact h
        · simp only [if_neg hexp]
          generalize hts : p.toksuper = ts
          cases ts <;> · simp only [StepRes.parser]; decide
      · simp only [if_neg hcap]
        exact h
  · simp only [if_neg hbr]
    by_cases hbr2 : byteAt js p.pos = '}' ∨ byteAt js p.pos = ']'
    · simp only [if_pos hbr2]
      cases otoks with
      | none => exact h
      | some toks =>
        by_cases hce : jsmn_is_expected p JSMN_CLOSE = 0
        · simp only [if_pos hce]
          exact h
        · simp only [if_neg hce]
          by_cases hk1 : p.toknext < 1
          · simp only [if_pos hk1]
            exact h
          · simp only [if_neg hk1]
            generalize hw : jsmn_close_walk toks
                (if byteAt js p.pos = '}' then JSMN_OBJECT else JSMN_ARRAY) p.pos
                p.toksuper p.toknext (p.toknext - 1) = w
            cases w with
            | error e2 => exact h
            | ok pr =>
              obtain ⟨toks1, super1⟩ := pr
              cases super1 with
              | none => simp only [StepRes.parser]; decide
              | some s => simp only [StepRes.parser]; decide
    · simp only [if_neg hbr2]
      by_cases hq : byteAt js p.pos = '"'
      · simp only [if_pos hq]
        have hstrx := @jsmn_parse_string_p_expected p js len cap otoks h
        generalize hstr : jsmn_parse_string_p p js len otoks cap = y at hstrx ⊢
        obtain ⟨p2, o2, r2⟩ := y
        cases r2 with
        | error e2 => exact hstrx
        | ok u =>
          obtain ⟨q1, q2, q3, q4⟩ := p2
          cases o2 <;> cases q3 <;> exact hstrx
      · simp only [if_neg hq]
        by_cases hws : byteAt js p.pos = ' ' ∨ byteAt js p.pos = '\t' ∨
            byteAt js p.pos = '\n' ∨ byteAt js p.pos = '\r'
        · simp only [if_pos hws]
          exact h
        · simp only [if_neg hws]
          by_cases hco : byteAt js p.pos = ':'
          · simp only [if_pos hco]
            by_cases hde : jsmn_is_expected p JSMN_DELIMITER = 0
            · simp only [if_pos hde]
              exact h
            · simp only [if_neg hde]
              cases otoks with
              | some toks => simp only [StepRes.parser]; decide
              | none => simp only [StepRes.parser]; decide
          · simp only [if_neg hco]
            by_cases hcm : byteAt js p.pos = ','
            · simp only [if_pos hcm]
              cases otoks with
              | some toks =>
                by_cases hsup : p.toksuper ≠ none
                · simp only [if_pos hsup]
                  by_cases hde : jsmn_is_expected p JSMN_DELIMITER = 0
                  · simp only [if_pos hde]
                    exact h
                  · simp only [if_neg hde]
                    simp only [StepRes.parser]
                    decide
                · simp only [if_neg hsup]
                  exact h
              | none => exact h
            · simp only [if_neg hcm]
              have hpmx := @jsmn_parse_primitive_p_expected p js len cap otoks h
              generalize hpm : jsmn_parse_primitive_p p js len otoks cap = y at hpmx ⊢
              obtain ⟨p2, o2, r2⟩ := y
              cases r2 with
              | error e2 => exact hpmx
              | ok u =>
                obtain ⟨q1, q2, q3, q4⟩ := p2
                cases o2 <;> cases q3 <;> exact hpmx

theorem jsmn_parse_loop_expected {js : List Char} {len cap : Nat} :
    ∀ (f : Nat) (p : jsmn_parser_t) (otoks : Option (List jsmntok_t)) (count : Nat),
    p.expected ≠ 0 →
    ((jsmn_parse_loop js len cap f p otoks count).1).expected ≠ 0 := by
  intro f
  induction f with
  | zero =>
    intro p otoks count h
    show ((jsmn_parse_fin p otoks count).1).expected ≠ 0
    rw [jsmn_parse_fin_state]
    exact h
  | succ f ih =>
    intro p otoks count h
    rw [jsmn_parse_loop]
    by_cases hcond : p.pos < len ∧ byteAt js p.pos ≠ Char.ofNat 0
    · rw [if_pos hcond]
      have hstep := @jsmn_parse_step_expected js len cap p otoks count h
      generalize hs : jsmn_parse_step js len cap p otoks count = r at hstep
      cases r with
      | next p1 o1 c1 => exact ih p1 o1 c1 hstep
      | stop p1 o1 e => exact hstep
    · rw [if_neg hcond]
      rw [jsmn_parse_fin_state]
      exact h

theorem jsmn_parse_loop_p_expected {js : List Char} {len cap : Nat} :
    ∀ (f : Nat) (p : jsmn_parser_t) (otoks : Option (List jsmntok_t)) (count : Nat),
    p.expected ≠ 0 →
    ((jsmn_parse_loop_p js len cap f p otoks count).1).expected ≠ 0 := by
  intro f
  induction f with
  | zero =>
    intro p otoks count h
    show ((jsmn_parse_fin p otoks count).1).expected ≠ 0
    rw [jsmn_parse_fin_state]
    exact h
  | succ f ih =>
    intro p otoks count h
    rw [jsmn_parse_loop_p]
    by_cases hcond : p.pos < len ∧ byteAt js p.pos ≠ Char.ofNat 0
    · rw [if_pos hcond]
      have hstep := @jsmn_parse_step_p_expected js len cap p otoks count h
      generalize hs : jsmn_parse_step_p js len cap p otoks count = r at hstep
      cases r with
      | next p1 o1 c1 => exact ih p1 o1 c1 hstep
      | stop p1 o1 e => exact hstep
    · rw [if_neg hcond]
      rw [jsmn_parse_fin_state]
      exact h

/-- Claim C8: the expected mask is never empty: jsmn_init (strict) and
jsmn_init_p (permissive) start with a nonzero expected mask, each single
dispatch step of jsmn_parse preserves nonzero-ness of the mask (with or
without a pool), and hence the parser state returned by a full jsmn_parse
or jsmn_parse_p run from any state with a nonzero mask again has a
nonzero expected mask. -/
theorem c8_expected_never_empty :
    jsmn_init.expected ≠ 0 ∧ jsmn_init_p.expected ≠ 0 ∧
    (∀ (js : List Char) (len cap : Nat) (p : jsmn_parser_t)
       (otoks : Option (List jsmntok_t)) (count : Nat), p.expected ≠ 0 →
      ((jsmn_parse_step js len cap p otoks count).parser).expected ≠ 0) ∧
    (∀ (js : List Char) (len cap : Nat) (p : jsmn_parser_t)
       (otoks : Option (List jsmntok_t)) (count : Nat), p.expected ≠ 0 →
      ((jsmn_parse_step_p js len cap p otoks count).parser).expected ≠ 0) ∧
    (∀ (p : jsmn_parser_t) (js : List Char) (len : Nat)
       (otoks : Option (List jsmntok_t)) (cap : Nat), p.expected ≠ 0 →
      ((jsmn_parse p js len otoks cap).1).expected ≠ 0) ∧
    (∀ (p : jsmn_parser_t) (js : List Char) (len : Nat)
       (otoks : Option (List jsmntok_t)) (cap : Nat), p.expected ≠ 0 →
      ((jsmn_parse_p p js len otoks cap).1).expected ≠ 0) :=
  ⟨by decide, by decide,
   fun _ _ _ _ _ _ h => jsmn_parse_step_expected h,
   fun _ _ _ _ _ _ h => jsmn_parse_step_p_expected h,
   fun p _ len _ _ h => jsmn_parse_loop_expected (len + 1) p _ p.toknext h,
   fun p _ len _ _ h => jsmn_parse_loop_p_expected (len + 1) p _ p.toknext h⟩

theorem c8_expected_never_empty_witness :
    jsmn_init.expected ≠ 0 ∧
    ((jsmn_parse jsmn_init ['{', '"', 'a', '"', ':', '1', '}'] 7
        (some []) 3).1).expected ≠ 0 ∧
    jsmn_init_p.expected ≠ 0 ∧
    ((jsmn_parse_p jsmn_init_p ['a', ':', '1'] 3 (some []) 5).1).expected ≠ 0 :=
  ⟨c8_expected_never_empty.1,
   c8_expected_never_empty.2.2.2.2.1 jsmn_init ['{', '"', 'a', '"', ':', '1', '}'] 7
     (some []) 3 (by decide),
   c8_expected_never_empty.2.1,
   c8_expected_never_empty.2.2.2.2.2 jsmn_init_p ['a', ':', '1'] 3
     (some []) 5 (by decide)⟩

theorem list_getD_ge {α : Type} (d : α) :
    ∀ (l : List α) (j : Nat), l.length ≤ j → l.getD j d = d := by
  intro l
  induction l with
  | nil => intro j _; cases j <;> rfl
  | cons a l ih =>
    intro j h
    cases j with
    | zero => exact absurd h (by simp)
    | succ j => exact ih j (by simpa using h)

theorem list_getD_set_self {α : Type} (d t : α) :
    ∀ (l : List α) (i : Nat), i < l.length → (l.set i t).getD i d = t := by
  intro l
  induction l with
  | nil => intro i h; exact absurd h (by simp)
  | cons a l ih =>
    intro i h
    cases i with
    | zero => rfl
    | succ i => exact ih i (by simpa using h)

theorem list_getD_set_ne {α : Type} (d t : α) :
    ∀ (l : List α) (i j : Nat), i ≠ j → (l.set i t).getD j d = l.getD j d := by
  intro l
  induction l with
  | nil => intro i j _; rfl
  | cons a l ih =>
    intro i j hne
    cases i with
    | zero =>
      cases j with
      | zero => exact absurd rfl hne
      | succ j => rfl
    | succ i =>
      cases j with
      | zero => rfl
      | succ j => exact ih i j (fun he => hne (by rw [he]))

theorem list_getD_append {α : Type} (d t : α) :
    ∀ (l : List α) (j : Nat), (l ++ [t]).getD j d = if j = l.length then t else l.getD j d := by
  intro l
  induction l with
  | nil =>
    intro j
    cases j with
    | zero => rfl
    | succ j => rfl
  | cons a l ih =>
    intro j
    cases j with
    | zero => rfl
    | succ j =>
      have he : ((a :: l) ++ [t]).getD (j + 1) d = (l ++ [t]).getD j d := rfl
      rw [he, ih j]
      by_cases hj : j = l.length
      · rw [if_pos hj, if_pos (by simpa using hj)]
      · rw [if_neg hj, if_neg (by simpa using hj)]
        rfl

theorem getTok_ge (toks : List jsmntok_t) (i : Nat) (h : toks.length ≤ i) :
    getTok toks i = default :=
  list_getD_ge default toks i h

theorem writeTok_length (toks : List jsmntok_t) (i : Nat) (t : jsmntok_t) :
    (writeTok toks i t).length = if i < toks.length then toks.length else toks.length + 1 := by
  unfold writeTok
  by_cases h : i < toks.length
  · rw [if_pos h, if_pos h, List.length_set]
  · rw [if_neg h, if_neg h, List.length_append]
    rfl

theorem getTok_writeTok (toks : List jsmntok_t) (i j : Nat) (t : jsmntok_t)
    (h : i ≤ toks.length) :
    getTok (writeTok toks i t) j = if j = i then t else getTok toks j := by
  unfold writeTok getTok
  by_cases hi : i < toks.length
  · rw [if_pos hi]
    by_cases hj : j = i
    · rw [if_pos hj, hj]
      exact list_getD_set_self default t toks i hi
    · rw [if_neg hj]
      exact list_getD_set_ne default t toks i j (fun he => hj he.symm)
  · have hie : i = toks.length := Nat.le_antisymm h (Nat.le_of_not_lt hi)
    rw [if_neg hi, list_getD_append default t toks j]
    by_cases hj : j = i
    · rw [if_pos (hj.trans hie), if_pos hj]
    · rw [if_neg (fun he => hj (he.trans hie.symm)), if_neg hj]

theorem parentsDec_all {toks : List jsmntok_t} (h : ParentsDec toks) :
    ∀ i j, (getTok toks i).parent = some j → j < i := by
  intro i j hij
  by_cases hi : i < toks.length
  · exact h i hi j hij
  · rw [getTok_ge toks i (Nat.le_of_not_lt hi)] at hij
    exact Option.noConfusion hij

theorem parentDepth_fuel {toks : List jsmntok_t}
    (hd : ∀ i j, (getTok toks i).parent = some j → j < i) :
    ∀ i f g, i < f → i < g → parentDepth toks f i = parentDepth toks g i := by
  intro i
  induction i using Nat.strong_induction_on with
  | _ i ih =>
    intro f g hf hg
    match f, g with
    | f + 1, g + 1 =>
      simp only [parentDepth]
      cases hp : (getTok toks i).parent with
      | none => rfl
      | some j =>
        have hj : j < i := hd i j hp
        show parentDepth toks f j + 1 = parentDepth toks g j + 1
        rw [ih j hj f g (by omega) (by omega)]

theorem chain_reaches {toks : List jsmntok_t}
    (hd : ∀ i j, (getTok toks i).parent = some j → j < i) :
    ∀ i, (getTok toks (chainIter toks (parentDepth toks (i + 1) i) i)).parent = none ∧
      ∀ k, k < parentDepth toks (i + 1) i →
        (getTok toks (chainIter toks k i)).parent ≠ none := by
  intro i
  induction i using Nat.strong_induction_on with
  | _ i ih =>
    simp only [parentDepth]
    cases hp : (getTok toks i).parent with
    | none =>
      refine ⟨hp, ?_⟩
      intro k hk
      have hk0 : k < 0 := hk
      exact absurd hk0 (by omega)
    | some j =>
      have hj : j < i := hd i j hp
      have hdep : parentDepth toks i j = parentDepth toks (j + 1) j :=
        parentDepth_fuel hd j i (j + 1) (by omega) (by omega)
      show (getTok toks (chainIter toks (parentDepth toks i j + 1) i)).parent = none ∧
        ∀ k, k < parentDepth toks i j + 1 → (getTok toks (chainIter toks k i)).parent ≠ none
      rw [hdep]
      constructor
      · have hc : chainIter toks (parentDepth toks (j + 1) j + 1) i =
            chainIter toks (parentDepth toks (j + 1) j) j := by
          simp only [chainIter, hp]
        rw [hc]
        exact (ih j hj).1
      · intro k hk
        cases k with
        | zero =>
          show (getTok toks i).parent ≠ none
          rw [hp]
          simp
        | succ k =>
          have hc : chainIter toks (k + 1) i = chainIter toks k j := by
            simp only [chainIter, hp]
          show (getTok toks (chainIter toks (k + 1) i)).parent ≠ none
          rw [hc]
          exact (ih j hj).2 k (by omega)

theorem PoolInv_retarget {toks : List jsmntok_t} {p p1 : jsmn_parser_t}
    (hI : PoolInv toks p) (hn : p1.toknext = p.toknext) (hs : p1.toksuper = p.toksuper) :
    PoolInv toks p1 := by
  obtain ⟨h1, h2, h3⟩ := hI
  refine ⟨by rw [hn]; exact h1, h2, ?_⟩
  intro s hs1
  rw [hs] at hs1
  rw [hn]
  exact h3 s hs1

theorem PoolInv_bump {toks : List jsmntok_t} {p : jsmn_parser_t} {s : Nat} {t : jsmntok_t}
    (hI : PoolInv toks p) (hs : s < toks.length)
    (hpar : t.parent = (getTok toks s).parent) :
    PoolInv (writeTok toks s t) p := by
  obtain ⟨h1, h2, h3⟩ := hI
  refine ⟨?_, ?_, h3⟩
  · rw [writeTok_length, if_pos hs]
    exact h1
  · intro i hi j hij
    rw [writeTok_length, if_pos hs] at hi
    rw [getTok_writeTok toks s i t (Nat.le_of_lt hs)] at hij
    by_cases hieq : i = s
    · rw [if_pos hieq] at hij
      rw [hpar] at hij
      subst hieq
      exact h2 i hs j hij
    · rw [if_neg hieq] at hij
      exact h2 i hi j hij

theorem PoolInv_append {toks : List jsmntok_t} {p1 : jsmn_parser_t} {tok : jsmntok_t} {n : Nat}
    (hP : ParentsDec toks) (hn : n = toks.length)
    (hpar : ∀ j, tok.parent = some j → j < n)
    (h1 : p1.toknext = n + 1)
    (hs : ∀ s, p1.toksuper = some s → s < p1.toknext) :
    PoolInv (writeTok toks n tok) p1 := by
  subst hn
  refine ⟨?_, ?_, hs⟩
  · rw [writeTok_length, if_neg (lt_irrefl _), h1]
  · intro i hi j hij
    rw [writeTok_length, if_neg (lt_irrefl _)] at hi
    rw [getTok_writeTok toks toks.length i tok (le_refl _)] at hij
    by_cases hieq : i = toks.length
    · rw [if_pos hieq] at hij
      have hjn := hpar j hij
      omega
    · rw [if_neg hieq] at hij
      exact hP i (by omega) j hij

theorem decIdx_lt {n s : Nat} (h : decIdx n = some s) : s < n := by
  unfold decIdx at h
  split at h
  · exact Option.noConfusion h
  · injection h with h2
    rename_i hn
    omega

theorem jsmn_close_walk_inv {toks : List jsmntok_t} {ty pos : Nat} {tsuper : Option Nat}
    (hP : ParentsDec toks) :
    ∀ (fuel i : Nat), i < toks.length →
    ∀ {toks1 : List jsmntok_t} {super1 : Option Nat},
    jsmn_close_walk toks ty pos tsuper fuel i = Except.ok (toks1, super1) →
    toks1.length = toks.length ∧
    (∀ j, (getTok toks1 j).parent = (getTok toks j).parent) ∧
    (∀ s, super1 = some s → s < toks.length ∨ tsuper = some s) := by
  intro fuel
  induction fuel with
  | zero =>
    intro i hi toks1 super1 h
    exact Except.noConfusion h
  | succ fuel ih =>
    intro i hi toks1 super1 h
    simp only [jsmn_close_walk] at h
    split at h
    · split at h
      · exact Except.noConfusion h
      · injection h with h2
        have h3 := Prod.mk.inj h2
        obtain ⟨h4, h5⟩ := h3
        subst h4
        subst h5
        refine ⟨?_, ?_, ?_⟩
        · rw [writeTok_length, if_pos hi]
        · intro j
          rw [getTok_writeTok toks i j _ (Nat.le_of_lt hi)]
          by_cases hji : j = i
          · rw [if_pos hji, hji]
          · rw [if_neg hji]
        · intro s hsp
          exact Or.inl (Nat.lt_trans (hP i hi s hsp) hi)
    · split at h
      · split at h
        · exact Except.noConfusion h
        · injection h with h2
          have h3 := Prod.mk.inj h2
          obtain ⟨h4, h5⟩ := h3
          subst h4
          subst h5
          exact ⟨rfl, fun j => rfl, fun s hs => Or.inr hs⟩
      · rename_i hpar
        have hlt : _ < i := hP i hi _ hpar
        exact ih _ (Nat.lt_trans hlt hi) h

theorem jsmn_parse_string_inv {p : jsmn_parser_t} {js : List Char} {len cap : Nat}
    {toks : List jsmntok_t} {p1 : jsmn_parser_t} {o1 : Option (List jsmntok_t)} {u : Unit}
    (hI : PoolInv toks p)
    (h : jsmn_parse_string p js len (some toks) cap = (p1, o1, Except.ok u)) :
    ∃ toks1, o1 = some toks1 ∧ PoolInv toks1 p1 := by
  simp only [jsmn_parse_string] at h
  split at h
  · rw [Prod.mk.injEq, Prod.mk.injEq] at h
    exact Except.noConfusion h.2.2
  · split at h
    · rw [Prod.mk.injEq, Prod.mk.injEq] at h
      exact Except.noConfusion h.2.2
    · split at h
      · split at h
        · rw [Prod.mk.injEq, Prod.mk.injEq] at h
          obtain ⟨e1, e2, e3⟩ := h
          subst e1
          subst e2
          refine ⟨_, rfl, ?_⟩
          apply PoolInv_append hI.2.1 hI.1.symm
          · intro j hj
            exact hI.2.2 j hj
          · rfl
          · intro s hs
            have hs2 : p.toksuper = some s := hs
            have hlt := hI.2.2 s hs2
            show s < p.toknext + 1
            omega
        · rw [Prod.mk.injEq, Prod.mk.injEq] at h
          obtain ⟨e1, e2, e3⟩ := h
          subst e1
          subst e2
          refine ⟨_, rfl, ?_⟩
          apply PoolInv_append hI.2.1 hI.1.symm
          · intro j hj
            exact hI.2.2 j hj
          · rfl
          · intro s hs
            have hs2 : p.toksuper = some s := hs
            have hlt := hI.2.2 s hs2
            show s < p.toknext + 1
            omega
      · rw [Prod.mk.injEq, Prod.mk.injEq] at h
        exact Except.noConfusion h.2.2

theorem jsmn_parse_primitive_inv {p : jsmn_parser_t} {js : List Char} {len cap : Nat}
    {toks : List jsmntok_t} {p1 : jsmn_parser_t} {o1 : Option (List jsmntok_t)} {u : Unit}
    (hI : PoolInv toks p)
    (h : jsmn_parse_primitive p js len (some toks) cap = (p1, o1, Except.ok u)) :
    ∃ toks1, o1 = some toks1 ∧ PoolInv toks1 p1 := by
  simp only [jsmn_parse_primitive] at h
  split at h
  · rw [Prod.mk.injEq, Prod.mk.injEq] at h
    exact Except.noConfusion h.2.2
  · split at h
    · rw [Prod.mk.injEq, Prod.mk.injEq] at h
      exact Except.noConfusion h.2.2
    · split at h
      · rw [Prod.mk.injEq, Prod.mk.injEq] at h
        obtain ⟨e1, e2, e3⟩ := h
        subst e1
        subst e2
        refine ⟨_, rfl, ?_⟩
        apply PoolInv_append hI.2.1 hI.1.symm
        · intro j hj
          exact hI.2.2 j hj
        · rfl
        · intro s hs
          have hs2 : p.toksuper = some s := hs
          have hlt := hI.2.2 s hs2
          show s < p.toknext + 1
          omega
      · rw [Prod.mk.injEq, Prod.mk.injEq] at h
        exact Except.noConfusion h.2.2

theorem jsmn_parse_step_inv {js : List Char} {len cap : Nat} {p : jsmn_parser_t}
    {toks : List jsmntok_t} {count : Nat} {p1 : jsmn_parser_t}
    {o1 : Option (List jsmntok_t)} {c1 : Nat}
    (hI : PoolInv toks p)
    (h : jsmn_parse_step js len cap p (some toks) count = StepRes.next p1 o1 c1) :
    ∃ toks1, o1 = some toks1 ∧ PoolInv toks1 p1 := by
  simp only [jsmn_parse_step] at h
  by_cases hbr : byteAt js p.pos = '{' ∨ byteAt js p.pos = '['
  · rw [if_pos hbr] at h
    by_cases hcap : p.toknext < cap
    · rw [if_pos hcap] at h
      by_cases hexp : jsmn_is_expected p
          (if byteAt js p.pos = '{' then JSMN_OBJECT else JSMN_ARRAY) = 0
      · rw [if_pos hexp] at h
        exact StepRes.noConfusion h
      · rw [if_neg hexp] at h
        split at h
        · rename_i s heq
          injection h with e1 e2 e3
          subst e1
          subst e2
          have hs : s < p.toknext := hI.2.2 s heq
          have hslen : s < toks.length := by rw [hI.1]; exact hs
          have hb : PoolInv (writeTok toks s
              { type := (getTok toks s).type, start := (getTok toks s).start,
                end_ := (getTok toks s).end_, size := (getTok toks s).size + 1,
                parent := (getTok toks s).parent }) p :=
            PoolInv_bump hI hslen rfl
          refine ⟨_, rfl, ?_⟩
          apply PoolInv_append hb.2.1
          · rw [writeTok_length, if_pos hslen]
            exact hI.1.symm
          · intro j hj
            have hj2 : some s = some j := hj
            injection hj2 with hj3
            rw [← hj3]
            exact hs
          · rfl
          · intro s2 hs2
            have hs3 : some p.toknext = some s2 := hs2
            injection hs3 with hs4
            show s2 < p.toknext + 1
            omega
        · rename_i heq
          injection h with e1 e2 e3
          subst e1
          subst e2
          refine ⟨_, rfl, ?_⟩
          apply PoolInv_append hI.2.1 hI.1.symm
          · intro j hj
            exact Option.noConfusion hj
          · rfl
          · intro s2 hs2
            have hs3 : some p.toknext = some s2 := hs2
            injection hs3 with hs4
            show s2 < p.toknext + 1
            omega
    · rw [if_neg hcap] at h
      exact StepRes.noConfusion h
  · rw [if_neg hbr] at h
    by_cases hbr2 : byteAt js p.pos = '}' ∨ byteAt js p.pos = ']'
    · rw [if_pos hbr2] at h
      by_cases hce : jsmn_is_expected p JSMN_CLOSE = 0
      · rw [if_pos hce] at h
        exact StepRes.noConfusion h
      · rw [if_neg hce] at h
        by_cases hk1 : p.toknext < 1
        · rw [if_pos hk1] at h
          exact StepRes.noConfusion h
        · rw [if_neg hk1] at h
          split at h
          · exact StepRes.noConfusion h
          · rename_i toks1 super1 heq
            injection h with e1 e2 e3
            subst e1
            subst e2
            refine ⟨toks1, rfl, ?_⟩
            have hidx : p.toknext - 1 < toks.length := by rw [hI.1]; omega
            obtain ⟨hl, hpar, hsup⟩ :=
              jsmn_close_walk_inv hI.2.1 p.toknext (p.toknext - 1) hidx heq
            refine ⟨?_, ?_, ?_⟩
            · show toks1.length = p.toknext
              rw [hl]
              exact hI.1
            · intro i hi j hij
              rw [hl] at hi
              rw [hpar i] at hij
              exact hI.2.1 i hi j hij
            · intro s hs
              have hs2 : super1 = some s := hs
              show s < p.toknext
              rcases hsup s hs2 with hlt | hts
              · rw [hI.1] at hlt
                exact hlt
              · exact hI.2.2 s hts
    · rw [if_neg hbr2] at h
      by_cases hq : byteAt js p.pos = '"'
      · rw [if_pos hq] at h
        generalize hst : jsmn_parse_string p js len (some toks) cap = y at h
        obtain ⟨p2, o2, r2⟩ := y
        cases r2 with
        | error e => exact StepRes.noConfusion h
        | ok u =>
          obtain ⟨toks2, rfl, hI2⟩ := jsmn_parse_string_inv hI hst
          obtain ⟨q1, q2, q3, q4⟩ := p2
          cases q3 with
          | none =>
            injection h with e1 e2 e3
            subst e1
            subst e2
            exact ⟨toks2, rfl, PoolInv_retarget hI2 rfl rfl⟩
          | some s =>
            injection h with e1 e2 e3
            subst e1
            subst e2
            refine ⟨_, rfl, ?_⟩
            have hs : s < toks2.length := by
              rw [hI2.1]
              exact hI2.2.2 s rfl
            exact PoolInv_retarget (PoolInv_bump hI2 hs rfl) rfl rfl
      · rw [if_neg hq] at h
        by_cases hws : byteAt js p.pos = ' ' ∨ byteAt js p.pos = '\t' ∨
            byteAt js p.pos = '\n' ∨ byteAt js p.pos = Char.ofNat 13
        · rw [if_pos hws] at h
          injection h with e1 e2 e3
          subst e1
          subst e2
          exact ⟨toks, rfl, PoolInv_retarget hI rfl rfl⟩
        · rw [if_neg hws] at h
          by_cases hco : byteAt js p.pos = ':'
          · rw [if_pos hco] at h
            by_cases hde : jsmn_is_expected p JSMN_DELIMITER = 0
            · rw [if_pos hde] at h
              exact StepRes.noConfusion h
            · rw [if_neg hde] at h
              by_cases hkey : p.toksuper = none ∨
                  jsmn_is_type (getTok toks (p.toknext - 1)) JSMN_KEY = 0
              · rw [if_pos hkey] at h
                exact StepRes.noConfusion h
              · rw [if_neg hkey] at h
                injection h with e1 e2 e3
                subst e1
                subst e2
                refine ⟨toks, rfl, hI.1, hI.2.1, ?_⟩
                intro s hs
                have hs2 : decIdx p.toknext = some s := hs
                show s < p.toknext
                exact decIdx_lt hs2
          · rw [if_neg hco] at h
            by_cases hcm : byteAt js p.pos = ','
            · rw [if_pos hcm] at h
              by_cases hsupn : p.toksuper ≠ none
              · rw [if_pos hsupn] at h
                by_cases hde : jsmn_is_expected p JSMN_DELIMITER = 0
                · rw [if_pos hde] at h
                  exact StepRes.noConfusion h
                · rw [if_neg hde] at h
                  by_cases hkey : jsmn_is_type (getTok toks (p.toknext - 1)) JSMN_KEY ≠ 0
                  · rw [if_pos hkey] at h
                    exact StepRes.noConfusion h
                  · rw [if_neg hkey] at h
                    injection h with e1 e2 e3
                    subst e1
                    subst e2
                    refine ⟨toks, rfl, hI.1, hI.2.1, ?_⟩
                    intro s hs
                    show s < p.toknext
                    have hs2 : (if jsmn_is_type (getSuperTok toks p.toksuper)
                        JSMN_CONTAINER = 0 then (getSuperTok toks p.toksuper).parent
                        else p.toksuper) = some s := hs
                    by_cases hcon : jsmn_is_type (getSuperTok toks p.toksuper)
                        JSMN_CONTAINER = 0
                    · rw [if_pos hcon] at hs2
                      cases hps : p.toksuper with
                      | none => exact absurd hps hsupn
                      | some sp =>
                        rw [hps] at hs2
                        have hs4 : (getTok toks sp).parent = some s := hs2
                        have hlt1 : s < sp := parentsDec_all hI.2.1 sp s hs4
                        have hlt2 : sp < p.toknext := hI.2.2 sp hps
                        omega
                    · rw [if_neg hcon] at hs2
                      exact hI.2.2 s hs2
              · rw [if_neg hsupn] at h
                injection h with e1 e2 e3
                subst e1
                subst e2
                exact ⟨toks, rfl, PoolInv_retarget hI rfl rfl⟩
            · rw [if_neg hcm] at h
              by_cases hpr : isPrimStart (byteAt js p.pos) = true
              · rw [if_pos hpr] at h
                generalize hpm : jsmn_parse_primitive p js len (some toks) cap = y at h
                obtain ⟨p2, o2, r2⟩ := y
                cases r2 with
                | error e => exact StepRes.noConfusion h
                | ok u =>
                  obtain ⟨toks2, rfl, hI2⟩ := jsmn_parse_primitive_inv hI hpm
                  obtain ⟨q1, q2, q3, q4⟩ := p2
                  cases q3 with
                  | none =>
                    injection h with e1 e2 e3
                    subst e1
                    subst e2
                    exact ⟨toks2, rfl, PoolInv_retarget hI2 rfl rfl⟩
                  | some s =>
                    injection h with e1 e2 e3
                    subst e1
                    subst e2
                    refine ⟨_, rfl, ?_⟩
                    have hs : s < toks2.length := by
                      rw [hI2.1]
                      exact hI2.2.2 s rfl
                    exact PoolInv_retarget (PoolInv_bump hI2 hs rfl) rfl rfl
              · rw [if_neg hpr] at h
                exact StepRes.noConfusion h

theorem jsmn_parse_loop_inv {js : List Char} {len cap : Nat} :
    ∀ (fuel : Nat) (p : jsmn_parser_t) (toks : List jsmntok_t) (count : Nat)
      {P : jsmn_parser_t} {oT : Option (List jsmntok_t)} {n : Nat},
    PoolInv toks p →
    jsmn_parse_loop js len cap fuel p (some toks) count = (P, oT, Except.ok n) →
    ∃ T, oT = some T ∧ PoolInv T P := by
  intro fuel
  induction fuel with
  | zero =>
    intro p toks count P oT n hI h
    simp only [jsmn_parse_loop, jsmn_parse_fin] at h
    split at h
    · rw [Prod.mk.injEq, Prod.mk.injEq] at h
      exact Except.noConfusion h.2.2
    · rw [Prod.mk.injEq, Prod.mk.injEq] at h
      obtain ⟨e1, e2, e3⟩ := h
      subst e1
      subst e2
      exact ⟨toks, rfl, hI⟩
  | succ fuel ih =>
    intro p toks count P oT n hI h
    rw [jsmn_parse_loop] at h
    split at h
    · split at h
      · rename_i p1 o1 c1 heq
        obtain ⟨toks1, rfl, hI1⟩ := jsmn_parse_step_inv hI heq
        exact ih p1 toks1 c1 hI1 h
      · rw [Prod.mk.injEq, Prod.mk.injEq] at h
        exact Except.noConfusion h.2.2
    · simp only [jsmn_parse_fin] at h
      split at h
      · rw [Prod.mk.injEq, Prod.mk.injEq] at h
        exact Except.noConfusion h.2.2
      · rw [Prod.mk.injEq, Prod.mk.injEq] at h
        obtain ⟨e1, e2, e3⟩ := h
        subst e1
        subst e2
        exact ⟨toks, rfl, hI⟩

theorem chainL_fuel {toks : List jsmntok_t}
    (hd : ∀ i j, (getTok toks i).parent = some j → j < i) :
    ∀ x f g, x < f → x < g → chainL toks f x = chainL toks g x := by
  intro x
  induction x using Nat.strong_induction_on with
  | _ x ih =>
    intro f g hf hg
    match f, g with
    | f + 1, g + 1 =>
      simp only [chainL]
      cases hp : (getTok toks x).parent with
      | none => rfl
      | some j =>
        have hj : j < x := hd x j hp
        show j :: chainL toks f j = j :: chainL toks g j
        rw [ih j hj f g (by omega) (by omega)]

theorem chainL_unfold_some {toks : List jsmntok_t} {x j : Nat}
    (hd : ∀ i j, (getTok toks i).parent = some j → j < i)
    (hp : (getTok toks x).parent = some j) :
    chainL toks (x + 1) x = j :: chainL toks (j + 1) j := by
  have hj : j < x := hd x j hp
  conv_lhs => rw [chainL]
  rw [hp]
  show j :: chainL toks x j = j :: chainL toks (j + 1) j
  rw [chainL_fuel hd j x (j + 1) hj (by omega)]

theorem chainL_unfold_none {toks : List jsmntok_t} {x : Nat}
    (hp : (getTok toks x).parent = none) :
    chainL toks (x + 1) x = [] := by
  simp only [chainL, hp]

theorem chainL_mem_lt {toks : List jsmntok_t}
    (hd : ∀ i j, (getTok toks i).parent = some j → j < i) :
    ∀ x a, a ∈ chainL toks (x + 1) x → a < x := by
  intro x
  induction x using Nat.strong_induction_on with
  | _ x ih =>
    intro a ha
    cases hp : (getTok toks x).parent with
    | none =>
      rw [chainL_unfold_none hp] at ha
      exact absurd ha (List.not_mem_nil a)
    | some j =>
      have hj : j < x := hd x j hp
      rw [chainL_unfold_some hd hp] at ha
      rcases List.mem_cons.mp ha with rfl | ha
      · exact hj
      · exact Nat.lt_trans (ih j hj a ha) hj

theorem chainL_split {toks : List jsmntok_t}
    (hd : ∀ i j, (getTok toks i).parent = some j → j < i) :
    ∀ x a, a ∈ chainL toks (x + 1) x →
    ∃ front, chainL toks (x + 1) x = front ++ a :: chainL toks (a + 1) a := by
  intro x
  induction x using Nat.strong_induction_on with
  | _ x ih =>
    intro a ha
    cases hp : (getTok toks x).parent with
    | none =>
      rw [chainL_unfold_none hp] at ha
      exact absurd ha (List.not_mem_nil a)
    | some j =>
      have hj : j < x := hd x j hp
      rw [chainL_unfold_some hd hp] at ha ⊢
      rcases List.mem_cons.mp ha with rfl | ha
      · exact ⟨[], rfl⟩
      · obtain ⟨front, hf⟩ := ih j hj a ha
        exact ⟨j :: front, by rw [hf]; rfl⟩

theorem chainL_mem_trans {toks : List jsmntok_t}
    (hd : ∀ i j, (getTok toks i).parent = some j → j < i)
    {x b a : Nat} (hb : b ∈ chainL toks (x + 1) x) (ha : a ∈ chainL toks (b + 1) b) :
    a ∈ chainL toks (x + 1) x := by
  obtain ⟨front, hf⟩ := chainL_split hd x b hb
  rw [hf]
  exact List.mem_append.mpr (Or.inr (List.mem_cons.mpr (Or.inr ha)))

theorem chainL_congr {toks1 toks2 : List jsmntok_t}
    (hp : ∀ j, (getTok toks1 j).parent = (getTok toks2 j).parent) :
    ∀ f x, chainL toks1 f x = chainL toks2 f x := by
  intro f
  induction f with
  | zero => intro x; rfl
  | succ f ih =>
    intro x
    simp only [chainL]
    rw [hp x]
    cases (getTok toks2 x).parent with
    | none => rfl
    | some j =>
      show j :: chainL toks1 f j = j :: chainL toks2 f j
      rw [ih j]

theorem parentDepth_eq_chainL {toks : List jsmntok_t}
    (hd : ∀ i j, (getTok toks i).parent = some j → j < i) :
    ∀ x, parentDepth toks (x + 1) x = (chainL toks (x + 1) x).length := by
  intro x
  induction x using Nat.strong_induction_on with
  | _ x ih =>
    simp only [parentDepth]
    cases hp : (getTok toks x).parent with
    | none =>
      rw [chainL_unfold_none hp]
      rfl
    | some j =>
      have hj : j < x := hd x j hp
      rw [chainL_unfold_some hd hp]
      show parentDepth toks x j + 1 = (chainL toks (j + 1) j).length + 1
      rw [parentDepth_fuel hd j x (j + 1) (by omega) (by omega), ih j hj]

theorem chainIter_last {toks : List jsmntok_t}
    (hd : ∀ i j, (getTok toks i).parent = some j → j < i) :
    ∀ x, chainIter toks (chainL toks (x + 1) x).length x =
      (chainL toks (x + 1) x).getLastD x := by
  intro x
  induction x using Nat.strong_induction_on with
  | _ x ih =>
    cases hp : (getTok toks x).parent with
    | none =>
      rw [chainL_unfold_none hp]
      rfl
    | some j =>
      have hj : j < x := hd x j hp
      rw [chainL_unfold_some hd hp]
      show chainIter toks ((chainL toks (j + 1) j).length + 1) x =
        ((j :: chainL toks (j + 1) j).getLastD x)
      have h1 : chainIter toks ((chainL toks (j + 1) j).length + 1) x =
          chainIter toks (chainL toks (j + 1) j).length j := by
        simp only [chainIter, hp]
      rw [h1, ih j hj, List.getLastD_cons]

theorem chainL_last_parent_none {toks : List jsmntok_t}
    (hd : ∀ i j, (getTok toks i).parent = some j → j < i) :
    ∀ x, (getTok toks ((chainL toks (x + 1) x).getLastD x)).parent = none := by
  intro x
  induction x using Nat.strong_induction_on with
  | _ x ih =>
    cases hp : (getTok toks x).parent with
    | none =>
      rw [chainL_unfold_none hp]
      exact hp
    | some j =>
      have hj : j < x := hd x j hp
      rw [chainL_unfold_some hd hp, List.getLastD_cons]
      exact ih j hj

theorem popZeros_noop {a r : Nat} {rest : List (Nat × Nat)} (hr : r ≠ 0) :
    ∀ f, popZeros f ((a, r) :: rest) = (a, r) :: rest
  | 0 => rfl
  | f + 1 => by
    simp only [popZeros]
    rw [if_neg hr]

theorem popZeros_step {a b rb : Nat} {rest2 : List (Nat × Nat)} (f : Nat) :
    popZeros (f + 1) ((a, 0) :: (b, rb) :: rest2) = popZeros f ((b, rb - 1) :: rest2) := rfl

theorem popZeros_last {a : Nat} (f : Nat) : popZeros (f + 1) [(a, 0)] = [] := rfl

theorem popZeros_run {b rb : Nat} {rest : List (Nat × Nat)} (hrb : rb ≠ 0) :
    ∀ (zs : List Nat) (a0 f : Nat), zs.length + 1 ≤ f →
    popZeros f ((a0, 0) :: zs.map (fun z => (z, 1)) ++ (b, rb + 1) :: rest) =
      (b, rb) :: rest := by
  intro zs
  induction zs with
  | nil =>
    intro a0 f hf
    match f, hf with
    | f + 1, _ =>
      show popZeros (f + 1) ((a0, 0) :: (b, rb + 1) :: rest) = (b, rb) :: rest
      rw [popZeros_step]
      exact popZeros_noop hrb f
  | cons z zs ih =>
    intro a0 f hf
    match f, hf with
    | f + 1, hf =>
      show popZeros (f + 1) ((a0, 0) :: (z, 1) ::
        (zs.map (fun z => (z, 1)) ++ (b, rb + 1) :: rest)) = (b, rb) :: rest
      rw [popZeros_step]
      exact ih z f (by simpa using hf)

theorem popZeros_all : ∀ (zs : List Nat) (a0 f : Nat), zs.length + 1 ≤ f →
    popZeros f ((a0, 0) :: zs.map (fun z => (z, 1))) = [] := by
  intro zs
  induction zs with
  | nil =>
    intro a0 f hf
    match f, hf with
    | f + 1, _ => exact popZeros_last f
  | cons z zs ih =>
    intro a0 f hf
    match f, hf with
    | f + 1, hf =>
      show popZeros (f + 1) ((a0, 0) :: (z, 1) :: zs.map (fun z => (z, 1))) = []
      rw [popZeros_step]
      exact ih z f (by simpa using hf)

theorem childrenBefore_succ (toks : List jsmntok_t) (a i : Nat) :
    childrenBefore toks a (i + 1) =
      childrenBefore toks a i + (if (getTok toks i).parent = some a then 1 else 0) := by
  unfold childrenBefore
  rw [List.range_succ, List.countP_append]
  simp [List.countP_cons]

theorem childrenBefore_mono (toks : List jsmntok_t) (a : Nat) {i j : Nat} (h : i ≤ j) :
    childrenBefore toks a i ≤ childrenBefore toks a j := by
  unfold childrenBefore
  exact List.Sublist.countP_le _ (List.range_sublist.mpr h)

theorem childrenBefore_lt_of_child (toks : List jsmntok_t) (a : Nat) {c j : Nat}
    (hc : (getTok toks c).parent = some a) (hcj : c < j) :
    childrenBefore toks a c + 1 ≤ childrenBefore toks a j := by
  have h1 : childrenBefore toks a (c + 1) = childrenBefore toks a c + 1 := by
    rw [childrenBefore_succ, if_pos hc]
  have h2 := childrenBefore_mono toks a (show c + 1 ≤ j by omega)
  omega

theorem childrenBefore_stable (toks : List jsmntok_t) (a : Nat) {i j : Nat} (hij : i ≤ j)
    (hno : ∀ c, i ≤ c → c < j → (getTok toks c).parent ≠ some a) :
    childrenBefore toks a j = childrenBefore toks a i := by
  induction j, hij using Nat.le_induction with
  | base => rfl
  | succ n hn ih =>
    rw [childrenBefore_succ, if_neg (hno n hn (by omega))]
    have := ih (fun c h1 h2 => hno c h1 (by omega))
    omega

theorem childrenBefore_congr {toks1 toks2 : List jsmntok_t}
    (hp : ∀ j, (getTok toks1 j).parent = (getTok toks2 j).parent) (a i : Nat) :
    childrenBefore toks1 a i = childrenBefore toks2 a i := by
  unfold childrenBefore
  apply List.countP_congr
  intro c hc
  simp [hp c]

theorem chainL_pairwise {toks : List jsmntok_t}
    (hd : ∀ i j, (getTok toks i).parent = some j → j < i) :
    ∀ x, List.Pairwise (fun a b => b < a) (chainL toks (x + 1) x) := by
  intro x
  induction x using Nat.strong_induction_on with
  | _ x ih =>
    cases hp : (getTok toks x).parent with
    | none =>
      rw [chainL_unfold_none hp]
      exact List.Pairwise.nil
    | some j =>
      have hj : j < x := hd x j hp
      rw [chainL_unfold_some hd hp]
      exact List.Pairwise.cons (fun b hb => chainL_mem_lt hd j b hb) (ih j hj)

theorem chainL_head {toks : List jsmntok_t} {i a : Nat} {rest : List Nat}
    (hd : ∀ i j, (getTok toks i).parent = some j → j < i)
    (hci : chainL toks (i + 1) i = a :: rest) :
    (getTok toks i).parent = some a ∧ rest = chainL toks (a + 1) a := by
  cases hp : (getTok toks i).parent with
  | none =>
    rw [chainL_unfold_none hp] at hci
    exact absurd hci (by simp)
  | some b =>
    rw [chainL_unfold_some hd hp] at hci
    injection hci with h1 h2
    rw [h1] at h2
    refine ⟨?_, h2.symm⟩
    rw [h1]

theorem size_no_late {T : List jsmntok_t}
    (hd : ∀ i j, (getTok T i).parent = some j → j < i)
    (hsz : ∀ a, a < T.length → (getTok T a).size = childrenBefore T a T.length)
    (hpre : ∀ c a, c < T.length → (getTok T c).parent = some a →
      ∀ k, a < k → k < c → a ∈ chainL T (k + 1) k)
    {a i : Nat} (hnp : (getTok T (i + 1)).parent ≠ some a)
    (hnc : a ∉ chainL T (i + 2) (i + 1))
    (hal : a < T.length) (hi1 : i + 1 ≤ T.length) (ha : a < i + 1) :
    (getTok T a).size = childrenBefore T a (i + 1) := by
  rw [hsz a hal]
  apply childrenBefore_stable T a hi1
  intro c hc1 hc2 hpc
  rcases Nat.eq_or_lt_of_le hc1 with heq | hlt
  · rw [← heq] at hpc
    exact hnp hpc
  · exact hnc (hpre c a hc2 hpc (i + 1) ha hlt)

theorem childrenBefore_zero_of_ge {T : List jsmntok_t}
    (hd : ∀ i j, (getTok T i).parent = some j → j < i) {a i : Nat} (hai : i ≤ a + 1) :
    childrenBefore T a i = 0 := by
  have h1 : childrenBefore T a i = childrenBefore T a 0 :=
    childrenBefore_stable T a (by omega) (fun c _ hc hpc => by
      have := hd c a hpc
      omega)
  rw [h1]
  rfl

theorem nestStack_eq_chainStack {T : List jsmntok_t}
    (hd : ∀ i j, (getTok T i).parent = some j → j < i)
    (hsz : ∀ a, a < T.length → (getTok T a).size = childrenBefore T a T.length)
    (hpre : ∀ c a, c < T.length → (getTok T c).parent = some a →
      ∀ k, a < k → k < c → a ∈ chainL T (k + 1) k) :
    ∀ i, i ≤ T.length → nestStackAt T i = chainStack T i := by
  intro i
  induction i with
  | zero =>
    intro _
    have hp0 : (getTok T 0).parent = none := by
      cases hp : (getTok T 0).parent with
      | none => rfl
      | some j => exact absurd (hd 0 j hp) (by omega)
    show ([] : List (Nat × Nat)) = chainStack T 0
    unfold chainStack
    rw [chainL_unfold_none hp0]
  | succ i ih =>
    intro hle
    have hi : i < T.length := by omega
    show nestStep T i (nestStackAt T i) = chainStack T (i + 1)
    rw [ih (by omega)]
    unfold nestStep
    cases hp1 : (getTok T (i + 1)).parent with
    | some q =>
      have hq : q < i + 1 := hd (i + 1) q hp1
      have hlen : i + 1 < T.length := by
        by_contra hx
        rw [getTok_ge T (i + 1) (by omega)] at hp1
        exact Option.noConfusion hp1
      have hch1 : chainL T (i + 2) (i + 1) = q :: chainL T (q + 1) q :=
        chainL_unfold_some hd hp1
      by_cases hqi : q = i
      · rw [hqi] at hp1 hch1
        have hcb0 : childrenBefore T i (i + 1) = 0 :=
          childrenBefore_zero_of_ge hd (by omega)
        have hsz1 : 1 ≤ (getTok T i).size := by
          rw [hsz i hi]
          have h2 := childrenBefore_lt_of_child T i hp1 hlen
          omega
        cases hci : chainL T (i + 1) i with
        | nil =>
          have hcs : chainStack T i = [] := by
            unfold chainStack
            rw [hci]
          have htgt : chainStack T (i + 1) =
              [(i, (getTok T i).size - childrenBefore T i (i + 1))] := by
            unfold chainStack
            rw [hch1, hci]
            rfl
          rw [hcs, htgt, popZeros_noop (show (getTok T i).size ≠ 0 by omega)]
          rw [hcb0]
          rfl
        | cons a rest =>
          obtain ⟨hpa, hrest⟩ := chainL_head hd hci
          have hcs : chainStack T i = (a, (getTok T a).size - childrenBefore T a i) ::
              rest.map (fun b => (b, (getTok T b).size - childrenBefore T b i + 1)) := by
            unfold chainStack
            rw [hci]
          have htgt : chainStack T (i + 1) =
              (i, (getTok T i).size - childrenBefore T i (i + 1)) ::
              (a, (getTok T a).size - childrenBefore T a (i + 1) + 1) ::
              rest.map (fun b => (b, (getTok T b).size - childrenBefore T b (i + 1) + 1)) := by
            unfold chainStack
            rw [hch1, hci]
            rfl
          rw [hcs, htgt, popZeros_noop (show (getTok T i).size ≠ 0 by omega)]
          have hal : a < T.length := Nat.lt_trans (hd i a hpa) hi
          have hcba : childrenBefore T a (i + 1) = childrenBefore T a i + 1 := by
            rw [childrenBefore_succ, if_pos hpa]
          have hsza : childrenBefore T a i + 1 ≤ (getTok T a).size := by
            rw [hsz a hal]
            have h2 := childrenBefore_lt_of_child T a hpa hi
            omega
          have hhead : (getTok T a).size - childrenBefore T a i =
              (getTok T a).size - childrenBefore T a (i + 1) + 1 := by
            omega
          have htail : rest.map (fun b => (b, (getTok T b).size - childrenBefore T b i + 1)) =
              rest.map (fun b => (b, (getTok T b).size - childrenBefore T b (i + 1) + 1)) := by
            apply List.map_congr_left
            intro b hb
            have hba : b < a := chainL_mem_lt hd a b (hrest ▸ hb)
            have hcbb : childrenBefore T b (i + 1) = childrenBefore T b i := by
              rw [childrenBefore_succ, if_neg]
              · omega
              · rw [hpa]
                intro hx
                injection hx with hx2
                omega
            rw [hcbb]
          rw [hcb0, hhead, htail]
          rfl
      · have hql : q < i := by omega
        have hqmem : q ∈ chainL T (i + 1) i := hpre (i + 1) q hlen hp1 i hql (by omega)
        obtain ⟨front, hsplit⟩ := chainL_split hd i q hqmem
        have hnq : (getTok T (i + 1)).parent ≠ some i := by
          rw [hp1]
          intro hx
          injection hx with hx2
          omega
        have hnoti : (i : Nat) ∉ chainL T (i + 2) (i + 1) := by
          rw [hch1]
          intro hx
          rcases List.mem_cons.mp hx with rfl | hx
          · omega
          · have := chainL_mem_lt hd q i hx
            omega
        have hszi : (getTok T i).size = 0 := by
          have h1 := size_no_late hd hsz hpre hnq hnoti hi (by omega) (by omega)
          rw [h1]
          exact childrenBefore_zero_of_ge hd (by omega)
        have hqlen : q < T.length := by omega
        cases front with
        | nil =>
          have hchi : chainL T (i + 1) i = q :: chainL T (q + 1) q := by
            simpa using hsplit
          obtain ⟨hpiq, _⟩ := chainL_head hd hchi
          have hcs : chainStack T i = (q, (getTok T q).size - childrenBefore T q i) ::
              (chainL T (q + 1) q).map
                (fun b => (b, (getTok T b).size - childrenBefore T b i + 1)) := by
            unfold chainStack
            rw [hchi]
          have htgt : chainStack T (i + 1) =
              (q, (getTok T q).size - childrenBefore T q (i + 1)) ::
              (chainL T (q + 1) q).map
                (fun b => (b, (getTok T b).size - childrenBefore T b (i + 1) + 1)) := by
            unfold chainStack
            rw [hch1]
          have hcbq : childrenBefore T q (i + 1) = childrenBefore T q i + 1 := by
            rw [childrenBefore_succ, if_pos hpiq]
          have hszq : childrenBefore T q (i + 1) + 1 ≤ (getTok T q).size := by
            rw [hsz q hqlen]
            exact childrenBefore_lt_of_child T q hp1 hlen
          rw [hcs, htgt, hszi]
          have hflen : ((q, (getTok T q).size - childrenBefore T q i) ::
              (chainL T (q + 1) q).map
                (fun b => (b, (getTok T b).size - childrenBefore T b i + 1))).length + 1 =
              (chainL T (q + 1) q).length + 1 + 1 := by
            simp
          rw [hflen, popZeros_step]
          rw [popZeros_noop (show (getTok T q).size - childrenBefore T q i - 1 ≠ 0 by omega)]
          have hhd : (getTok T q).size - childrenBefore T q i - 1 =
              (getTok T q).size - childrenBefore T q (i + 1) := by omega
          have htl : (chainL T (q + 1) q).map
              (fun b => (b, (getTok T b).size - childrenBefore T b i + 1)) =
              (chainL T (q + 1) q).map
              (fun b => (b, (getTok T b).size - childrenBefore T b (i + 1) + 1)) := by
            apply List.map_congr_left
            intro b hb
            have hbq : b < q := chainL_mem_lt hd q b hb
            have hcbb : childrenBefore T b (i + 1) = childrenBefore T b i := by
              rw [childrenBefore_succ, if_neg]
              · omega
              · rw [hpiq]
                intro hx
                injection hx with hx2
                omega
            rw [hcbb]
          rw [hhd, htl]
        | cons a1 front' =>
          have hchi : chainL T (i + 1) i =
              a1 :: (front' ++ q :: chainL T (q + 1) q) := by
            simpa using hsplit
          obtain ⟨hpia, hresta⟩ := chainL_head hd hchi
          have ha1i : a1 < i := hd i a1 hpia
          have ha1len : a1 < T.length := by omega
          have hq_in_a1 : q ∈ chainL T (a1 + 1) a1 := by
            rw [← hresta]
            exact List.mem_append.mpr (Or.inr (List.mem_cons_self q _))
          have hqa1 : q < a1 := chainL_mem_lt hd a1 q hq_in_a1
          have hnc1 : a1 ∉ chainL T (i + 2) (i + 1) := by
            rw [hch1]
            intro hx
            rcases List.mem_cons.mp hx with rfl | hx
            · omega
            · have := chainL_mem_lt hd q a1 hx
              omega
          have hs1 : (getTok T a1).size = childrenBefore T a1 i + 1 := by
            have h1 := size_no_late hd hsz hpre
              (by rw [hp1]; intro hx; injection hx with hx2; omega) hnc1
              ha1len (by omega) (by omega)
            rw [h1, childrenBefore_succ, if_pos hpia]
          have hones : ∀ a ∈ front',
              (getTok T a).size - childrenBefore T a i + 1 = 1 := by
            intro a ha
            have ham : a ∈ chainL T (a1 + 1) a1 := by
              rw [← hresta]
              exact List.mem_append.mpr (Or.inl ha)
            have haa1 : a < a1 := chainL_mem_lt hd a1 a ham
            have haq : q < a := by
              have hpw := chainL_pairwise hd a1
              rw [← hresta] at hpw
              exact (List.pairwise_append.mp hpw).2.2 a ha q (List.mem_cons_self q _)
            have hanc : a ∉ chainL T (i + 2) (i + 1) := by
              rw [hch1]
              intro hx
              rcases List.mem_cons.mp hx with rfl | hx
              · omega
              · have := chainL_mem_lt hd q a hx
                omega
            have h1 := size_no_late hd hsz hpre
              (by rw [hp1]; intro hx; injection hx with hx2; omega) hanc
              (by omega) (by omega) (by omega)
            have h2 : childrenBefore T a (i + 1) = childrenBefore T a i := by
              rw [childrenBefore_succ, if_neg]
              · omega
              · rw [hpia]
                intro hx
                injection hx with hx2
                omega
            omega
          have hcbq : childrenBefore T q (i + 1) = childrenBefore T q i := by
            rw [childrenBefore_succ, if_neg]
            · omega
            · rw [hpia]
              intro hx
              injection hx with hx2
              omega
          have hszq : childrenBefore T q i + 1 ≤ (getTok T q).size := by
            rw [hsz q hqlen]
            have h2 := childrenBefore_lt_of_child T q hp1 hlen
            omega
          have hcs : chainStack T i = (a1, (getTok T a1).size - childrenBefore T a1 i) ::
              (front' ++ q :: chainL T (q + 1) q).map
                (fun b => (b, (getTok T b).size - childrenBefore T b i + 1)) := by
            unfold chainStack
            rw [hchi]
          have htgt : chainStack T (i + 1) =
              (q, (getTok T q).size - childrenBefore T q (i + 1)) ::
              (chainL T (q + 1) q).map
                (fun b => (b, (getTok T b).size - childrenBefore T b (i + 1) + 1)) := by
            unfold chainStack
            rw [hch1]
          rw [hcs, htgt, hszi]
          rw [List.map_append, List.map_cons]
          have hflen : ((a1, (getTok T a1).size - childrenBefore T a1 i) ::
              (front'.map (fun b => (b, (getTok T b).size - childrenBefore T b i + 1)) ++
                (q, (getTok T q).size - childrenBefore T q i + 1) ::
                  (chainL T (q + 1) q).map
                    (fun b => (b, (getTok T b).size - childrenBefore T b i + 1)))).length + 1 =
              front'.length + (chainL T (q + 1) q).length + 3 := by
            simp
            omega
          rw [hflen]
          have ha1c : (getTok T a1).size - childrenBefore T a1 i = 1 := by omega
          have hmapf : front'.map
              (fun b => (b, (getTok T b).size - childrenBefore T b i + 1)) =
              front'.map (fun z => (z, 1)) :=
            List.map_congr_left (fun a ha => by rw [hones a ha])
          rw [ha1c, hmapf]
          have hrun2 := @popZeros_run q ((getTok T q).size - childrenBefore T q i)
            ((chainL T (q + 1) q).map
              (fun b => (b, (getTok T b).size - childrenBefore T b i + 1)))
            (show (getTok T q).size - childrenBefore T q i ≠ 0 by omega)
            (a1 :: front') i
            (front'.length + (chainL T (q + 1) q).length + 3)
            (by simp; omega)
          have hshape : ((i, 0) :: (a1, 1) ::
              (front'.map (fun z => (z, 1)) ++
                (q, (getTok T q).size - childrenBefore T q i + 1) ::
                  (chainL T (q + 1) q).map
                    (fun b => (b, (getTok T b).size - childrenBefore T b i + 1)))) =
              ((i, 0) :: (a1 :: front').map (fun z => (z, 1)) ++
                (q, (getTok T q).size - childrenBefore T q i + 1) ::
                  (chainL T (q + 1) q).map
                    (fun b => (b, (getTok T b).size - childrenBefore T b i + 1))) := by
            simp
          rw [hshape, hrun2]
          have hhd : (getTok T q).size - childrenBefore T q i =
              (getTok T q).size - childrenBefore T q (i + 1) := by omega
          have htl : (chainL T (q + 1) q).map
              (fun b => (b, (getTok T b).size - childrenBefore T b i + 1)) =
              (chainL T (q + 1) q).map
              (fun b => (b, (getTok T b).size - childrenBefore T b (i + 1) + 1)) := by
            apply List.map_congr_left
            intro b hb
            have hbq : b < q := chainL_mem_lt hd q b hb
            have hcbb : childrenBefore T b (i + 1) = childrenBefore T b i := by
              rw [childrenBefore_succ, if_neg]
              · omega
              · rw [hpia]
                intro hx
                injection hx with hx2
                omega
            rw [hcbb]
          rw [hhd, htl]
    | none =>
      have hch1 : chainL T (i + 2) (i + 1) = [] := chainL_unfold_none hp1
      have hnoti : (i : Nat) ∉ chainL T (i + 2) (i + 1) := by
        rw [hch1]
        simp
      have hszi : (getTok T i).size = 0 := by
        have h1 := size_no_late hd hsz hpre (by rw [hp1]; simp) hnoti
          hi (by omega) (by omega)
        rw [h1]
        exact childrenBefore_zero_of_ge hd (by omega)
      have htgt : chainStack T (i + 1) = [] := by
        unfold chainStack
        rw [hch1]
      cases hci : chainL T (i + 1) i with
      | nil =>
        have hcs : chainStack T i = [] := by
          unfold chainStack
          rw [hci]
        rw [hcs, hszi, htgt]
        exact popZeros_last _
      | cons a1 rest =>
        obtain ⟨hpia, hresta⟩ := chainL_head hd hci
        have ha1i : a1 < i := hd i a1 hpia
        have ha1len : a1 < T.length := by omega
        have hs1 : (getTok T a1).size = childrenBefore T a1 i + 1 := by
          have h1 := size_no_late hd hsz hpre (by rw [hp1]; simp) (by rw [hch1]; simp)
            ha1len (by omega) (by omega)
          rw [h1, childrenBefore_succ, if_pos hpia]
        have hones : ∀ a ∈ rest,
            (getTok T a).size - childrenBefore T a i + 1 = 1 := by
          intro a ha
          have haa1 : a < a1 := chainL_mem_lt hd a1 a (hresta ▸ ha)
          have h1 := size_no_late hd hsz hpre (by rw [hp1]; simp) (by rw [hch1]; simp)
            (show a < T.length by omega) (by omega) (by omega)
          have h2 : childrenBefore T a (i + 1) = childrenBefore T a i := by
            rw [childrenBefore_succ, if_neg]
            · omega
            · rw [hpia]
              intro hx
              injection hx with hx2
              omega
          omega
        have hcs : chainStack T i = (a1, (getTok T a1).size - childrenBefore T a1 i) ::
            rest.map (fun b => (b, (getTok T b).size - childrenBefore T b i + 1)) := by
          unfold chainStack
          rw [hci]
        rw [hcs, hszi, htgt]
        have ha1c : (getTok T a1).size - childrenBefore T a1 i = 1 := by omega
        have hmapf : rest.map
            (fun b => (b, (getTok T b).size - childrenBefore T b i + 1)) =
            rest.map (fun z => (z, 1)) :=
          List.map_congr_left (fun a ha => by rw [hones a ha])
        rw [ha1c, hmapf]
        have hshape : ((i, 0) :: (a1, 1) :: rest.map (fun z => (z, 1))) =
            ((i, 0) :: (a1 :: rest).map (fun z => (z, 1))) := by
          simp
        rw [hshape]
        exact popZeros_all (a1 :: rest) i _ (by simp)

theorem chainL_congr_le {toks1 toks2 : List jsmntok_t}
    (hd : ∀ i j, (getTok toks1 i).parent = some j → j < i) :
    ∀ x f, x < f → (∀ j, j ≤ x → (getTok toks1 j).parent = (getTok toks2 j).parent) →
    chainL toks1 f x = chainL toks2 f x := by
  intro x
  induction x using Nat.strong_induction_on with
  | _ x ih =>
    intro f hf hagree
    match f, hf with
    | f + 1, _ =>
      simp only [chainL]
      rw [← hagree x (le_refl x)]
      cases hp : (getTok toks1 x).parent with
      | none => rfl
      | some j =>
        have hj : j < x := hd x j hp
        show j :: chainL toks1 f j = j :: chainL toks2 f j
        rw [ih j hj f (by omega) (fun j2 hj2 => hagree j2 (by omega))]

theorem childrenBefore_congr_lt {toks1 toks2 : List jsmntok_t} {i : Nat}
    (hagree : ∀ j, j < i → (getTok toks1 j).parent = (getTok toks2 j).parent) (a : Nat) :
    childrenBefore toks1 a i = childrenBefore toks2 a i := by
  unfold childrenBefore
  apply List.countP_congr
  intro c hc
  have hci : c < i := List.mem_range.mp hc
  simp [hagree c hci]

theorem TreeInv_attach {toks : List jsmntok_t} {p p1 : jsmn_parser_t} {T' : List jsmntok_t}
    {tok : jsmntok_t}
    (hI : TreeInv toks p)
    (hlen' : T'.length = toks.length + 1)
    (hchar : ∀ j, getTok T' j =
      if j = p.toknext then tok
      else if p.toksuper = some j then
        { type := (getTok toks j).type, start := (getTok toks j).start,
          end_ := (getTok toks j).end_, size := (getTok toks j).size + 1,
          parent := (getTok toks j).parent }
      else getTok toks j)
    (htokp : tok.parent = p.toksuper) (htoks0 : tok.size = 0)
    (h1n : p1.toknext = p.toknext + 1)
    (h1s : p1.toksuper = p.toksuper ∨ p1.toksuper = some p.toknext) :
    TreeInv T' p1 := by
  obtain ⟨hPool, hSZ, hF3, hSS, hS2⟩ := hI
  obtain ⟨hL, hPD, hSB⟩ := hPool
  have hdall : ∀ i j, (getTok toks i).parent = some j → j < i := parentsDec_all hPD
  have hpar : ∀ j, (getTok T' j).parent =
      if j = p.toknext then tok.parent else (getTok toks j).parent := by
    intro j
    rw [hchar j]
    by_cases hj : j = p.toknext
    · rw [if_pos hj, if_pos hj]
    · rw [if_neg hj, if_neg hj]
      by_cases hsj : p.toksuper = some j
      · rw [if_pos hsj]
      · rw [if_neg hsj]
  have hPD' : ∀ i j, (getTok T' i).parent = some j → j < i := by
    intro i j hx
    rw [hpar i] at hx
    by_cases hin : i = p.toknext
    · rw [if_pos hin] at hx
      rw [htokp] at hx
      have := hSB j hx
      omega
    · rw [if_neg hin] at hx
      exact hdall i j hx
  have hsizen : (getTok T' p.toknext).size = 0 := by
    rw [hchar p.toknext, if_pos rfl]
    exact htoks0
  have hsize : ∀ j, j ≠ p.toknext → (getTok T' j).size =
      (if p.toksuper = some j then (getTok toks j).size + 1 else (getTok toks j).size) := by
    intro j hj
    rw [hchar j, if_neg hj]
    by_cases hsj : p.toksuper = some j
    · rw [if_pos hsj, if_pos hsj]
    · rw [if_neg hsj, if_neg hsj]
  have hchainc : ∀ x, x < p.toknext → chainL toks (x + 1) x = chainL T' (x + 1) x := by
    intro x hx
    apply chainL_congr_le hdall x (x + 1) (by omega)
    intro j hj
    rw [hpar j, if_neg (by omega)]
  have hcb : ∀ a i2, i2 ≤ p.toknext → childrenBefore T' a i2 = childrenBefore toks a i2 := by
    intro a i2 hi2
    apply childrenBefore_congr_lt
    intro j hj
    rw [hpar j, if_neg (by omega)]
  have hpn : (getTok T' p.toknext).parent = p.toksuper := by
    rw [hpar p.toknext, if_pos rfl, htokp]
  have hSnew : ∀ a, (a = p.toknext ∨ a ∈ chainL T' (p.toknext + 1) p.toknext) →
      ∀ k, a < k → k < p.toknext + 1 → a ∈ chainL T' (k + 1) k := by
    intro a hmem k hak hk
    rcases hmem with rfl | h
    · exact ((by omega : False)).elim
    · cases hsup : p.toksuper with
      | none =>
        rw [hsup] at hpn
        rw [chainL_unfold_none hpn] at h
        exact absurd h (List.not_mem_nil a)
      | some s =>
        rw [hsup] at hpn
        have hsn : s < p.toknext := hSB s hsup
        rw [chainL_unfold_some hPD' hpn] at h
        rcases List.mem_cons.mp h with rfl | h2
        · rcases Nat.lt_or_ge k p.toknext with hkn | hkn
          · rw [← hchainc k hkn]
            exact hSS a a hsup (Or.inl rfl) k hak hkn
          · have hke : k = p.toknext := by omega
            subst hke
            rw [chainL_unfold_some hPD' hpn]
            exact List.mem_cons_self a _
        · have h3 : a ∈ chainL toks (s + 1) s := by
            rw [hchainc s hsn]
            exact h2
          rcases Nat.lt_or_ge k p.toknext with hkn | hkn
          · rw [← hchainc k hkn]
            exact hSS a s hsup (Or.inr h3) k hak hkn
          · have hke : k = p.toknext := by omega
            subst hke
            rw [chainL_unfold_some hPD' hpn]
            exact List.mem_cons.mpr (Or.inr h2)
  refine ⟨⟨?_, ?_, ?_⟩, ?_, ?_, ?_, ?_⟩
  · rw [hlen', hL, h1n]
  · intro i hi j hx
    exact hPD' i j hx
  · intro s hs
    rcases h1s with he | he
    · rw [he] at hs
      have := hSB s hs
      omega
    · rw [he] at hs
      injection hs with hs2
      omega
  · intro a ha
    rw [h1n] at ha
    rw [h1n, childrenBefore_succ, hpn]
    by_cases han : a = p.toknext
    · rw [han, hsizen, hcb p.toknext p.toknext (le_refl _)]
      rw [childrenBefore_zero_of_ge hdall (by omega)]
      rw [if_neg (fun hx => by have := hSB p.toknext hx; omega)]
    · rw [hsize a han, hcb a p.toknext (le_refl _)]
      by_cases hsa : p.toksuper = some a
      · rw [if_pos hsa, if_pos hsa, hSZ a (by omega)]
      · rw [if_neg hsa, if_neg hsa, hSZ a (by omega)]
        omega
  · intro c a hc hx k hak hkc
    rw [h1n] at hc
    have hkn : k < p.toknext := by omega
    rw [← hchainc k hkn]
    rw [hpar c] at hx
    by_cases hcn : c = p.toknext
    · rw [if_pos hcn] at hx
      rw [htokp] at hx
      exact hSS a a hx (Or.inl rfl) k hak hkn
    · rw [if_neg hcn] at hx
      exact hF3 c a (by omega) hx k hak hkc
  · intro a s' hs' hmem k hak hk
    rw [h1n] at hk
    rcases h1s with he | he
    · rw [he] at hs'
      have hs'n : s' < p.toknext := hSB s' hs'
      have hpn2 : (getTok T' p.toknext).parent = some s' := by
        rw [hpn, hs']
      have hmem2 : a ∈ chainL T' (p.toknext + 1) p.toknext := by
        rw [chainL_unfold_some hPD' hpn2]
        rcases hmem with rfl | h
        · exact List.mem_cons_self a _
        · exact List.mem_cons.mpr (Or.inr h)
      exact hSnew a (Or.inr hmem2) k hak hk
    · have hs'e : s' = p.toknext := by
        rw [he] at hs'
        injection hs' with hs2
        exact hs2.symm
      subst hs'e
      exact hSnew a hmem k hak hk
  · intro a h0 hmem k hak hk
    rw [h1n] at hmem hk
    rw [Nat.add_sub_cancel] at hmem
    exact hSnew a hmem k hak hk

theorem TreeInv_retarget {toks : List jsmntok_t} {p p1 : jsmn_parser_t}
    (hI : TreeInv toks p) (hn : p1.toknext = p.toknext) (hs : p1.toksuper = p.toksuper) :
    TreeInv toks p1 := by
  obtain ⟨hPool, hSZ, hF3, hSS, hS2⟩ := hI
  refine ⟨PoolInv_retarget hPool hn hs, ?_, ?_, ?_, ?_⟩
  · intro a ha
    rw [hn] at ha ⊢
    exact hSZ a ha
  · intro c a hc
    rw [hn] at hc
    exact hF3 c a hc
  · intro a s hs1 hmem k hak hk
    rw [hs] at hs1
    rw [hn] at hk
    exact hSS a s hs1 hmem k hak hk
  · intro a h0 hmem k hak hk
    rw [hn] at h0 hmem hk
    exact hS2 a h0 hmem k hak hk

theorem TreeInv_colon {toks : List jsmntok_t} {p p1 : jsmn_parser_t}
    (hI : TreeInv toks p) (hn : p1.toknext = p.toknext)
    (hs : p1.toksuper = decIdx p.toknext) : TreeInv toks p1 := by
  obtain ⟨hPool, hSZ, hF3, hSS, hS2⟩ := hI
  refine ⟨⟨?_, hPool.2.1, ?_⟩, ?_, ?_, ?_, ?_⟩
  · rw [hn]
    exact hPool.1
  · intro s hs1
    rw [hs] at hs1
    rw [hn]
    exact decIdx_lt hs1
  · intro a ha
    rw [hn] at ha ⊢
    exact hSZ a ha
  · intro c a hc
    rw [hn] at hc
    exact hF3 c a hc
  · intro a s hs1 hmem k hak hk
    rw [hs] at hs1
    rw [hn] at hk
    unfold decIdx at hs1
    split at hs1
    · exact Option.noConfusion hs1
    · injection hs1 with hs2
      rename_i hnz
      rw [← hs2] at hmem
      exact hS2 a (by omega) hmem k hak hk
  · intro a h0 hmem k hak hk
    rw [hn] at h0 hmem hk
    exact hS2 a h0 hmem k hak hk

theorem TreeInv_comma_fix {toks : List jsmntok_t} {p p1 : jsmn_parser_t} {s : Nat}
    (hI : TreeInv toks p) (hsup : p.toksuper = some s)
    (hn : p1.toknext = p.toknext) (hs : p1.toksuper = (getTok toks s).parent) :
    TreeInv toks p1 := by
  obtain ⟨hPool, hSZ, hF3, hSS, hS2⟩ := hI
  have hdall := parentsDec_all hPool.2.1
  have hsn : s < p.toknext := hPool.2.2 s hsup
  refine ⟨⟨?_, hPool.2.1, ?_⟩, ?_, ?_, ?_, ?_⟩
  · rw [hn]
    exact hPool.1
  · intro s2 hs2
    rw [hs] at hs2
    have := hdall s s2 hs2
    rw [hn]
    omega
  · intro a ha
    rw [hn] at ha ⊢
    exact hSZ a ha
  · intro c a hc
    rw [hn] at hc
    exact hF3 c a hc
  · intro a s2 hs2 hmem k hak hk
    rw [hs] at hs2
    rw [hn] at hk
    have hch : chainL toks (s + 1) s = s2 :: chainL toks (s2 + 1) s2 :=
      chainL_unfold_some hdall hs2
    have hmem2 : a ∈ chainL toks (s + 1) s := by
      rw [hch]
      rcases hmem with rfl | h
      · exact List.mem_cons_self a _
      · exact List.mem_cons.mpr (Or.inr h)
    exact hSS a s hsup (Or.inr hmem2) k hak hk
  · intro a h0 hmem k hak hk
    rw [hn] at h0 hmem hk
    exact hS2 a h0 hmem k hak hk

theorem jsmn_close_walk_shape {toks : List jsmntok_t} {ty pos : Nat} {tsuper : Option Nat}
    (hd : ∀ i j, (getTok toks i).parent = some j → j < i) :
    ∀ (fuel i : Nat), i < toks.length →
    ∀ {toks1 : List jsmntok_t} {super1 : Option Nat},
    jsmn_close_walk toks ty pos tsuper fuel i = Except.ok (toks1, super1) →
    toks1.length = toks.length ∧
    (∀ j, (getTok toks1 j).parent = (getTok toks j).parent) ∧
    (∀ j, (getTok toks1 j).size = (getTok toks j).size) ∧
    (super1 = tsuper ∨ ∃ t0, (t0 = i ∨ t0 ∈ chainL toks (i + 1) i) ∧
      super1 = (getTok toks t0).parent) := by
  intro fuel
  induction fuel with
  | zero =>
    intro i hi toks1 super1 h
    exact Except.noConfusion h
  | succ fuel ih =>
    intro i hi toks1 super1 h
    simp only [jsmn_close_walk] at h
    split at h
    · split at h
      · exact Except.noConfusion h
      · injection h with h2
        obtain ⟨h4, h5⟩ := Prod.mk.inj h2
        subst h4
        subst h5
        refine ⟨?_, ?_, ?_, Or.inr ⟨i, Or.inl rfl, rfl⟩⟩
        · rw [writeTok_length, if_pos hi]
        · intro j
          rw [getTok_writeTok toks i j _ (Nat.le_of_lt hi)]
          by_cases hji : j = i
          · rw [if_pos hji, hji]
          · rw [if_neg hji]
        · intro j
          rw [getTok_writeTok toks i j _ (Nat.le_of_lt hi)]
          by_cases hji : j = i
          · rw [if_pos hji, hji]
          · rw [if_neg hji]
    · split at h
      · split at h
        · exact Except.noConfusion h
        · injection h with h2
          obtain ⟨h4, h5⟩ := Prod.mk.inj h2
          subst h4
          subst h5
          exact ⟨rfl, fun j => rfl, fun j => rfl, Or.inl rfl⟩
      · rename_i par hpar
        have hlt : par < i := hd i par hpar
        have hres := ih par (Nat.lt_trans hlt hi) h
        refine ⟨hres.1, hres.2.1, hres.2.2.1, ?_⟩
        rcases hres.2.2.2 with h3 | ⟨t0, ht0, he⟩
        · exact Or.inl h3
        · refine Or.inr ⟨t0, Or.inr ?_, he⟩
          have hch2 : chainL toks (i + 1) i = par :: chainL toks (par + 1) par :=
            chainL_unfold_some hd hpar
          rw [hch2]
          rcases ht0 with rfl | h4
          · exact List.mem_cons_self t0 _
          · exact List.mem_cons.mpr (Or.inr h4)

theorem TreeInv_close {toks : List jsmntok_t} {p p1 : jsmn_parser_t}
    {toks1 : List jsmntok_t} {super1 : Option Nat} {ty : Nat}
    (hI : TreeInv toks p) (hnz : ¬p.toknext < 1)
    (hw : jsmn_close_walk toks ty p.pos p.toksuper p.toknext (p.toknext - 1) =
      Except.ok (toks1, super1))
    (h1n : p1.toknext = p.toknext) (h1s : p1.toksuper = super1) :
    TreeInv toks1 p1 := by
  obtain ⟨hPool, hSZ, hF3, hSS, hS2⟩ := hI
  have hdall := parentsDec_all hPool.2.1
  have hstart : p.toknext - 1 < toks.length := by
    rw [hPool.1]
    omega
  obtain ⟨hlen1, hparp, hsizep, hsup1⟩ :=
    jsmn_close_walk_shape hdall p.toknext (p.toknext - 1) hstart hw
  have hch : ∀ f x, chainL toks f x = chainL toks1 f x :=
    chainL_congr (fun j => (hparp j).symm)
  have hcbe : ∀ a i2, childrenBefore toks a i2 = childrenBefore toks1 a i2 :=
    fun a i2 => childrenBefore_congr (fun j => (hparp j).symm) a i2
  refine ⟨⟨?_, ?_, ?_⟩, ?_, ?_, ?_, ?_⟩
  · rw [hlen1, h1n]
    exact hPool.1
  · intro i hi j hx
    rw [hparp i] at hx
    rw [hlen1] at hi
    exact hPool.2.1 i hi j hx
  · intro s hs
    rw [h1s] at hs
    rw [h1n]
    rcases hsup1 with he | ⟨t0, ht0, he⟩
    · rw [he] at hs
      exact hPool.2.2 s hs
    · rw [he] at hs
      have hst0 : s < t0 := hdall t0 s hs
      have ht0b : t0 ≤ p.toknext - 1 := by
        rcases ht0 with rfl | h4
        · exact le_refl _
        · have := chainL_mem_lt hdall (p.toknext - 1) t0 h4
          omega
      omega
  · intro a ha
    rw [h1n] at ha ⊢
    rw [hsizep a, ← hcbe a p.toknext]
    exact hSZ a ha
  · intro c a hc hx k hak hkc
    rw [h1n] at hc
    rw [hparp c] at hx
    rw [← hch (k + 1) k]
    exact hF3 c a hc hx k hak hkc
  · intro a s hs hmem k hak hk
    rw [h1s] at hs
    rw [h1n] at hk
    rw [← hch (k + 1) k]
    have hmem2 : a = s ∨ a ∈ chainL toks (s + 1) s := by
      rcases hmem with rfl | h2
      · exact Or.inl rfl
      · right
        rw [hch (s + 1) s]
        exact h2
    rcases hsup1 with he | ⟨t0, ht0, he⟩
    · rw [he] at hs
      exact hSS a s hs hmem2 k hak hk
    · rw [he] at hs
      have hcht0 : chainL toks (t0 + 1) t0 = s :: chainL toks (s + 1) s :=
        chainL_unfold_some hdall hs
      have hmem3 : a ∈ chainL toks (t0 + 1) t0 := by
        rw [hcht0]
        rcases hmem2 with rfl | h2
        · exact List.mem_cons_self a _
        · exact List.mem_cons.mpr (Or.inr h2)
      have hmem4 : a = p.toknext - 1 ∨
          a ∈ chainL toks (p.toknext - 1 + 1) (p.toknext - 1) := by
        rcases ht0 with rfl | h4
        · exact Or.inr hmem3
        · exact Or.inr (chainL_mem_trans hdall h4 hmem3)
      exact hS2 a (by omega) hmem4 k hak hk
  · intro a h0 hmem k hak hk
    rw [h1n] at h0 hmem hk
    rw [← hch (k + 1) k]
    have hmem2 : a = p.toknext - 1 ∨
        a ∈ chainL toks (p.toknext - 1 + 1) (p.toknext - 1) := by
      rcases hmem with rfl | h2
      · exact Or.inl rfl
      · right
        rw [hch (p.toknext - 1 + 1) (p.toknext - 1)]
        exact h2
    exact hS2 a h0 hmem2 k hak hk

theorem TreeInv_init : TreeInv [] jsmn_init := by
  refine ⟨⟨rfl, ?_, ?_⟩, ?_, ?_, ?_, ?_⟩
  · intro i hi
    exact absurd hi (by simp)
  · intro s hs
    exact Option.noConfusion hs
  · intro a ha
    exact absurd ha (Nat.not_lt_zero a)
  · intro c a hc
    exact absurd hc (Nat.not_lt_zero c)
  · intro a s hs
    exact Option.noConfusion hs
  · intro a h0
    exact absurd h0 (by decide)

theorem TreeInv_alloc_nosuper {toks : List jsmntok_t} {p p1 : jsmn_parser_t}
    {tok : jsmntok_t}
    (hI : TreeInv toks p) (heq : p.toksuper = none)
    (htokp : tok.parent = p.toksuper) (htoks0 : tok.size = 0)
    (h1n : p1.toknext = p.toknext + 1)
    (h1s : p1.toksuper = p.toksuper ∨ p1.toksuper = some p.toknext) :
    TreeInv (writeTok toks p.toknext tok) p1 := by
  have hL : toks.length = p.toknext := hI.1.1
  refine TreeInv_attach hI ?_ ?_ htokp htoks0 h1n h1s
  · rw [writeTok_length, if_neg (by omega)]
  · intro j
    rw [getTok_writeTok toks p.toknext j tok (by omega)]
    by_cases hj : j = p.toknext
    · rw [if_pos hj, if_pos hj]
    · rw [if_neg hj, if_neg hj, heq, if_neg (fun hc => Option.noConfusion hc)]

theorem TreeInv_alloc_bump_first {toks : List jsmntok_t} {p p1 : jsmn_parser_t}
    {tok : jsmntok_t} {s : Nat}
    (hI : TreeInv toks p) (heq : p.toksuper = some s)
    (htokp : tok.parent = p.toksuper) (htoks0 : tok.size = 0)
    (h1n : p1.toknext = p.toknext + 1)
    (h1s : p1.toksuper = p.toksuper ∨ p1.toksuper = some p.toknext) :
    TreeInv (writeTok (writeTok toks s
      { getTok toks s with size := (getTok toks s).size + 1 }) p.toknext tok) p1 := by
  have hL : toks.length = p.toknext := hI.1.1
  have hs : s < p.toknext := hI.1.2.2 s heq
  have hl1 : (writeTok toks s
      { getTok toks s with size := (getTok toks s).size + 1 }).length = toks.length := by
    rw [writeTok_length, if_pos (by omega)]
  refine TreeInv_attach hI ?_ ?_ htokp htoks0 h1n h1s
  · rw [writeTok_length, hl1, if_neg (by omega)]
  · intro j
    rw [getTok_writeTok _ p.toknext j tok (by rw [hl1]; omega)]
    by_cases hj : j = p.toknext
    · rw [if_pos hj, if_pos hj]
    · rw [if_neg hj, if_neg hj, getTok_writeTok toks s j _ (by omega)]
      by_cases hjs : j = s
      · rw [if_pos hjs, if_pos (by rw [heq, hjs])]
        subst hjs
        rfl
      · rw [if_neg hjs, if_neg (fun hc => hjs (Option.some.inj (heq.symm.trans hc)).symm)]

theorem TreeInv_alloc_bump_after {toks : List jsmntok_t} {p p1 : jsmn_parser_t}
    {tok : jsmntok_t} {s : Nat}
    (hI : TreeInv toks p) (heq : p.toksuper = some s)
    (htokp : tok.parent = p.toksuper) (htoks0 : tok.size = 0)
    (h1n : p1.toknext = p.toknext + 1)
    (h1s : p1.toksuper = p.toksuper ∨ p1.toksuper = some p.toknext) :
    TreeInv (writeTok (writeTok toks p.toknext tok) s
      { getTok (writeTok toks p.toknext tok) s with
        size := (getTok (writeTok toks p.toknext tok) s).size + 1 }) p1 := by
  have hL : toks.length = p.toknext := hI.1.1
  have hs : s < p.toknext := hI.1.2.2 s heq
  have hl1 : (writeTok toks p.toknext tok).length = toks.length + 1 := by
    rw [writeTok_length, if_neg (by omega)]
  have hts : getTok (writeTok toks p.toknext tok) s = getTok toks s := by
    rw [getTok_writeTok toks p.toknext s tok (by omega), if_neg (by omega)]
  refine TreeInv_attach hI ?_ ?_ htokp htoks0 h1n h1s
  · rw [writeTok_length, hl1, if_pos (by omega)]
  · intro j
    rw [getTok_writeTok _ s j _ (by rw [hl1]; omega)]
    by_cases hjs : j = s
    · rw [if_pos hjs, if_neg (show ¬j = p.toknext by omega), if_pos (by rw [heq, hjs]),
        hts]
      subst hjs
      rfl
    · rw [if_neg hjs, getTok_writeTok toks p.toknext j tok (by omega)]
      by_cases hj : j = p.toknext
      · rw [if_pos hj, if_pos hj]
      · rw [if_neg hj, if_neg hj,
          if_neg (fun hc => hjs (Option.some.inj (heq.symm.trans hc)).symm)]

theorem jsmn_parse_string_shape {p : jsmn_parser_t} {js : List Char} {len cap : Nat}
    {toks : List jsmntok_t} {p1 : jsmn_parser_t} {o1 : Option (List jsmntok_t)} {u : Unit}
    (h : jsmn_parse_string p js len (some toks) cap = (p1, o1, Except.ok u)) :
    ∃ tok : jsmntok_t, o1 = some (writeTok toks p.toknext tok) ∧
      tok.parent = p.toksuper ∧ tok.size = 0 ∧
      p1.toknext = p.toknext + 1 ∧ p1.toksuper = p.toksuper := by
  simp only [jsmn_parse_string] at h
  split at h
  · rw [Prod.mk.injEq, Prod.mk.injEq] at h
    exact Except.noConfusion h.2.2
  · split at h
    · rw [Prod.mk.injEq, Prod.mk.injEq] at h
      exact Except.noConfusion h.2.2
    · split at h
      · split at h
        · rw [Prod.mk.injEq, Prod.mk.injEq] at h
          obtain ⟨e1, e2, e3⟩ := h
          subst e1
          subst e2
          exact ⟨_, rfl, rfl, rfl, rfl, rfl⟩
        · rw [Prod.mk.injEq, Prod.mk.injEq] at h
          obtain ⟨e1, e2, e3⟩ := h
          subst e1
          subst e2
          exact ⟨_, rfl, rfl, rfl, rfl, rfl⟩
      · rw [Prod.mk.injEq, Prod.mk.injEq] at h
        exact Except.noConfusion h.2.2

theorem jsmn_parse_primitive_shape {p : jsmn_parser_t} {js : List Char} {len cap : Nat}
    {toks : List jsmntok_t} {p1 : jsmn_parser_t} {o1 : Option (List jsmntok_t)} {u : Unit}
    (h : jsmn_parse_primitive p js len (some toks) cap = (p1, o1, Except.ok u)) :
    ∃ tok : jsmntok_t, o1 = some (writeTok toks p.toknext tok) ∧
      tok.parent = p.toksuper ∧ tok.size = 0 ∧
      p1.toknext = p.toknext + 1 ∧ p1.toksuper = p.toksuper := by
  simp only [jsmn_parse_primitive] at h
  split at h
  · rw [Prod.mk.injEq, Prod.mk.injEq] at h
    exact Except.noConfusion h.2.2
  · split at h
    · rw [Prod.mk.injEq, Prod.mk.injEq] at h
      exact Except.noConfusion h.2.2
    · split at h
      · rw [Prod.mk.injEq, Prod.mk.injEq] at h
        obtain ⟨e1, e2, e3⟩ := h
        subst e1
        subst e2
        exact ⟨_, rfl, rfl, rfl, rfl, rfl⟩
      · rw [Prod.mk.injEq, Prod.mk.injEq] at h
        exact Except.noConfusion h.2.2

theorem jsmn_parse_step_tree {js : List Char} {len cap : Nat} {p : jsmn_parser_t}
    {toks : List jsmntok_t} {count : Nat} {p1 : jsmn_parser_t}
    {o1 : Option (List jsmntok_t)} {c1 : Nat}
    (hI : TreeInv toks p)
    (h : jsmn_parse_step js len cap p (some toks) count = StepRes.next p1 o1 c1) :
    ∃ toks1, o1 = some toks1 ∧ TreeInv toks1 p1 := by
  simp only [jsmn_parse_step] at h
  by_cases hbr : byteAt js p.pos = '{' ∨ byteAt js p.pos = '['
  · rw [if_pos hbr] at h
    by_cases hcap : p.toknext < cap
    · rw [if_pos hcap] at h
      by_cases hexp : jsmn_is_expected p
          (if byteAt js p.pos = '{' then JSMN_OBJECT else JSMN_ARRAY) = 0
      · rw [if_pos hexp] at h
        exact StepRes.noConfusion h
      · rw [if_neg hexp] at h
        split at h
        · rename_i s heq
          injection h with e1 e2 e3
          subst e1
          subst e2
          exact ⟨_, rfl, TreeInv_alloc_bump_first hI heq heq.symm rfl rfl (Or.inr rfl)⟩
        · rename_i heq
          injection h with e1 e2 e3
          subst e1
          subst e2
          exact ⟨_, rfl, TreeInv_alloc_nosuper hI heq heq.symm rfl rfl (Or.inr rfl)⟩
    · rw [if_neg hcap] at h
      exact StepRes.noConfusion h
  · rw [if_neg hbr] at h
    by_cases hbr2 : byteAt js p.pos = '}' ∨ byteAt js p.pos = ']'
    · rw [if_pos hbr2] at h
      by_cases hce : jsmn_is_expected p JSMN_CLOSE = 0
      · rw [if_pos hce] at h
        exact StepRes.noConfusion h
      · rw [if_neg hce] at h
        by_cases hk1 : p.toknext < 1
        · rw [if_pos hk1] at h
          exact StepRes.noConfusion h
        · rw [if_neg hk1] at h
          split at h
          · exact StepRes.noConfusion h
          · rename_i toks1 super1 heq
            injection h with e1 e2 e3
            subst e1
            subst e2
            exact ⟨toks1, rfl, TreeInv_close hI hk1 heq rfl rfl⟩
    · rw [if_neg hbr2] at h
      by_cases hq : byteAt js p.pos = '"'
      · rw [if_pos hq] at h
        generalize hst : jsmn_parse_string p js len (some toks) cap = y at h
        obtain ⟨p2, o2, r2⟩ := y
        cases r2 with
        | error e => exact StepRes.noConfusion h
        | ok u =>
          obtain ⟨tok, ho2, htokp, htoks0, hn2, hs2⟩ := jsmn_parse_string_shape hst
          subst ho2
          obtain ⟨q1, q2, q3, q4⟩ := p2
          cases q3 with
          | none =>
            injection h with e1 e2 e3
            subst e1
            subst e2
            exact ⟨_, rfl, TreeInv_alloc_nosuper hI hs2.symm htokp htoks0 hn2 (Or.inl hs2)⟩
          | some s =>
            injection h with e1 e2 e3
            subst e1
            subst e2
            exact ⟨_, rfl,
              TreeInv_alloc_bump_after hI hs2.symm htokp htoks0 hn2 (Or.inl hs2)⟩
      · rw [if_neg hq] at h
        by_cases hws : byteAt js p.pos = ' ' ∨ byteAt js p.pos = '\t' ∨
            byteAt js p.pos = '\n' ∨ byteAt js p.pos = Char.ofNat 13
        · rw [if_pos hws] at h
          injection h with e1 e2 e3
          subst e1
          subst e2
          exact ⟨toks, rfl, TreeInv_retarget hI rfl rfl⟩
        · rw [if_neg hws] at h
          by_cases hco : byteAt js p.pos = ':'
          · rw [if_pos hco] at h
            by_cases hde : jsmn_is_expected p JSMN_DELIMITER = 0
            · rw [if_pos hde] at h
              exact StepRes.noConfusion h
            · rw [if_neg hde] at h
              by_cases hkey : p.toksuper = none ∨
                  jsmn_is_type (getTok toks (p.toknext - 1)) JSMN_KEY = 0
              · rw [if_pos hkey] at h
                exact StepRes.noConfusion h
              · rw [if_neg hkey] at h
                injection h with e1 e2 e3
                subst e1
                subst e2
                exact ⟨toks, rfl, TreeInv_colon hI rfl rfl⟩
          · rw [if_neg hco] at h
            by_cases hcm : byteAt js p.pos = ','
            · rw [if_pos hcm] at h
              by_cases hsupn : p.toksuper ≠ none
              · rw [if_pos hsupn] at h
                by_cases hde : jsmn_is_expected p JSMN_DELIMITER = 0
                · rw [if_pos hde] at h
                  exact StepRes.noConfusion h
                · rw [if_neg hde] at h
                  by_cases hkey : jsmn_is_type (getTok toks (p.toknext - 1)) JSMN_KEY ≠ 0
                  · rw [if_pos hkey] at h
                    exact StepRes.noConfusion h
                  · rw [if_neg hkey] at h
                    injection h with e1 e2 e3
                    subst e1
                    subst e2
                    refine ⟨toks, rfl, ?_⟩
                    obtain ⟨sp, hps⟩ := Option.ne_none_iff_exists.mp hsupn
                    by_cases hcon : jsmn_is_type (getSuperTok toks p.toksuper)
                        JSMN_CONTAINER = 0
                    · refine TreeInv_comma_fix hI hps.symm rfl ?_
                      show (if jsmn_is_type (getSuperTok toks p.toksuper)
                          JSMN_CONTAINER = 0 then (getSuperTok toks p.toksuper).parent
                          else p.toksuper) = (getTok toks sp).parent
                      rw [if_pos hcon, ← hps]
                      rfl
                    · refine TreeInv_retarget hI rfl ?_
                      show (if jsmn_is_type (getSuperTok toks p.toksuper)
                          JSMN_CONTAINER = 0 then (getSuperTok toks p.toksuper).parent
                          else p.toksuper) = p.toksuper
                      rw [if_neg hcon]
              · rw [if_neg hsupn] at h
                injection h with e1 e2 e3
                subst e1
                subst e2
                exact ⟨toks, rfl, TreeInv_retarget hI rfl rfl⟩
            · rw [if_neg hcm] at h
              by_cases hpr : isPrimStart (byteAt js p.pos) = true
              · rw [if_pos hpr] at h
                generalize hpm : jsmn_parse_primitive p js len (some toks) cap = y at h
                obtain ⟨p2, o2, r2⟩ := y
                cases r2 with
                | error e => exact StepRes.noConfusion h
                | ok u =>
                  obtain ⟨tok, ho2, htokp, htoks0, hn2, hs2⟩ :=
                    jsmn_parse_primitive_shape hpm
                  subst ho2
                  obtain ⟨q1, q2, q3, q4⟩ := p2
                  cases q3 with
                  | none =>
                    injection h with e1 e2 e3
                    subst e1
                    subst e2
                    exact ⟨_, rfl,
                      TreeInv_alloc_nosuper hI hs2.symm htokp htoks0 hn2 (Or.inl hs2)⟩
                  | some s =>
                    injection h with e1 e2 e3
                    subst e1
                    subst e2
                    exact ⟨_, rfl,
                      TreeInv_alloc_bump_after hI hs2.symm htokp htoks0 hn2 (Or.inl hs2)⟩
              · rw [if_neg hpr] at h
                exact StepRes.noConfusion h

theorem jsmn_parse_loop_tree {js : List Char} {len cap : Nat} :
    ∀ (fuel : Nat) (p : jsmn_parser_t) (toks : List jsmntok_t) (count : Nat)
      {P : jsmn_parser_t} {oT : Option (List jsmntok_t)} {n : Nat},
    TreeInv toks p →
    jsmn_parse_loop js len cap fuel p (some toks) count = (P, oT, Except.ok n) →
    ∃ T, oT = some T ∧ TreeInv T P := by
  intro fuel
  induction fuel with
  | zero =>
    intro p toks count P oT n hI h
    simp only [jsmn_parse_loop, jsmn_parse_fin] at h
    split at h
    · rw [Prod.mk.injEq, Prod.mk.injEq] at h
      exact Except.noConfusion h.2.2
    · rw [Prod.mk.injEq, Prod.mk.injEq] at h
      obtain ⟨e1, e2, e3⟩ := h
      subst e1
      subst e2
      exact ⟨toks, rfl, hI⟩
  | succ fuel ih =>
    intro p toks count P oT n hI h
    rw [jsmn_parse_loop] at h
    split at h
    · split at h
      · rename_i p1 o1 c1 heq
        obtain ⟨toks1, rfl, hI1⟩ := jsmn_parse_step_tree hI heq
        exact ih p1 toks1 c1 hI1 h
      · rw [Prod.mk.injEq, Prod.mk.injEq] at h
        exact Except.noConfusion h.2.2
    · simp only [jsmn_parse_fin] at h
      split at h
      · rw [Prod.mk.injEq, Prod.mk.injEq] at h
        exact Except.noConfusion h.2.2
      · rw [Prod.mk.injEq, Prod.mk.injEq] at h
        obtain ⟨e1, e2, e3⟩ := h
        subst e1
        subst e2
        exact ⟨toks, rfl, hI⟩

theorem chainStack_length (toks : List jsmntok_t) (i : Nat) :
    (chainStack toks i).length = (chainL toks (i + 1) i).length := by
  unfold chainStack
  cases chainL toks (i + 1) i with
  | nil => rfl
  | cons a rest => simp

theorem chainStack_map_fst (toks : List jsmntok_t) (i : Nat) :
    (chainStack toks i).map Prod.fst = chainL toks (i + 1) i := by
  unfold chainStack
  cases chainL toks (i + 1) i with
  | nil => rfl
  | cons a rest =>
    simp only [List.map_cons, List.map_map]
    have h1 : (Prod.fst ∘ fun b =>
        (b, (getTok toks b).size - childrenBefore toks b i + 1)) = fun b => b := rfl
    rw [h1, List.map_id']

/-- Claim C9: with parent links enabled, after a successful jsmn_parse run over
a pool starting from jsmn_init, every parent field of the final pool equals the
structural parent of the caller-stack tree reconstruction computed from token
order and size fields alone (nestingParent), parent links point strictly
downward, and following a token's parent link repeatedly reaches the structural
top-level token of its tree (nestingRoot, the bottom of the reconstruction
stack) in exactly that token's structural nesting depth steps (nestingDepth,
the height of the reconstruction stack): parentDepth coincides with
nestingDepth, iterating the parent link nestingDepth times lands on
nestingRoot, the parent field there is the none sentinel, and every strictly
earlier step of the walk still sits at a token whose parent is present. -/
theorem c9_parent_chain_depth (js : List Char) (len cap : Nat)
    (P : jsmn_parser_t) (T : List jsmntok_t) (n : Nat)
    (h : jsmn_parse jsmn_init js len (some []) cap = (P, some T, Except.ok n)) :
    ParentsDec T ∧
    ∀ i, i < T.length →
      (getTok T i).parent = nestingParent T i ∧
      parentDepth T (i + 1) i = nestingDepth T i ∧
      chainIter T (nestingDepth T i) i = nestingRoot T i ∧
      (getTok T (nestingRoot T i)).parent = none ∧
      ∀ k, k < nestingDepth T i → (getTok T (chainIter T k i)).parent ≠ none := by
  have hI0 : TreeInv [] jsmn_init := TreeInv_init
  have hl : jsmn_parse jsmn_init js len (some []) cap =
      jsmn_parse_loop js len cap (len + 1) jsmn_init (some []) jsmn_init.toknext := rfl
  rw [hl] at h
  obtain ⟨T2, hT2, hIT⟩ :=
    jsmn_parse_loop_tree (len + 1) jsmn_init [] jsmn_init.toknext hI0 h
  injection hT2 with hT3
  subst hT3
  obtain ⟨hPool, hSZ, hF3, hSS, hS2⟩ := hIT
  have hd := parentsDec_all hPool.2.1
  have hL : T.length = P.toknext := hPool.1
  have hsz : ∀ a, a < T.length → (getTok T a).size = childrenBefore T a T.length := by
    intro a ha
    rw [hL] at ha ⊢
    exact hSZ a ha
  have hpre : ∀ c a, c < T.length → (getTok T c).parent = some a →
      ∀ k, a < k → k < c → a ∈ chainL T (k + 1) k := by
    intro c a hc
    rw [hL] at hc
    exact hF3 c a hc
  have hbridge := nestStack_eq_chainStack hd hsz hpre
  refine ⟨hPool.2.1, ?_⟩
  intro i hi
  have hbi : nestStackAt T i = chainStack T i := hbridge i (Nat.le_of_lt hi)
  have hdep : nestingDepth T i = (chainL T (i + 1) i).length := by
    unfold nestingDepth
    rw [hbi, chainStack_length]
  have hroot : nestingRoot T i = (chainL T (i + 1) i).getLastD i := by
    unfold nestingRoot
    rw [hbi, ← chainStack_map_fst T i, List.getLastD_eq_getLast?, List.getLast?_map]
    cases (chainStack T i).getLast? with
    | none => rfl
    | some z =>
      obtain ⟨a, c⟩ := z
      rfl
  refine ⟨?_, ?_, ?_, ?_, ?_⟩
  · unfold nestingParent
    rw [hbi]
    unfold chainStack
    cases hp : (getTok T i).parent with
    | none => rw [chainL_unfold_none hp]
    | some j => rw [chainL_unfold_some hd hp]
  · rw [hdep]
    exact parentDepth_eq_chainL hd i
  · rw [hdep, hroot]
    exact chainIter_last hd i
  · rw [hroot]
    exact chainL_last_parent_none hd i
  · intro k hk
    rw [hdep] at hk
    refine (chain_reaches hd i).2 k ?_
    rw [parentDepth_eq_chainL hd i]
    exact hk

theorem c9_parent_chain_depth_witness :
    ParentsDec ([{ type := 33, start := some 0, end_ := some 7, size := 1, parent := none }, { type := 20, start := some 2, end_ := some 3, size := 1, parent := some 0 }, { type := 40, start := some 5, end_ := some 6, size := 0, parent := some 1 }] : List jsmntok_t) ∧
    ∀ i, i < ([{ type := 33, start := some 0, end_ := some 7, size := 1, parent := none }, { type := 20, start := some 2, end_ := some 3, size := 1, parent := some 0 }, { type := 40, start := some 5, end_ := some 6, size := 0, parent := some 1 }] : List jsmntok_t).length →
      (getTok ([{ type := 33, start := some 0, end_ := some 7, size := 1, parent := none }, { type := 20, start := some 2, end_ := some 3, size := 1, parent := some 0 }, { type := 40, start := some 5, end_ := some 6, size := 0, parent := some 1 }] : List jsmntok_t) i).parent = nestingParent ([{ type := 33, start := some 0, end_ := some 7, size := 1, parent := none }, { type := 20, start := some 2, end_ := some 3, size := 1, parent := some 0 }, { type := 40, start := some 5, end_ := some 6, size := 0, parent := some 1 }] : List jsmntok_t) i ∧
      parentDepth ([{ type := 33, start := some 0, end_ := some 7, size := 1, parent := none }, { type := 20, start := some 2, end_ := some 3, size := 1, parent := some 0 }, { type := 40, start := some 5, end_ := some 6, size := 0, parent := some 1 }] : List jsmntok_t) (i + 1) i = nestingDepth ([{ type := 33, start := some 0, end_ := some 7, size := 1, parent := none }, { type := 20, start := some 2, end_ := some 3, size := 1, parent := some 0 }, { type := 40, start := some 5, end_ := some 6, size := 0, parent := some 1 }] : List jsmntok_t) i ∧
      chainIter ([{ type := 33, start := some 0, end_ := some 7, size := 1, parent := none }, { type := 20, start := some 2, end_ := some 3, size := 1, parent := some 0 }, { type := 40, start := some 5, end_ := some 6, size := 0, parent := some 1 }] : List jsmntok_t) (nestingDepth ([{ type := 33, start := some 0, end_ := some 7, size := 1, parent := none }, { type := 20, start := some 2, end_ := some 3, size := 1, parent := some 0 }, { type := 40, start := some 5, end_ := some 6, size := 0, parent := some 1 }] : List jsmntok_t) i) i = nestingRoot ([{ type := 33, start := some 0, end_ := some 7, size := 1, parent := none }, { type := 20, start := some 2, end_ := some 3, size := 1, parent := some 0 }, { type := 40, start := some 5, end_ := some 6, size := 0, parent := some 1 }] : List jsmntok_t) i ∧
      (getTok ([{ type := 33, start := some 0, end_ := some 7, size := 1, parent := none }, { type := 20, start := some 2, end_ := some 3, size := 1, parent := some 0 }, { type := 40, start := some 5, end_ := some 6, size := 0, parent := some 1 }] : List jsmntok_t) (nestingRoot ([{ type := 33, start := some 0, end_ := some 7, size := 1, parent := none }, { type := 20, start := some 2, end_ := some 3, size := 1, parent := some 0 }, { type := 40, start := some 5, end_ := some 6, size := 0, parent := some 1 }] : List jsmntok_t) i)).parent = none ∧
      ∀ k, k < nestingDepth ([{ type := 33, start := some 0, end_ := some 7, size := 1, parent := none }, { type := 20, start := some 2, end_ := some 3, size := 1, parent := some 0 }, { type := 40, start := some 5, end_ := some 6, size := 0, parent := some 1 }] : List jsmntok_t) i → (getTok ([{ type := 33, start := some 0, end_ := some 7, size := 1, parent := none }, { type := 20, start := some 2, end_ := some 3, size := 1, parent := some 0 }, { type := 40, start := some 5, end_ := some 6, size := 0, parent := some 1 }] : List jsmntok_t) (chainIter ([{ type := 33, start := some 0, end_ := some 7, size := 1, parent := none }, { type := 20, start := some 2, end_ := some 3, size := 1, parent := some 0 }, { type := 40, start := some 5, end_ := some 6, size := 0, parent := some 1 }] : List jsmntok_t) k i)).parent ≠ none :=
  c9_parent_chain_depth ['{', '"', 'a', '"', ':', '1', '}'] 7 3
    { pos := 7, toknext := 3, toksuper := none, expected := 3 }
    ([{ type := 33, start := some 0, end_ := some 7, size := 1, parent := none }, { type := 20, start := some 2, end_ := some 3, size := 1, parent := some 0 }, { type := 40, start := some 5, end_ := some 6, size := 0, parent := some 1 }] : List jsmntok_t) 3 rfl

end Jsmn
